import Mathlib

/-!
# Verification of the PMT asset-management core (src/PMT/PMT_v2.py)

This file gives a shallow embedding of the hierarchy data model, schema
migration, naming resolution, document operations, and filesystem
reconciliation implemented by `ProjectManagerUI` / `HoudiniConnection` in
`src/PMT/PMT_v2.py`, and proves (or refutes) the specified properties.

Two layers are modelled:

* a JSON layer (`JValue`) for the on-disk document shape, used for the
  schema migration performed in `load_assets_from_json` and for the shape
  written by `save_assets_to_json`;
* a typed layer (`Hierarchy`, `PMTState`) for the in-memory document and
  the UI-driven operations (`add_project`, `rename_project`,
  `delete_project`, `create_asset_clicked`, `edit_asset_clicked`,
  `delete_asset_clicked`), together with a directory-tree model (`FSNode`)
  of `sync_filesystem_with_json` / `cleanup_filesystem` /
  `create_hidden_folders`.
-/

namespace PMT

/-! ## JSON values

`JValue` models the values `json.load` can produce (plus the in-memory
values the migration code manipulates).  Numbers, booleans and `null` are
collapsed into `scalar`, since the migration code treats every non-string,
non-list, non-dict value uniformly (it either leaves it alone or raises,
and the distinction between the raisers never matters). -/

inductive JValue where
  | str (s : String)
  | arr (xs : List JValue)
  | obj (fields : List (String × JValue))
  | scalar
deriving Repr

/-- Python dict key membership (`k in d` for a dict `d`).  Dicts are
modelled as association lists in insertion order (Python 3.7+ dicts are
ordered); genuine dicts never contain a key twice. -/
def hasKey {α : Type} : List (String × α) → String → Bool
  | [], _ => false
  | (a, _) :: l, k => a == k || hasKey l k

/-- Python dict lookup `d[k]` / `d.get(k)` (first binding wins). -/
def getKey {α : Type} : List (String × α) → String → Option α
  | [], _ => none
  | (a, b) :: l, k => if a = k then some b else getKey l k

/-- Python `d.pop(k)`: remove the binding of `k`. -/
def eraseKey {α : Type} (l : List (String × α)) (k : String) :
    List (String × α) :=
  l.filter (fun p => p.1 ≠ k)

/-- Python `d[k] = v`: replace in place if the key is present (keeping its
position), otherwise append at the end. -/
def setKey {α : Type} (l : List (String × α)) (k : String) (v : α) :
    List (String × α) :=
  if hasKey l k then l.map (fun p => if p.1 = k then (k, v) else p)
  else l ++ [(k, v)]

@[simp] theorem hasKey_nil {α : Type} (k : String) :
    hasKey ([] : List (String × α)) k = false := rfl

@[simp] theorem hasKey_cons {α : Type} (a : String) (b : α) (l : List (String × α))
    (k : String) : hasKey ((a, b) :: l) k = (a == k || hasKey l k) := rfl

@[simp] theorem getKey_nil {α : Type} (k : String) :
    getKey ([] : List (String × α)) k = none := rfl

@[simp] theorem getKey_cons {α : Type} (a : String) (b : α) (l : List (String × α))
    (k : String) : getKey ((a, b) :: l) k = if a = k then some b else getKey l k := rfl

/-- `display_name.replace(" ", "")`: remove every space character
(replacing each single-character match `" "` by `""` deletes exactly the
space characters). -/
def removeSpaces (s : String) : String := ⟨s.data.filter (fun c => c ≠ ' ')⟩

/-! ## Schema migration (`load_assets_from_json`, lines 331-356)

The migration walks the freshly parsed document:
* a category named `"Meshes"` is renamed to `"Static Meshes"`
  (`categories["Static Meshes"] = categories.pop("Meshes")`);
* bare-string asset entries become
  `{"display_name": a, "db_name": a.replace(" ", "")}`;
* a category value of the wrapper form `{"assets": [...]}` has its inner
  list migrated *in place* (the wrapper itself is kept);
* the `naming_conventions` entry has a `"Meshes"` key renamed as well.

Any exception during the walk is caught and the loader returns `{}`;
`Option` models the raising paths (mutating a non-empty dict while
iterating it raises `RuntimeError`, item-assignment into a string raises
`TypeError`, `enumerate` of a scalar raises `TypeError`, `.items()` /
`.pop` on non-dicts raise). -/

/-- Migration of one asset entry (`asset_list[i] = {...}` when the entry
`isinstance(a, str)`; every other entry is left unchanged). -/
def migrateEntry : JValue → JValue
  | .str a => .obj [("display_name", .str a), ("db_name", .str (removeSpaces a))]
  | v => v

/-- Migration of an `asset_list` value (the loop
`for i, a in enumerate(asset_list)`).  A list is migrated elementwise; an
empty dict or empty string yields no iterations; a non-empty dict raises
`RuntimeError` on the first string key (the assignment `asset_list[i] = ...`
grows the dict mid-iteration), a non-empty string raises `TypeError`
(string item assignment), and a scalar raises `TypeError` in `enumerate`. -/
def migrateAssetList : JValue → Option JValue
  | .arr xs => some (.arr (xs.map migrateEntry))
  | .obj [] => some (.obj [])
  | .obj (_ :: _) => none
  | .str s => if s = "" then some (.str "") else none
  | .scalar => none

/-- Migration of one category value (`assets` in the loop body): the
wrapper form `{"assets": [...]}` has its inner value migrated in place,
anything else is migrated as the asset list itself. -/
def migrateAssets (v : JValue) : Option JValue :=
  match v with
  | .obj fields =>
    if hasKey fields "assets" then
      match getKey fields "assets" with
      | some inner =>
        (migrateAssetList inner).map (fun inner' => .obj (setKey fields "assets" inner'))
      | none => none
    else migrateAssetList (.obj fields)
  | v => migrateAssetList v

/-- `for cat, assets in categories.items()` with in-place migration of
every category value. -/
def migrateCatList : List (String × JValue) → Option (List (String × JValue))
  | [] => some []
  | (k, a) :: rest => do
    let a' ← migrateAssets a
    let rest' ← migrateCatList rest
    pure ((k, a') :: rest')

/-- Migration of one project value (`categories`): rename a `"Meshes"`
category to `"Static Meshes"` and migrate every category value.  A
non-dict project value always raises (`.pop` / `.items()` on non-dicts). -/
def migrateCategories : JValue → Option JValue
  | .obj cs =>
    let cs1 :=
      if hasKey cs "Meshes" then
        match getKey cs "Meshes" with
        | some v => setKey (eraseKey cs "Meshes") "Static Meshes" v
        | none => cs
      else cs
    (migrateCatList cs1).map JValue.obj
  | _ => none

/-- The outer loop `for project, categories in data.items()`, which skips
the `"naming_conventions"` entry. -/
def migrateProjects : List (String × JValue) → Option (List (String × JValue))
  | [] => some []
  | (k, v) :: rest =>
    if k = "naming_conventions" then
      (migrateProjects rest).map (fun rest' => (k, v) :: rest')
    else do
      let v' ← migrateCategories v
      let rest' ← migrateProjects rest
      pure ((k, v') :: rest')

/-- Python `"Meshes" in x` (the guard on line 351): key membership for a
dict, element membership for a list, substring test for a string, and a
`TypeError` for scalars. -/
def containsMeshes : JValue → Option Bool
  | .obj cs => some (hasKey cs "Meshes")
  | .arr xs => some (xs.any (fun v => match v with | .str s => s == "Meshes" | _ => false))
  | .str s => some (((s.splitOn "Meshes").length) > 1)
  | .scalar => none

/-- Lines 351-352: rename a `"Meshes"` key inside `data["naming_conventions"]`.
When the membership test succeeds on a non-dict the subsequent
`.pop` / item assignment raises. -/
def migrateNamingConventions (fields : List (String × JValue)) :
    Option (List (String × JValue)) :=
  match getKey fields "naming_conventions" with
  | none => some fields
  | some nc =>
    match containsMeshes nc with
    | none => none
    | some false => some fields
    | some true =>
      match nc with
      | .obj m =>
        match getKey m "Meshes" with
        | some v =>
          some (setKey fields "naming_conventions"
            (.obj (setKey (eraseKey m "Meshes") "Static Meshes" v)))
        | none => none
      | _ => none

/-- The body of the `try` block in `load_assets_from_json` (minus file
I/O): `none` means an exception was raised. -/
def normalizeDoc (fields : List (String × JValue)) :
    Option (List (String × JValue)) := do
  let fields' ← migrateProjects fields
  migrateNamingConventions fields'

/-- `load_assets_from_json`: parse result `raw` is migrated; any exception
is caught and `{}` is returned (the catch-all `except` on line 354). -/
def normalize (raw : JValue) : JValue :=
  match raw with
  | .obj fields =>
    match normalizeDoc fields with
    | some fields' => .obj fields'
    | none => .obj []
  | _ => .obj []

/-! ### Dictionary lemmas -/

theorem getKey_isSome_of_hasKey {α : Type} {l : List (String × α)} {k : String}
    (h : hasKey l k = true) : ∃ b, getKey l k = some b := by
  induction l with
  | nil => simp at h
  | cons p rest ih =>
    obtain ⟨a, b⟩ := p
    by_cases hak : a = k
    · exact ⟨b, by simp [hak]⟩
    · simp [hak] at h ⊢
      exact ih h

theorem getKey_mem {α : Type} {l : List (String × α)} {k : String} {b : α}
    (h : getKey l k = some b) : (k, b) ∈ l := by
  induction l with
  | nil => simp at h
  | cons p rest ih =>
    obtain ⟨a, c⟩ := p
    by_cases hak : a = k
    · subst hak
      simp at h
      simp [h]
    · simp [hak] at h
      exact List.mem_cons_of_mem _ (ih h)

theorem hasKey_append {α : Type} (l₁ l₂ : List (String × α)) (k : String) :
    hasKey (l₁ ++ l₂) k = (hasKey l₁ k || hasKey l₂ k) := by
  induction l₁ with
  | nil => simp
  | cons p rest ih => obtain ⟨a, b⟩ := p; simp [ih, Bool.or_assoc]

theorem hasKey_eraseKey_self {α : Type} (l : List (String × α)) (k : String) :
    hasKey (eraseKey l k) k = false := by
  induction l with
  | nil => rfl
  | cons p rest ih =>
    obtain ⟨a, b⟩ := p
    by_cases hak : a = k
    · simpa [eraseKey, hak] using ih
    · simpa [eraseKey, hak] using ih

theorem hasKey_map_set {α : Type} (l : List (String × α)) (k k' : String) (v : α) :
    hasKey (l.map (fun p => if p.1 = k then (k, v) else p)) k' = hasKey l k' := by
  induction l with
  | nil => rfl
  | cons p rest ih =>
    obtain ⟨a, b⟩ := p
    by_cases hak : a = k
    · simp [hak, ih]
    · simp [hak, ih]

theorem map_set_id {α : Type} {l : List (String × α)} {k : String} {v : α}
    (h : hasKey l k = false) :
    l.map (fun p => if p.1 = k then (k, v) else p) = l := by
  induction l with
  | nil => rfl
  | cons p rest ih =>
    obtain ⟨a, b⟩ := p
    simp at h
    simp [h.1, ih h.2]

theorem hasKey_setKey_self {α : Type} (l : List (String × α)) (k : String) (v : α) :
    hasKey (setKey l k v) k = true := by
  unfold setKey
  split
  · next h =>
    rw [hasKey_map_set]; exact h
  · simp [hasKey_append]

theorem hasKey_setKey_ne {α : Type} (l : List (String × α)) {k k' : String} (v : α)
    (hne : k' ≠ k) : hasKey (setKey l k v) k' = hasKey l k' := by
  unfold setKey
  split
  · rw [hasKey_map_set]
  · simp [hasKey_append, hne, Ne.symm hne]

theorem getKey_map_set_self {α : Type} {l : List (String × α)} {k : String}
    {v : α} (h : hasKey l k = true) :
    getKey (l.map (fun p => if p.1 = k then (k, v) else p)) k = some v := by
  induction l with
  | nil => simp at h
  | cons p rest ih =>
    obtain ⟨a, b⟩ := p
    by_cases hak : a = k
    · simp [hak]
    · simp only [hasKey_cons, Bool.or_eq_true, beq_iff_eq, hak, false_or] at h
      simp only [List.map_cons, hak, if_false, getKey_cons]
      exact ih h

theorem getKey_append_pair {α : Type} {l : List (String × α)} {k : String}
    {v : α} (h : hasKey l k = false) :
    getKey (l ++ [(k, v)]) k = some v := by
  induction l with
  | nil => simp
  | cons p rest ih =>
    obtain ⟨a, b⟩ := p
    simp only [hasKey_cons, Bool.or_eq_false_iff, beq_eq_false_iff_ne, ne_eq] at h
    simp only [List.cons_append, getKey_cons, h.1, if_false]
    exact ih h.2

theorem getKey_setKey_self {α : Type} (l : List (String × α)) (k : String) (v : α) :
    getKey (setKey l k v) k = some v := by
  unfold setKey
  split
  · next h => exact getKey_map_set_self h
  · next h =>
    exact getKey_append_pair (by simpa using h)

theorem setKey_setKey_self {α : Type} (l : List (String × α)) (k : String) (v : α) :
    setKey (setKey l k v) k v = setKey l k v := by
  by_cases h : hasKey l k = true
  · have h1 : setKey l k v = l.map (fun p => if p.1 = k then (k, v) else p) := by
      unfold setKey; simp [h]
    rw [h1]
    unfold setKey
    rw [hasKey_map_set]
    simp only [h, if_true]
    rw [List.map_map]
    apply List.map_congr_left
    intro p _
    by_cases hp : p.1 = k <;> simp [hp]
  · have h0 : hasKey l k = false := by simpa using h
    have h1 : setKey l k v = l ++ [(k, v)] := by
      unfold setKey; simp [h0]
    rw [h1]
    unfold setKey
    rw [hasKey_append]
    simp only [hasKey_cons, hasKey_nil, Bool.or_false, beq_self_eq_true, h0,
      Bool.false_or, if_true]
    rw [List.map_append, map_set_id h0]
    simp

theorem setKey_mem {α : Type} {l : List (String × α)} {k : String} {v : α}
    {p : String × α} (h : p ∈ setKey l k v) : p = (k, v) ∨ p ∈ l := by
  unfold setKey at h
  split at h
  · obtain ⟨q, hq, hqe⟩ := List.mem_map.mp h
    by_cases hqk : q.1 = k
    · left; rw [← hqe]; simp [hqk]
    · right; rw [← hqe]; simp only [hqk, if_false]; exact hq
  · rcases List.mem_append.mp h with h' | h'
    · right; exact h'
    · left; simpa using h'

/-! ### Migration idempotence (C6) -/

/-- Is this value a string? (`isinstance(a, str)`) -/
def JValue.isStr : JValue → Bool
  | .str _ => true
  | _ => false

theorem migrateEntry_idem (v : JValue) :
    migrateEntry (migrateEntry v) = migrateEntry v := by
  cases v <;> rfl

theorem migrateEntry_eq_self {v : JValue} (h : v.isStr = false) :
    migrateEntry v = v := by
  cases v <;> simp_all [JValue.isStr, migrateEntry]

theorem migrateAssetList_fix {v v' : JValue}
    (h : migrateAssetList v = some v') : migrateAssetList v' = some v' := by
  cases v with
  | arr xs =>
    simp only [migrateAssetList, Option.some.injEq] at h
    subst h
    simp only [migrateAssetList, Option.some.injEq, JValue.arr.injEq, List.map_map]
    apply List.map_congr_left
    intro a _
    exact migrateEntry_idem a
  | obj fields =>
    cases fields with
    | nil => simp only [migrateAssetList, Option.some.injEq] at h; subst h; rfl
    | cons p rest => simp [migrateAssetList] at h
  | str s =>
    by_cases hs : s = ""
    · subst hs
      simp only [migrateAssetList, if_true, Option.some.injEq] at h
      subst h; rfl
    · simp [migrateAssetList, hs] at h
  | scalar => simp [migrateAssetList] at h

theorem migrateAssets_obj (fields : List (String × JValue)) :
    migrateAssets (.obj fields) =
      if hasKey fields "assets" then
        match getKey fields "assets" with
        | some inner =>
          (migrateAssetList inner).map
            (fun inner' => JValue.obj (setKey fields "assets" inner'))
        | none => none
      else migrateAssetList (.obj fields) := rfl

theorem migrateAssets_fix {v v' : JValue}
    (h : migrateAssets v = some v') : migrateAssets v' = some v' := by
  cases v with
  | obj fields =>
    rw [migrateAssets_obj] at h
    by_cases hk : hasKey fields "assets" = true
    · rw [if_pos hk] at h
      obtain ⟨inner, hinner⟩ := getKey_isSome_of_hasKey hk
      rw [hinner] at h
      simp only [Option.map_eq_some'] at h
      obtain ⟨inner', hmal, hv'⟩ := h
      subst hv'
      rw [migrateAssets_obj, if_pos (hasKey_setKey_self fields "assets" inner'),
        getKey_setKey_self]
      show (migrateAssetList inner').map
          (fun i2 => JValue.obj (setKey (setKey fields "assets" inner') "assets" i2)) =
        some (JValue.obj (setKey fields "assets" inner'))
      rw [migrateAssetList_fix hmal]
      simp [setKey_setKey_self]
    · rw [if_neg hk] at h
      cases fields with
      | nil =>
        simp only [migrateAssetList, Option.some.injEq] at h
        subst h
        rw [migrateAssets_obj]
        simp [migrateAssetList]
      | cons p rest => simp [migrateAssetList] at h
  | arr xs =>
    have h' : migrateAssetList (.arr xs) = some v' := h
    have hv' : v' = .arr (xs.map migrateEntry) := by
      simp only [migrateAssetList, Option.some.injEq] at h'
      exact h'.symm
    subst hv'
    exact migrateAssetList_fix h'
  | str s =>
    have h' : migrateAssetList (.str s) = some v' := h
    by_cases hs : s = ""
    · subst hs
      simp only [migrateAssetList, if_true, Option.some.injEq] at h'
      subst h'
      exact migrateAssetList_fix (show migrateAssetList (.str "") = some (.str "") by
        simp [migrateAssetList])
    · simp [migrateAssetList, hs] at h'
  | scalar => exact Option.noConfusion h

theorem migrateCatList_fix {l l' : List (String × JValue)}
    (h : migrateCatList l = some l') : migrateCatList l' = some l' := by
  induction l generalizing l' with
  | nil => simp only [migrateCatList, Option.some.injEq] at h; subst h; rfl
  | cons p rest ih =>
    obtain ⟨k, a⟩ := p
    simp only [migrateCatList, Option.bind_eq_bind, Option.bind_eq_some] at h
    obtain ⟨a', ha', rest', hrest', hl'⟩ := h
    simp only [Option.pure_def, Option.some.injEq] at hl'
    subst hl'
    simp only [migrateCatList, Option.bind_eq_bind, Option.bind_eq_some]
    exact ⟨a', migrateAssets_fix ha', rest', ih hrest', rfl⟩

theorem migrateCatList_keys {l l' : List (String × JValue)}
    (h : migrateCatList l = some l') : l'.map Prod.fst = l.map Prod.fst := by
  induction l generalizing l' with
  | nil => simp only [migrateCatList, Option.some.injEq] at h; subst h; rfl
  | cons p rest ih =>
    obtain ⟨k, a⟩ := p
    simp only [migrateCatList, Option.bind_eq_bind, Option.bind_eq_some] at h
    obtain ⟨a', _, rest', hrest', hl'⟩ := h
    simp only [Option.pure_def, Option.some.injEq] at hl'
    subst hl'
    simp [ih hrest']

theorem hasKey_eq_of_keys_eq {α : Type} {l₁ l₂ : List (String × α)} (k : String)
    (h : l₁.map Prod.fst = l₂.map Prod.fst) : hasKey l₁ k = hasKey l₂ k := by
  induction l₁ generalizing l₂ with
  | nil =>
    cases l₂ with
    | nil => rfl
    | cons q r => simp at h
  | cons p rest ih =>
    cases l₂ with
    | nil => simp at h
    | cons q r =>
      obtain ⟨a, b⟩ := p; obtain ⟨c, d⟩ := q
      simp only [List.map_cons, List.cons.injEq] at h
      simp [h.1, ih h.2]

theorem migrateCategories_fix {v v' : JValue}
    (h : migrateCategories v = some v') : migrateCategories v' = some v' := by
  cases v with
  | obj cs =>
    unfold migrateCategories at h
    simp only [Option.map_eq_some'] at h
    obtain ⟨cs2, hcs2, hv'⟩ := h
    subst hv'
    set cs1 := (if hasKey cs "Meshes" then
        match getKey cs "Meshes" with
        | some w => setKey (eraseKey cs "Meshes") "Static Meshes" w
        | none => cs
      else cs) with hcs1def
    have hnomesh1 : hasKey cs1 "Meshes" = false := by
      rw [hcs1def]
      by_cases hk : hasKey cs "Meshes" = true
      · obtain ⟨w, hw⟩ := getKey_isSome_of_hasKey hk
        simp only [hk, if_true, hw]
        rw [hasKey_setKey_ne _ _ (by decide)]
        exact hasKey_eraseKey_self cs "Meshes"
      · simp only [Bool.not_eq_true] at hk
        simp [hk]
    have hnomesh2 : hasKey cs2 "Meshes" = false := by
      rw [hasKey_eq_of_keys_eq "Meshes" (migrateCatList_keys hcs2)]
      exact hnomesh1
    unfold migrateCategories
    simp [hnomesh2, migrateCatList_fix hcs2]
  | arr xs => simp [migrateCategories] at h
  | str s => simp [migrateCategories] at h
  | scalar => simp [migrateCategories] at h

theorem migrateProjects_fix {l l' : List (String × JValue)}
    (h : migrateProjects l = some l') : migrateProjects l' = some l' := by
  induction l generalizing l' with
  | nil => simp only [migrateProjects, Option.some.injEq] at h; subst h; rfl
  | cons p rest ih =>
    obtain ⟨k, v⟩ := p
    by_cases hk : k = "naming_conventions"
    · simp only [migrateProjects, hk, if_true, Option.map_eq_some'] at h
      obtain ⟨rest', hrest', hl'⟩ := h
      subst hl'
      simp only [migrateProjects, hk, if_true, Option.map_eq_some']
      exact ⟨rest', ih hrest', rfl⟩
    · simp only [migrateProjects, hk, if_false, Option.bind_eq_bind,
        Option.bind_eq_some] at h
      obtain ⟨v', hv', rest', hrest', hl'⟩ := h
      simp only [Option.pure_def, Option.some.injEq] at hl'
      subst hl'
      simp only [migrateProjects, hk, if_false, Option.bind_eq_bind,
        Option.bind_eq_some]
      exact ⟨v', migrateCategories_fix hv', rest', ih hrest', rfl⟩

theorem migrateProjects_entries {l l' : List (String × JValue)}
    (h : migrateProjects l = some l') :
    ∀ p ∈ l', p.1 ≠ "naming_conventions" → migrateCategories p.2 = some p.2 := by
  induction l generalizing l' with
  | nil =>
    simp only [migrateProjects, Option.some.injEq] at h
    subst h; intro p hp; simp at hp
  | cons q rest ih =>
    obtain ⟨k, v⟩ := q
    by_cases hk : k = "naming_conventions"
    · simp only [migrateProjects, hk, if_true, Option.map_eq_some'] at h
      obtain ⟨rest', hrest', hl'⟩ := h
      subst hl'
      intro p hp hpne
      rcases List.mem_cons.mp hp with h1 | h1
      · subst h1; exact absurd (by simp [hk]) hpne
      · exact ih hrest' p h1 hpne
    · simp only [migrateProjects, hk, if_false, Option.bind_eq_bind,
        Option.bind_eq_some] at h
      obtain ⟨v', hv', rest', hrest', hl'⟩ := h
      simp only [Option.pure_def, Option.some.injEq] at hl'
      subst hl'
      intro p hp hpne
      rcases List.mem_cons.mp hp with h1 | h1
      · subst h1; exact migrateCategories_fix hv'
      · exact ih hrest' p h1 hpne

theorem migrateProjects_of_entries {l : List (String × JValue)}
    (h : ∀ p ∈ l, p.1 ≠ "naming_conventions" → migrateCategories p.2 = some p.2) :
    migrateProjects l = some l := by
  induction l with
  | nil => rfl
  | cons q rest ih =>
    obtain ⟨k, v⟩ := q
    by_cases hk : k = "naming_conventions"
    · simp only [migrateProjects, hk, if_true, Option.map_eq_some']
      exact ⟨rest, ih (fun p hp => h p (List.mem_cons_of_mem _ hp)), rfl⟩
    · simp only [migrateProjects, hk, if_false, Option.bind_eq_bind,
        Option.bind_eq_some]
      exact ⟨v, h (k, v) (List.mem_cons_self _ _) hk, rest,
        ih (fun p hp => h p (List.mem_cons_of_mem _ hp)), rfl⟩

theorem migrateNamingConventions_mem {l l' : List (String × JValue)}
    (h : migrateNamingConventions l = some l') :
    ∀ p ∈ l', p.1 = "naming_conventions" ∨ p ∈ l := by
  unfold migrateNamingConventions at h
  split at h
  · simp only [Option.some.injEq] at h; subst h; exact fun p hp => Or.inr hp
  · next nc hnc =>
    split at h
    · exact absurd h (by simp)
    · simp only [Option.some.injEq] at h; subst h; exact fun p hp => Or.inr hp
    · split at h
      · split at h
        · simp only [Option.some.injEq] at h
          subst h
          intro p hp
          rcases setKey_mem hp with h1 | h1
          · left; rw [h1]
          · right; exact h1
        · exact absurd h (by simp)
      all_goals exact absurd h (by simp)

theorem migrateNamingConventions_fix {l l' : List (String × JValue)}
    (h : migrateNamingConventions l = some l') :
    migrateNamingConventions l' = some l' := by
  unfold migrateNamingConventions at h
  split at h
  · next hget =>
    simp only [Option.some.injEq] at h; subst h
    simp [migrateNamingConventions, hget]
  · next nc hget =>
    split at h
    · exact absurd h (by simp)
    · next hcm =>
      simp only [Option.some.injEq] at h; subst h
      simp [migrateNamingConventions, hget, hcm]
    · next hcm =>
      split at h
      · next m =>
        split at h
        · next w hw =>
          simp only [Option.some.injEq] at h
          subst h
          have hnomesh : hasKey (setKey (eraseKey m "Meshes") "Static Meshes" w)
              "Meshes" = false := by
            rw [hasKey_setKey_ne _ _ (by decide)]
            exact hasKey_eraseKey_self m "Meshes"
          simp [migrateNamingConventions, getKey_setKey_self, containsMeshes,
            hnomesh]
        · exact absurd h (by simp)
      all_goals exact absurd h (by simp)

theorem normalizeDoc_fix {l l' : List (String × JValue)}
    (h : normalizeDoc l = some l') : normalizeDoc l' = some l' := by
  unfold normalizeDoc at h
  simp only [Option.bind_eq_bind, Option.bind_eq_some] at h
  obtain ⟨l₁, hl₁, hnc⟩ := h
  have hentries₁ := migrateProjects_entries hl₁
  have hmp : migrateProjects l' = some l' := by
    apply migrateProjects_of_entries
    intro p hp hpne
    rcases migrateNamingConventions_mem hnc p hp with h1 | h1
    · exact absurd h1 hpne
    · exact hentries₁ p h1 hpne
  unfold normalizeDoc
  simp only [Option.bind_eq_bind, Option.bind_eq_some]
  exact ⟨l', hmp, migrateNamingConventions_fix hnc⟩

/-- A document is canonical when it has no `"Meshes"` category (in any
project or in `naming_conventions`), no bare-string asset entries, and no
wrapper-form category values. -/
def isCanonical : JValue → Bool
  | .obj fields =>
    fields.all (fun p =>
      if p.1 = "naming_conventions" then containsMeshes p.2 == some false
      else
        match p.2 with
        | .obj cs =>
          !hasKey cs "Meshes" &&
            cs.all (fun q =>
              match q.2 with
              | .arr xs => xs.all (fun e => !e.isStr)
              | _ => false)
        | _ => false)
  | _ => false

theorem migrateAssets_of_canonical {a : JValue}
    (h : (match a with
        | .arr xs => xs.all (fun e => !e.isStr)
        | _ => false) = true) :
    migrateAssets a = some a := by
  cases a with
  | arr xs =>
    have hxs : ∀ e ∈ xs, e.isStr = false := by
      simpa [List.all_eq_true] using h
    have hmap : xs.map migrateEntry = xs := by
      conv_rhs => rw [← List.map_id xs]
      apply List.map_congr_left
      intro e he
      rw [migrateEntry_eq_self (hxs e he)]; rfl
    show migrateAssetList (.arr xs) = some (.arr xs)
    simp [migrateAssetList, hmap]
  | obj l => simp at h
  | str s => simp at h
  | scalar => simp at h

theorem migrateCatList_of_canonical {cs : List (String × JValue)}
    (hall : cs.all (fun q =>
        (match q.2 with
        | .arr xs => xs.all (fun e => !e.isStr)
        | _ => false)) = true) :
    migrateCatList cs = some cs := by
  induction cs with
  | nil => rfl
  | cons q rest ih =>
    obtain ⟨k, a⟩ := q
    simp only [List.all_cons, Bool.and_eq_true] at hall
    simp only [migrateCatList, Option.bind_eq_bind, Option.bind_eq_some]
    exact ⟨a, migrateAssets_of_canonical hall.1, rest, ih hall.2, rfl⟩

theorem migrateCategories_of_canonical {v : JValue}
    (h : (match v with
        | .obj cs =>
          !hasKey cs "Meshes" &&
            cs.all (fun q =>
              match q.2 with
              | .arr xs => xs.all (fun e => !e.isStr)
              | _ => false)
        | _ => false) = true) :
    migrateCategories v = some v := by
  cases v with
  | obj cs =>
    simp only [Bool.and_eq_true, Bool.not_eq_true'] at h
    obtain ⟨hnomesh, hall⟩ := h
    unfold migrateCategories
    simp [hnomesh, migrateCatList_of_canonical hall]
  | arr xs => simp at h
  | str s => simp at h
  | scalar => simp at h

theorem normalize_of_canonical {x : JValue} (h : isCanonical x = true) :
    normalize x = x := by
  cases x with
  | obj fields =>
    unfold isCanonical at h
    simp only [List.all_eq_true] at h
    have hmp : migrateProjects fields = some fields := by
      apply migrateProjects_of_entries
      intro p hp hpne
      have := h p hp
      simp only [hpne, if_false] at this
      exact migrateCategories_of_canonical this
    have hnc : migrateNamingConventions fields = some fields := by
      cases hget : getKey fields "naming_conventions" with
      | none => simp [migrateNamingConventions, hget]
      | some nc =>
        have hmem := getKey_mem hget
        have hcf : containsMeshes nc = some false := by
          have := h _ hmem
          simpa using this
        simp [migrateNamingConventions, hget, hcf]
    simp [normalize, normalizeDoc, hmp, hnc]
  | arr xs => simp [isCanonical] at h
  | str s => simp [isCanonical] at h
  | scalar => simp [isCanonical] at h

/-- C6: schema migration (`normalize`, the migration performed by
`load_assets_from_json`) is idempotent — `normalize (normalize x) =
normalize x` for every raw input `x` — and normalizing an
already-canonical document (no `"Meshes"` category, no bare-string
assets, no wrapper-form category values) returns it unchanged. -/
theorem normalize_idempotent :
    (∀ x : JValue, normalize (normalize x) = normalize x) ∧
    (∀ x : JValue, isCanonical x = true → normalize x = x) := by
  constructor
  · intro x
    cases x with
    | obj fields =>
      cases hnd : normalizeDoc fields with
      | none =>
        have h1 : normalize (.obj fields) = .obj [] := by simp [normalize, hnd]
        rw [h1]; rfl
      | some fields' =>
        have h1 : normalize (.obj fields) = .obj fields' := by simp [normalize, hnd]
        rw [h1]
        simp [normalize, normalizeDoc_fix hnd]
    | arr xs => rfl
    | str s => rfl
    | scalar => rfl
  · exact fun x h => normalize_of_canonical h

/-- Witness for C6: a concrete canonical document is returned unchanged. -/
theorem normalize_idempotent_witness :
    isCanonical (.obj [("P", .obj [("Static Meshes",
        .arr [.obj [("display_name", .str "Rock"), ("db_name", .str "Rock")]])])]) = true ∧
    normalize (.obj [("P", .obj [("Static Meshes",
        .arr [.obj [("display_name", .str "Rock"), ("db_name", .str "Rock")]])])]) =
      .obj [("P", .obj [("Static Meshes",
        .arr [.obj [("display_name", .str "Rock"), ("db_name", .str "Rock")]])])] :=
  ⟨rfl, normalize_idempotent.2 _ rfl⟩

/-! ## Loading and persisting the document (C5)

`__init__` (lines 212-224) loads the migrated document, pops the
`naming_conventions` entry into a separate attribute, and inserts the
`"Master Assets"` project when it is missing.  `save_assets_to_json`
(lines 358-367) writes `dict(self.assets_hierarchy)` with the
`naming_conventions` entry assigned back.  Category values are written
exactly as held in memory — the migration never unwraps the legacy
`{"assets": [...]}` wrapper, it only migrates the list inside it. -/

/-- The fields of the migrated document (`normalize` always produces an
object). -/
def normalizeFields (raw : JValue) : List (String × JValue) :=
  match normalize raw with
  | .obj fields => fields
  | _ => []

/-- The fixed category set of the `"Master Assets"` project
(lines 218-224). -/
def defaultMasterAssets : JValue :=
  .obj [("Company Logo", .arr []), ("Marketing Materials", .arr []),
        ("Master Materials", .arr []), ("Master Textures", .arr []),
        ("Master Assets", .arr [])]

/-- Lines 217-224: insert `"Master Assets"` when missing. -/
def ensureMasterAssetsJ (hier : List (String × JValue)) :
    List (String × JValue) :=
  if hasKey hier "Master Assets" then hier
  else hier ++ [("Master Assets", defaultMasterAssets)]

/-- The in-memory hierarchy right after `__init__`:
`self.assets_hierarchy` with `naming_conventions` popped (line 214) and
`"Master Assets"` ensured (lines 217-224). -/
def loadHier (raw : JValue) : List (String × JValue) :=
  ensureMasterAssetsJ (eraseKey (normalizeFields raw) "naming_conventions")

/-- `self.naming_conventions` after line 214
(`pop("naming_conventions", {})`). -/
def loadNC (raw : JValue) : JValue :=
  (getKey (normalizeFields raw) "naming_conventions").getD (.obj [])

/-- `save_assets_to_json` lines 361-362: `data = dict(self.assets_hierarchy)`
followed by `data["naming_conventions"] = self.naming_conventions`. -/
def saveFields (hier : List (String × JValue)) (nc : JValue) :
    List (String × JValue) :=
  setKey hier "naming_conventions" nc

/-- The JSON object written when a freshly loaded document is persisted. -/
def savedFields (raw : JValue) : List (String × JValue) :=
  saveFields (loadHier raw) (loadNC raw)

/-- `get_assets` (lines 243-248) restricted to its category-value argument:
unwrap the legacy `{"assets": [...]}` wrapper on access, return the value
itself otherwise. -/
def getAssetsJ (v : JValue) : JValue :=
  match v with
  | .obj fields =>
    if hasKey fields "assets" then
      match getKey fields "assets" with
      | some inner => inner
      | none => .obj fields
    else .obj fields
  | v => v

/-- A category value in bare-sequence form. -/
def isBareSeq : JValue → Bool
  | .arr _ => true
  | _ => false

theorem hasKey_of_getKey_some {α : Type} {l : List (String × α)} {k : String}
    {b : α} (h : getKey l k = some b) : hasKey l k = true := by
  induction l with
  | nil => simp at h
  | cons p rest ih =>
    obtain ⟨a, c⟩ := p
    by_cases hak : a = k
    · simp [hak]
    · simp only [getKey_cons, hak, if_false] at h
      simp [hak, ih h]

theorem getKey_map_set_ne {α : Type} (l : List (String × α)) {k k' : String}
    (v : α) (hne : k' ≠ k) :
    getKey (l.map (fun p => if p.1 = k then (k, v) else p)) k' = getKey l k' := by
  induction l with
  | nil => rfl
  | cons p rest ih =>
    obtain ⟨a, b⟩ := p
    by_cases hak : a = k
    · subst hak
      simp [Ne.symm hne, ih]
    · simp [hak, ih]

theorem getKey_append_ne {α : Type} (l : List (String × α)) {k k' : String}
    (v : α) (hne : k' ≠ k) : getKey (l ++ [(k, v)]) k' = getKey l k' := by
  induction l with
  | nil => simp [Ne.symm hne]
  | cons p rest ih =>
    obtain ⟨a, b⟩ := p
    by_cases hak : a = k'
    · simp [hak]
    · simp [hak, ih]

theorem getKey_setKey_ne {α : Type} (l : List (String × α)) {k k' : String}
    (v : α) (hne : k' ≠ k) : getKey (setKey l k v) k' = getKey l k' := by
  unfold setKey
  split
  · exact getKey_map_set_ne l v hne
  · exact getKey_append_ne l v hne

/-- C5 counterexample: the raw document
`{"P": {"C": {"assets": []}}}`, loaded and persisted, is written with the
category value of `"C"` still in wrapper form — an object with an
`"assets"` key, not a bare sequence.  This refutes the claim that the
wrapper form is never produced on write. -/
theorem saved_wrapper_counterexample :
    getKey (savedFields (.obj [("P", .obj [("C", .obj [("assets", .arr [])])])]))
        "P" = some (.obj [("C", .obj [("assets", .arr [])])]) ∧
    isBareSeq (.obj [("assets", .arr [])]) = false :=
  ⟨rfl, rfl⟩

/-- C5 (amended): the wrapper form `{"assets": [...]}` is accepted on read
— `get_assets` unwraps it whenever the category value is accessed — but
the in-memory document retains the wrapper, and persisting writes every
non-`naming_conventions` entry of the loaded hierarchy verbatim, so a
wrapper-form category value loaded from disk is written back in wrapper
form. -/
theorem saved_preserves_hierarchy_shape :
    (∀ (fields : List (String × JValue)) (inner : JValue),
      getKey fields "assets" = some inner → getAssetsJ (.obj fields) = inner) ∧
    (∀ (raw : JValue) (p : String) (v : JValue), p ≠ "naming_conventions" →
      getKey (loadHier raw) p = some v → getKey (savedFields raw) p = some v) := by
  constructor
  · intro fields inner h
    have hobj : getAssetsJ (.obj fields) =
        if hasKey fields "assets" then
          (match getKey fields "assets" with
          | some inner => inner
          | none => .obj fields)
        else .obj fields := rfl
    rw [hobj, if_pos (hasKey_of_getKey_some h), h]
  · intro raw p v hp h
    unfold savedFields saveFields
    rw [getKey_setKey_ne _ _ hp]
    exact h

/-- Witness for C5 (amended): the wrapper is unwrapped on access and
written back verbatim for the concrete document
`{"P": {"C": {"assets": []}}}`. -/
theorem saved_preserves_hierarchy_shape_witness :
    getAssetsJ (.obj [("assets", .arr [])]) = .arr [] ∧
    getKey (savedFields (.obj [("P", .obj [("C", .obj [("assets", .arr [])])])]))
        "P" = some (.obj [("C", .obj [("assets", .arr [])])]) :=
  ⟨saved_preserves_hierarchy_shape.1 [("assets", .arr [])] (.arr []) rfl,
   saved_preserves_hierarchy_shape.2 _ "P" _ (by decide) rfl⟩

/-! ## Naming resolution (C3, C4)

`create_asset_clicked` (lines 466-479) and `edit_asset_clicked`
(lines 513-526) derive the identifier (`db_name`) from the display name:
the convention for the selected category is looked up with default `{}`,
`prefix` and `suffix` default to `""`, and — only when the selected
category is `"Textures"` and the convention has a `"suffixes"` mapping —
a variant must be selected (the dialog offers the mapping's keys; a
cancelled dialog aborts the operation). -/

/-- A per-category naming convention
(`{prefix?, suffix?}` or `{prefix?, suffixes}`); `pfx` models the
`"prefix"` key. -/
structure Convention where
  pfx : Option String := none
  suffix : Option String := none
  suffixes : Option (List (String × String)) := none
deriving Repr, DecidableEq

instance : Inhabited Convention := ⟨{}⟩

abbrev NamingConventions := List (String × Convention)

inductive ResolveErr where
  | variantRequired
  | keyError
deriving Repr, DecidableEq

/-- Python `str.strip()`: drop leading and trailing whitespace. -/
def pyStrip (s : String) : String :=
  ⟨((s.data.dropWhile fun c => c.isWhitespace).reverse.dropWhile
      fun c => c.isWhitespace).reverse⟩

/-- Identifier derivation,
`db_name = f"{prefix}{display_name.replace(' ', '')}{suffix}"`, with the
`"Textures"`-only variant branch of lines 470-477 / 517-524.
`variantSel = none` models a missing/cancelled variant selection. -/
def resolveDbName (ncs : NamingConventions) (category displayName : String)
    (variantSel : Option String) : Except ResolveErr String :=
  let convention := (getKey ncs category).getD {}
  let p := convention.pfx.getD ""
  let s := convention.suffix.getD ""
  match convention.suffixes with
  | some sfxs =>
    if category = "Textures" then
      match variantSel with
      | none => .error .variantRequired
      | some sel =>
        match getKey sfxs sel with
        | some s2 => .ok (p ++ removeSpaces displayName ++ s2)
        | none => .error .keyError
    else .ok (p ++ removeSpaces displayName ++ s)
  | none => .ok (p ++ removeSpaces displayName ++ s)

/-- C3: for a category whose convention is in simple form (no `suffixes`
mapping), the resolved identifier is
`prefix ++ removeSpaces displayName ++ suffix`, with an absent convention
(or absent keys) treated as empty prefix and suffix; in particular
convention `{"prefix": "SM_", "suffix": ""}` and display name
`"Hero Sword"` give `"SM_HeroSword"`. -/
theorem resolve_simple_convention :
    (∀ (ncs : NamingConventions) (category displayName : String)
      (variantSel : Option String),
      pyStrip displayName ≠ "" →
      ((getKey ncs category).getD {}).suffixes = none →
      resolveDbName ncs category displayName variantSel =
        .ok ((((getKey ncs category).getD {}).pfx.getD "") ++
          removeSpaces displayName ++
          (((getKey ncs category).getD {}).suffix.getD ""))) ∧
    resolveDbName [("C", { pfx := some "SM_", suffix := some "" })]
      "C" "Hero Sword" none = .ok "SM_HeroSword" := by
  constructor
  · intro ncs category displayName variantSel _ hs
    simp only [resolveDbName, hs]
  · rfl

/-- Witness for C3: concrete instantiation of the universally quantified
part. -/
theorem resolve_simple_convention_witness :
    pyStrip "Hero Sword" ≠ "" ∧
    resolveDbName [("C", { pfx := some "SM_", suffix := some "" })]
      "C" "Hero Sword" none = .ok "SM_HeroSword" :=
  ⟨by decide,
   resolve_simple_convention.1 [("C", { pfx := some "SM_", suffix := some "" })]
     "C" "Hero Sword" none (by decide) rfl⟩

/-- C4 counterexample: the variant requirement is keyed to the literal
category name `"Textures"` (line 470 / 517).  A category `"Foo"` with a
variant-form convention and no selector does *not* fail with
`VariantRequired`: it resolves successfully, ignoring the `suffixes`
mapping. -/
theorem resolve_variant_counterexample :
    (((getKey ([("Foo", { suffixes := some [("A", "_A")] })] : NamingConventions)
        "Foo").getD {}).suffixes).isSome = true ∧
    resolveDbName [("Foo", { suffixes := some [("A", "_A")] })] "Foo" "X" none =
      .ok "X" :=
  ⟨rfl, rfl⟩

/-- C4 (amended): only for the category named `"Textures"` does a
variant-form convention require a variant selector: with no selector
supplied, resolution fails with `VariantRequired` and never returns an
identifier (no default suffix is picked). -/
theorem resolve_variantRequired_textures :
    (∀ (ncs : NamingConventions) (displayName : String),
      ((getKey ncs "Textures").getD {}).suffixes.isSome = true →
      resolveDbName ncs "Textures" displayName none = .error .variantRequired) ∧
    (∀ (ncs : NamingConventions) (displayName r : String),
      ((getKey ncs "Textures").getD {}).suffixes.isSome = true →
      resolveDbName ncs "Textures" displayName none ≠ .ok r) := by
  have key : ∀ (ncs : NamingConventions) (displayName : String),
      ((getKey ncs "Textures").getD {}).suffixes.isSome = true →
      resolveDbName ncs "Textures" displayName none = .error .variantRequired := by
    intro ncs displayName h
    obtain ⟨sfxs, hs⟩ := Option.isSome_iff_exists.mp h
    simp [resolveDbName, hs]
  exact ⟨key, fun ncs displayName r h => by rw [key ncs displayName h]; simp⟩

/-- Witness for C4 (amended): a concrete `"Textures"` convention with a
`suffixes` mapping and no selector fails with `VariantRequired`. -/
theorem resolve_variantRequired_textures_witness :
    (((getKey ([("Textures", { suffixes := some [("Diffuse", "_D")] })] :
        NamingConventions) "Textures").getD {}).suffixes).isSome = true ∧
    resolveDbName [("Textures", { suffixes := some [("Diffuse", "_D")] })]
      "Textures" "Rock" none = .error .variantRequired :=
  ⟨rfl, resolve_variantRequired_textures.1
    [("Textures", { suffixes := some [("Diffuse", "_D")] })] "Rock" rfl⟩

/-! ## Filesystem model

The reconciler works on the tree rooted at the scratch directory
(`tempfile.gettempdir()/PMT_Projects`; `HoudiniConnection.project_path`
points at the same place).  A node is a file or a directory with named
children in creation order.  `FSEvent` records the directories/files a
pass creates or removes. -/

abbrev Path := List String

inductive FSNode where
  | file
  | dir (children : List (String × FSNode))
deriving Repr

/-- A filesystem change performed by a reconciliation pass. -/
inductive FSEvent where
  | created (p : Path)
  | removedDir (p : Path)
  | removedFile (p : Path)
deriving Repr, DecidableEq

/-- Python-level filesystem exceptions. -/
inductive PyErr where
  | fileExists
  | isADirectory
  | notADirectory
deriving Repr, DecidableEq

def FSNode.isDir : FSNode → Bool
  | .dir _ => true
  | .file => false

/-- Walk to the node at `path`. -/
def FSNode.find : FSNode → Path → Option FSNode
  | node, [] => some node
  | .dir cs, n :: rest =>
    match getKey cs n with
    | some child => child.find rest
    | none => none
  | .file, _ :: _ => none

/-- Fresh directory chain for the missing tail of a `makedirs` call;
returns the new node together with the creation events (root first). -/
def mkNewChain : List String → Path → FSNode × List FSEvent
  | [], pre => (.dir [], [.created pre])
  | n :: rest, pre =>
    let (sub, evs) := mkNewChain rest (pre ++ [n])
    (.dir [(n, sub)], .created pre :: evs)

/-- `os.makedirs(path, exist_ok=True)`: create every missing component;
an existing file anywhere on the path raises. -/
def mkdirsGo : FSNode → List String → Path → Except PyErr (FSNode × List FSEvent)
  | .file, _, _ => .error .fileExists
  | .dir cs, [], _ => .ok (.dir cs, [])
  | .dir cs, n :: rest, pre =>
    match getKey cs n with
    | some child =>
      (mkdirsGo child rest (pre ++ [n])).map
        (fun r => (.dir (setKey cs n r.1), r.2))
    | none =>
      let (sub, evs) := mkNewChain rest (pre ++ [n])
      .ok (.dir (cs ++ [(n, sub)]), evs)

/-- `os.makedirs` on a path below the root; empty components are dropped,
as `os.path.join` produces no directory component for them. -/
def mkdirs (fs : FSNode) (path : Path) : Except PyErr (FSNode × List FSEvent) :=
  mkdirsGo fs (path.filter (fun c => c ≠ "")) []

/-- Remove the entry at `path` (the source side of a rename). -/
def removeAt : FSNode → Path → FSNode
  | fs, [] => fs
  | .dir cs, [n] => .dir (eraseKey cs n)
  | .dir cs, n :: rest =>
    match getKey cs n with
    | some child => .dir (setKey cs n (removeAt child rest))
    | none => .dir cs
  | .file, _ => .file

/-- Place `node` as child `name` of the directory at `path`. -/
def setAt : FSNode → Path → String → FSNode → FSNode
  | .dir cs, [], name, node => .dir (setKey cs name node)
  | .dir cs, n :: rest, name, node =>
    match getKey cs n with
    | some child => .dir (setKey cs n (setAt child rest name node))
    | none => .dir cs
  | .file, _, _, _ => .file

/-- A successful `os.rename(oldPath, newPath)`: move the subtree. -/
def fsRename (fs : FSNode) (oldPath newPath : Path) : FSNode :=
  match fs.find oldPath, newPath.getLast? with
  | some node, some name => setAt (removeAt fs oldPath) newPath.dropLast name node
  | _, _ => fs

/-- `os.path.splitext`: the extension starts at the last dot, provided a
non-dot character precedes it within the name. -/
def splitExt (s : String) : String × String :=
  let cs := s.data
  let idxs := (List.range cs.length).filter (fun i => cs.get? i = some '.')
  match idxs.getLast? with
  | none => (s, "")
  | some i =>
    if (cs.take i).any (fun c => c ≠ '.') then (⟨cs.take i⟩, ⟨cs.drop i⟩)
    else (s, "")

/-! ## Typed document model

The canonical in-memory document: a hierarchy of projects, each a dict of
categories, each holding an ordered asset list either bare or still in
the legacy `{"assets": [...]}` wrapper (the loader keeps the wrapper, so
`get_assets` dispatches on the shape at every access). -/

structure Asset where
  display_name : String
  db_name : String
deriving Repr, DecidableEq

inductive CatVal where
  | bare (assets : List Asset)
  | wrapped (assets : List Asset)
deriving Repr, DecidableEq

/-- `get_assets` (lines 243-248): unwrap the wrapper form on access. -/
def getAssets : CatVal → List Asset
  | .bare as => as
  | .wrapped as => as

/-- In-place mutation of the asset list (appending to / editing the list
returned by `get_assets` mutates it inside whatever shape holds it). -/
def setAssets : CatVal → List Asset → CatVal
  | .bare _, as => .bare as
  | .wrapped _, as => .wrapped as

abbrev ProjectCats := List (String × CatVal)
abbrev Hierarchy := List (String × ProjectCats)

/-- `set(a["db_name"] for a in asset_list)` with the shape dispatch of
lines 646-651. -/
def dbNamesOf (cv : CatVal) : List String := (getAssets cv).map Asset.db_name

/-- The default category set for a new project (lines 273-278). -/
def defaultCategories : ProjectCats :=
  [("Static Meshes", .bare []), ("Textures", .bare []),
   ("Simulations", .bare []), ("Flipbooks", .bare [])]

/-! ## Reconciliation (`sync_filesystem_with_json`, lines 603-681) -/

/-- Hidden bookkeeping folder names (line 660). -/
def hiddenFolders : List String := ["__temp", "__tools", "__config"]

/-- Ensure-present pass for one project's categories (lines 614-616). -/
def ensureCats (project : String) :
    ProjectCats → FSNode → Except PyErr (FSNode × List FSEvent)
  | [], fs => .ok (fs, [])
  | (c, _) :: rest, fs => do
    let r1 ← mkdirs fs [project, c]
    let r2 ← ensureCats project rest r1.1
    .ok (r2.1, r1.2 ++ r2.2)

/-- Ensure-present pass (lines 610-616): create every project and
category directory. -/
def ensureDirs : Hierarchy → FSNode → Except PyErr (FSNode × List FSEvent)
  | [], fs => .ok (fs, [])
  | (p, cats) :: rest, fs => do
    let r1 ← mkdirs fs [p]
    let r2 ← ensureCats p cats r1.1
    let r3 ← ensureDirs rest r2.1
    .ok (r3.1, r1.2 ++ r2.2 ++ r3.2)

/-- Stray-marker scan inside a known category (lines 652-656): remove
`.txt` files whose base name matches no identifier; `os.remove` on a
directory with a matching name raises. -/
def cleanupTxt (dbNames : List String) (pre : Path) :
    List (String × FSNode) → Except PyErr (List (String × FSNode) × List FSEvent)
  | [] => .ok ([], [])
  | (name, node) :: rest =>
    if (splitExt name).2 = ".txt" ∧ (splitExt name).1 ∉ dbNames then
      match node with
      | .file =>
        (cleanupTxt dbNames pre rest).map
          (fun r => (r.1, .removedFile (pre ++ [name]) :: r.2))
      | .dir _ => .error .isADirectory
    else
      (cleanupTxt dbNames pre rest).map (fun r => ((name, node) :: r.1, r.2))

/-- Category-level orphan scan inside a known project (lines 637-656):
non-directories are skipped, unknown directories are removed recursively,
known category directories get the stray-marker scan. -/
def cleanupCats (cats : ProjectCats) (pre : Path) :
    List (String × FSNode) → Except PyErr (List (String × FSNode) × List FSEvent)
  | [] => .ok ([], [])
  | (name, node) :: rest =>
    match node with
    | .file =>
      (cleanupCats cats pre rest).map (fun r => ((name, .file) :: r.1, r.2))
    | .dir cc =>
      if hasKey cats name then do
        let r1 ← cleanupTxt (dbNamesOf ((getKey cats name).getD (.bare [])))
          (pre ++ [name]) cc
        let r2 ← cleanupCats cats pre rest
        .ok ((name, .dir r1.1) :: r2.1, r1.2 ++ r2.2)
      else
        (cleanupCats cats pre rest).map
          (fun r => (r.1, .removedDir (pre ++ [name]) :: r.2))

/-- Project-level orphan scan (lines 628-636). -/
def cleanupProjects (h : Hierarchy) :
    List (String × FSNode) → Except PyErr (List (String × FSNode) × List FSEvent)
  | [] => .ok ([], [])
  | (name, node) :: rest =>
    match node with
    | .file =>
      (cleanupProjects h rest).map (fun r => ((name, .file) :: r.1, r.2))
    | .dir cc =>
      if hasKey h name then do
        let r1 ← cleanupCats ((getKey h name).getD []) [name] cc
        let r2 ← cleanupProjects h rest
        .ok ((name, .dir r1.1) :: r2.1, r1.2 ++ r2.2)
      else
        (cleanupProjects h rest).map
          (fun r => (r.1, .removedDir [name] :: r.2))

/-- `cleanup_filesystem` (lines 626-656). -/
def cleanupFS (h : Hierarchy) (fs : FSNode) :
    Except PyErr (FSNode × List FSEvent) :=
  match fs with
  | .dir cs => (cleanupProjects h cs).map (fun r => (.dir r.1, r.2))
  | .file => .error .notADirectory

/-- Run `os.makedirs` over a path list, accumulating events. -/
def mkdirsMany : List Path → FSNode → Except PyErr (FSNode × List FSEvent)
  | [], fs => .ok (fs, [])
  | p :: rest, fs => do
    let r1 ← mkdirs fs p
    let r2 ← mkdirsMany rest r1.1
    .ok (r2.1, r1.2 ++ r2.2)

/-- Paths created by `create_hidden_folders` (lines 658-681), in the
code's iteration order: project-level hidden folders, then per category
its hidden folders and each asset folder with its own hidden folders. -/
def hiddenPaths (h : Hierarchy) : List Path :=
  h.flatMap (fun pc =>
    hiddenFolders.map (fun hf => [pc.1, hf]) ++
    pc.2.flatMap (fun cc =>
      hiddenFolders.map (fun hf => [pc.1, cc.1, hf]) ++
      (getAssets cc.2).flatMap (fun a =>
        [pc.1, cc.1, a.db_name] ::
          hiddenFolders.map (fun hf => [pc.1, cc.1, a.db_name, hf]))))

/-- `create_hidden_folders` (lines 658-681). -/
def createHiddenFolders (h : Hierarchy) (fs : FSNode) :
    Except PyErr (FSNode × List FSEvent) :=
  mkdirsMany (hiddenPaths h) fs

/-- `sync_filesystem_with_json` (lines 603-624): `os.makedirs(root_dir)`
(the root must be a directory), ensure-present pass, orphan removal, then
hidden-folder creation.  The `asset_list` binding of lines 618-621 is
dead code and creates nothing. -/
def syncFS (h : Hierarchy) (fs : FSNode) :
    Except PyErr (FSNode × List FSEvent) :=
  match fs with
  | .file => .error .fileExists
  | .dir _ => do
    let r1 ← ensureDirs h fs
    let r2 ← cleanupFS h r1.1
    let r3 ← createHiddenFolders h r2.1
    .ok (r3.1, r1.2 ++ r2.2 ++ r3.2)

/-! ## UI state and operations -/

structure PMTState where
  projects : List String
  hierarchy : Hierarchy
  conventions : NamingConventions
  fs : FSNode
deriving Repr

/-- The warning dialogs shown for non-fatal filesystem problems. -/
inductive Warning where
  | saveFailed
  | projectFolderRenameFailed
  | houFileRenameFailed
  | assetFolderRenameFailed
deriving Repr, DecidableEq

inductive OpError where
  | emptyName
  | reservedName
  | alreadyExists
  | immutable
  | notFound
  | duplicate
  | cancelled
  | keyError
deriving Repr, DecidableEq

structure OpResult where
  state : PMTState
  persisted : Bool
  warnings : List Warning
  outcome : Except OpError Unit
deriving Repr

/-- `save_assets_to_json` (lines 358-367): write the document
(`persisted` is reported by the caller), then reconcile; any exception is
caught and shown as a warning, leaving the in-memory document committed. -/
def saveAssets (st : PMTState) : PMTState × List Warning :=
  match syncFS st.hierarchy st.fs with
  | .ok r => ({ st with fs := r.1 }, [])
  | .error _ => (st, [.saveFailed])

/-- `add_project` (lines 261-283). -/
def add_project (st : PMTState) (inputText : String) : OpResult :=
  let project_name := pyStrip inputText
  if project_name ≠ "" then
    if project_name = "Master Assets" then
      ⟨st, false, [], .error .reservedName⟩
    else if project_name ∉ st.projects then
      let projects' := st.projects ++ [project_name]
      if ¬ hasKey st.hierarchy project_name then
        let st' := { st with
          projects := projects'
          hierarchy := st.hierarchy ++ [(project_name, defaultCategories)] }
        let (st'', ws) := saveAssets st'
        ⟨st'', true, ws, .ok ()⟩
      else ⟨{ st with projects := projects' }, false, [], .ok ()⟩
    else ⟨st, false, [], .error .alreadyExists⟩
  else ⟨st, false, [], .error .emptyName⟩

/-- `self.projects[idx] = new_name` where `idx = self.projects.index(old)`:
replace the first occurrence. -/
def replaceFirst : List String → String → String → List String
  | [], _, _ => []
  | x :: rest, old, new =>
    if x = old then new :: rest else x :: replaceFirst rest old new

/-- The `if os.path.exists(old): try: os.rename(old, new) except: warn`
pattern used for every targeted rename: nothing is attempted when the
source is missing; a failing attempt (the oracle `fails`) leaves the tree
unchanged and produces the warning `w`. -/
def tryRename (fs : FSNode) (oldPath newPath : Path) (fails : Bool)
    (w : Warning) : FSNode × List Warning :=
  if (fs.find oldPath).isSome then
    if fails then (fs, [w]) else (fsRename fs oldPath newPath, [])
  else (fs, [])

/-- `rename_project` (lines 285-329).  `newInput = ""` models a cancelled
or empty rename dialog (silently ignored); `folderRenameFails` is the
oracle for the `os.rename` of the project folder (the `except` branch of
lines 321-324). -/
def rename_project (st : PMTState) (oldName newInput : String)
    (folderRenameFails : Bool) : OpResult :=
  if oldName = "Master Assets" then ⟨st, false, [], .error .immutable⟩
  else if newInput = "" then ⟨st, false, [], .error .cancelled⟩
  else
    let new_name := pyStrip newInput
    if new_name = "" then ⟨st, false, [], .error .emptyName⟩
    else if new_name ∈ st.projects ∨ new_name = "Master Assets" then
      ⟨st, false, [], .error .alreadyExists⟩
    else if oldName ∈ st.projects ∧ hasKey st.hierarchy oldName then
      match getKey st.hierarchy oldName with
      | some projVal =>
        let projects' := replaceFirst st.projects oldName new_name
        let hierarchy' := setKey (eraseKey st.hierarchy oldName) new_name projVal
        let r := tryRename st.fs [oldName] [new_name] folderRenameFails
          .projectFolderRenameFailed
        let (st'', ws2) := saveAssets
          { st with
            projects := projects'
            hierarchy := hierarchy'
            fs := r.1 }
        ⟨st'', true, r.2 ++ ws2, .ok ()⟩
      | none => ⟨st, false, [], .error .keyError⟩
    else ⟨st, false, [], .error .keyError⟩

/-- `delete_project` (lines 379-397).  `confirm = false` models answering
No to the confirmation dialog. -/
def delete_project (st : PMTState) (name : String) (confirm : Bool) : OpResult :=
  if name = "Master Assets" then ⟨st, false, [], .error .immutable⟩
  else if confirm then
    if name ∈ st.projects ∧ hasKey st.hierarchy name then
      let (st'', ws) := saveAssets
        { st with
          projects := st.projects.erase name
          hierarchy := eraseKey st.hierarchy name }
      ⟨st'', true, ws, .ok ()⟩
    else ⟨st, false, [], .error .keyError⟩
  else ⟨st, false, [], .error .cancelled⟩

/-- `create_asset_clicked` (lines 459-495).  `displayName = ""` models a
cancelled or empty name dialog; a missing variant selection aborts the
operation silently (the `if not ok: return` of line 475). -/
def create_asset (st : PMTState) (project category displayName : String)
    (variantSel : Option String) : OpResult :=
  if displayName = "" then ⟨st, false, [], .error .cancelled⟩
  else
    match resolveDbName st.conventions category displayName variantSel with
    | .error .variantRequired => ⟨st, false, [], .error .cancelled⟩
    | .error .keyError => ⟨st, false, [], .error .keyError⟩
    | .ok db_name =>
      match getKey st.hierarchy project with
      | none => ⟨st, false, [], .error .keyError⟩
      | some cats =>
        match getKey cats category with
        | none => ⟨st, false, [], .error .keyError⟩
        | some cv =>
          let assets := getAssets cv
          if assets.any (fun a => a.db_name = db_name) then
            ⟨st, false, [], .error .duplicate⟩
          else
            let hierarchy' := setKey st.hierarchy project
              (setKey cats category
                (setAssets cv (assets ++ [⟨displayName, db_name⟩])))
            let (st'', ws) := saveAssets { st with hierarchy := hierarchy' }
            ⟨st'', true, ws, .ok ()⟩

/-- Mutating the asset object found by `find_asset_by_display_name`
updates the first display-name match in place. -/
def updateFirst : List Asset → String → Asset → List Asset
  | [], _, _ => []
  | a :: rest, oldDisplayName, newAsset =>
    if a.display_name = oldDisplayName then newAsset :: rest
    else a :: updateFirst rest oldDisplayName newAsset

/-- `edit_asset_clicked` (lines 497-580).  The two renames are attempted
independently (each guarded by `os.path.exists` and a `try`/`except` that
only shows a warning); the in-memory update and the save happen
regardless. -/
def edit_asset (st : PMTState) (project category oldDisplayName newDisplayName : String)
    (variantSel : Option String) (fileRenameFails folderRenameFails : Bool) :
    OpResult :=
  match getKey st.hierarchy project with
  | none => ⟨st, false, [], .error .keyError⟩
  | some cats =>
    match getKey cats category with
    | none => ⟨st, false, [], .error .keyError⟩
    | some cv =>
      let assets := getAssets cv
      match assets.find? (fun a => a.display_name = oldDisplayName) with
      | none => ⟨st, false, [], .error .notFound⟩
      | some asset =>
        if newDisplayName = "" then ⟨st, false, [], .error .cancelled⟩
        else
          match resolveDbName st.conventions category newDisplayName variantSel with
          | .error .variantRequired => ⟨st, false, [], .error .cancelled⟩
          | .error .keyError => ⟨st, false, [], .error .keyError⟩
          | .ok new_db_name =>
            if assets.any (fun a => a ≠ asset ∧ a.db_name = new_db_name) then
              ⟨st, false, [], .error .duplicate⟩
            else
              let old_db_name := asset.db_name
              let r1 := tryRename st.fs
                [project, category, old_db_name, old_db_name ++ ".hipnc"]
                [project, category, old_db_name, new_db_name ++ ".hipnc"]
                fileRenameFails .houFileRenameFailed
              let r2 := tryRename r1.1
                [project, category, old_db_name]
                [project, category, new_db_name]
                folderRenameFails .assetFolderRenameFailed
              let assets' := updateFirst assets oldDisplayName
                ⟨newDisplayName, new_db_name⟩
              let hierarchy' := setKey st.hierarchy project
                (setKey cats category (setAssets cv assets'))
              let (st'', w3) := saveAssets
                { st with
                  hierarchy := hierarchy'
                  fs := r2.1 }
              ⟨st'', true, r1.2 ++ r2.2 ++ w3, .ok ()⟩

/-- `delete_asset_clicked` (lines 582-601). -/
def delete_asset (st : PMTState) (project category displayName : String)
    (confirm : Bool) : OpResult :=
  match getKey st.hierarchy project with
  | none => ⟨st, false, [], .error .keyError⟩
  | some cats =>
    match getKey cats category with
    | none => ⟨st, false, [], .error .keyError⟩
    | some cv =>
      let assets := getAssets cv
      match assets.find? (fun a => a.display_name = displayName) with
      | none => ⟨st, false, [], .error .notFound⟩
      | some asset =>
        if confirm then
          let hierarchy' := setKey st.hierarchy project
            (setKey cats category (setAssets cv (assets.erase asset)))
          let (st'', ws) := saveAssets { st with hierarchy := hierarchy' }
          ⟨st'', true, ws, .ok ()⟩
        else ⟨st, false, [], .error .cancelled⟩

/-! ## The naming-convention frame property (C10) -/

/-- One public mutation, with its dialog inputs and filesystem-rename
oracles. -/
inductive Op where
  | addP (inputText : String)
  | renameP (oldName newInput : String) (folderRenameFails : Bool)
  | deleteP (name : String) (confirm : Bool)
  | createA (project category displayName : String) (variantSel : Option String)
  | editA (project category oldDisplayName newDisplayName : String)
      (variantSel : Option String) (fileRenameFails folderRenameFails : Bool)
  | deleteA (project category displayName : String) (confirm : Bool)

def applyOp (st : PMTState) : Op → PMTState
  | .addP t => (add_project st t).state
  | .renameP o n b => (rename_project st o n b).state
  | .deleteP n c => (delete_project st n c).state
  | .createA p c d v => (create_asset st p c d v).state
  | .editA p c od nd v bf bd => (edit_asset st p c od nd v bf bd).state
  | .deleteA p c d cf => (delete_asset st p c d cf).state

theorem saveAssets_conventions (st : PMTState) :
    (saveAssets st).1.conventions = st.conventions := by
  unfold saveAssets
  split <;> rfl

theorem saveAssets_projects (st : PMTState) :
    (saveAssets st).1.projects = st.projects := by
  unfold saveAssets
  split <;> rfl

theorem saveAssets_hierarchy (st : PMTState) :
    (saveAssets st).1.hierarchy = st.hierarchy := by
  unfold saveAssets
  split <;> rfl

theorem add_project_conventions (st : PMTState) (t : String) :
    (add_project st t).state.conventions = st.conventions := by
  simp only [add_project]
  repeat' split
  all_goals simp [saveAssets_conventions]

theorem rename_project_conventions (st : PMTState) (o n : String) (b : Bool) :
    (rename_project st o n b).state.conventions = st.conventions := by
  simp only [rename_project]
  repeat' split
  all_goals simp [saveAssets_conventions]

theorem delete_project_conventions (st : PMTState) (n : String) (c : Bool) :
    (delete_project st n c).state.conventions = st.conventions := by
  simp only [delete_project]
  repeat' split
  all_goals simp [saveAssets_conventions]

theorem create_asset_conventions (st : PMTState) (p c d : String)
    (v : Option String) : (create_asset st p c d v).state.conventions =
    st.conventions := by
  simp only [create_asset]
  repeat' split
  all_goals simp [saveAssets_conventions]

theorem edit_asset_conventions (st : PMTState) (p c od nd : String)
    (v : Option String) (bf bd : Bool) :
    (edit_asset st p c od nd v bf bd).state.conventions = st.conventions := by
  simp only [edit_asset]
  repeat' split
  all_goals simp [saveAssets_conventions]

theorem delete_asset_conventions (st : PMTState) (p c d : String) (cf : Bool) :
    (delete_asset st p c d cf).state.conventions = st.conventions := by
  simp only [delete_asset]
  repeat' split
  all_goals simp [saveAssets_conventions]

theorem applyOp_conventions (st : PMTState) (op : Op) :
    (applyOp st op).conventions = st.conventions := by
  cases op with
  | addP t => exact add_project_conventions st t
  | renameP o n b => exact rename_project_conventions st o n b
  | deleteP n c => exact delete_project_conventions st n c
  | createA p c d v => exact create_asset_conventions st p c d v
  | editA p c od nd v bf bd => exact edit_asset_conventions st p c od nd v bf bd
  | deleteA p c d cf => exact delete_asset_conventions st p c d cf

/-- C10: every public mutation leaves the naming-conventions mapping
unchanged — the conventions are popped off the hierarchy at load time,
only read during identifier resolution, and written back verbatim on
every persist — so after any sequence of operations the conventions equal
those loaded at start. -/
theorem conventions_invariant (ops : List Op) (st : PMTState) :
    (ops.foldl applyOp st).conventions = st.conventions := by
  induction ops generalizing st with
  | nil => rfl
  | cons op rest ih =>
    simp only [List.foldl_cons]
    rw [ih, applyOp_conventions]

/-! ## createAsset: duplicate check and append (C2) -/

/-- C2: when the resolved identifier collides with an existing `db_name`
in the category, `create_asset_clicked` fails with `Duplicate` and the
whole state (document, projects, filesystem) is unchanged with nothing
persisted; otherwise it appends exactly `{display_name, db_name}` at the
end of that category's asset list, leaving every other project and
category entry (and the conventions and project list) unchanged, and
persists. -/
theorem create_asset_spec (st : PMTState)
    (project category displayName : String) (variantSel : Option String)
    (cats : ProjectCats) (cv : CatVal) (db : String)
    (hdn : displayName ≠ "")
    (hres : resolveDbName st.conventions category displayName variantSel = .ok db)
    (hproj : getKey st.hierarchy project = some cats)
    (hcat : getKey cats category = some cv) :
    (db ∈ (getAssets cv).map Asset.db_name →
      create_asset st project category displayName variantSel =
        ⟨st, false, [], .error .duplicate⟩) ∧
    (db ∉ (getAssets cv).map Asset.db_name →
      (create_asset st project category displayName variantSel).state.hierarchy =
        setKey st.hierarchy project (setKey cats category
          (setAssets cv (getAssets cv ++ [⟨displayName, db⟩]))) ∧
      (create_asset st project category displayName variantSel).persisted = true ∧
      (create_asset st project category displayName variantSel).outcome = .ok () ∧
      (∀ p', p' ≠ project →
        getKey (create_asset st project category displayName variantSel).state.hierarchy p' =
          getKey st.hierarchy p') ∧
      getKey (create_asset st project category displayName variantSel).state.hierarchy
        project = some (setKey cats category
          (setAssets cv (getAssets cv ++ [⟨displayName, db⟩]))) ∧
      (∀ c', c' ≠ category →
        getKey (setKey cats category
          (setAssets cv (getAssets cv ++ [⟨displayName, db⟩]))) c' = getKey cats c') ∧
      (create_asset st project category displayName variantSel).state.projects =
        st.projects ∧
      (create_asset st project category displayName variantSel).state.conventions =
        st.conventions) := by
  constructor
  · intro hdup
    have hany : (getAssets cv).any (fun a => a.db_name = db) = true := by
      simp only [List.any_eq_true, decide_eq_true_eq]
      obtain ⟨a, ha, hb⟩ := List.mem_map.mp hdup
      exact ⟨a, ha, hb⟩
    simp [create_asset, hdn, hres, hproj, hcat, hany]
  · intro hdup
    have hany : (getAssets cv).any (fun a => a.db_name = db) = false := by
      simp only [List.any_eq_false, decide_eq_true_eq]
      intro a ha hb
      exact hdup (List.mem_map.mpr ⟨a, ha, hb⟩)
    have hh : (create_asset st project category displayName variantSel).state.hierarchy =
        setKey st.hierarchy project (setKey cats category
          (setAssets cv (getAssets cv ++ [⟨displayName, db⟩]))) := by
      simp [create_asset, hdn, hres, hproj, hcat, hany, saveAssets_hierarchy]
    refine ⟨hh, ?_, ?_, fun p' hp' => ?_, ?_, fun c' hc' => ?_, ?_, ?_⟩
    · simp [create_asset, hdn, hres, hproj, hcat, hany]
    · simp [create_asset, hdn, hres, hproj, hcat, hany]
    · rw [hh, getKey_setKey_ne _ _ hp']
    · rw [hh, getKey_setKey_self]
    · rw [getKey_setKey_ne _ _ hc']
    · simp [create_asset, hdn, hres, hproj, hcat, hany, saveAssets_projects]
    · simp [create_asset, hdn, hres, hproj, hcat, hany, saveAssets_conventions]

/-- Witness for C2: in a concrete state with an existing asset `AB`,
creating a colliding asset fails with `Duplicate` leaving everything
unchanged, and in a collision-free category the asset is appended. -/
theorem create_asset_spec_witness :
    create_asset ⟨["Master Assets", "P"],
        [("Master Assets", []), ("P", [("C", .bare [⟨"A B", "AB"⟩])])], [], .dir []⟩
      "P" "C" "AB" none =
      ⟨⟨["Master Assets", "P"],
        [("Master Assets", []), ("P", [("C", .bare [⟨"A B", "AB"⟩])])], [], .dir []⟩,
        false, [], .error .duplicate⟩ ∧
    (create_asset ⟨["Master Assets", "P"],
        [("Master Assets", []), ("P", [("C", .bare [])])], [], .dir []⟩
      "P" "C" "A B" none).state.hierarchy =
      [("Master Assets", []), ("P", [("C", .bare [⟨"A B", "AB"⟩])])] :=
  ⟨(create_asset_spec ⟨["Master Assets", "P"],
        [("Master Assets", []), ("P", [("C", .bare [⟨"A B", "AB"⟩])])], [], .dir []⟩
      "P" "C" "AB" none [("C", .bare [⟨"A B", "AB"⟩])] (.bare [⟨"A B", "AB"⟩])
      "AB" (by decide) rfl rfl rfl).1 (by decide),
   by
    have h := ((create_asset_spec ⟨["Master Assets", "P"],
        [("Master Assets", []), ("P", [("C", .bare [])])], [], .dir []⟩
      "P" "C" "A B" none [("C", .bare [])] (.bare []) "AB"
      (by decide) rfl rfl rfl).2 (by decide)).1
    rw [h]
    rfl⟩

/-! ## Renames never roll back the document mutation (C9) -/

theorem saveAssets_warnings (st : PMTState) :
    (saveAssets st).2 = [] ∨ (saveAssets st).2 = [.saveFailed] := by
  unfold saveAssets
  split
  · exact Or.inl rfl
  · exact Or.inr rfl

/-- The warnings produced by a guarded rename attempt. -/
theorem tryRename_warnings (fs : FSNode) (oldPath newPath : Path)
    (fails : Bool) (w : Warning) :
    (tryRename fs oldPath newPath fails w).2 =
      if fails = true ∧ (fs.find oldPath).isSome = true then [w] else [] := by
  unfold tryRename
  by_cases h1 : (fs.find oldPath).isSome = true <;>
    by_cases h2 : fails = true <;> simp [h1, h2]

/-- Reduction of a validation-passing `edit_asset_clicked` call: the two
guarded renames run, the document is updated and saved, success is
reported. -/
theorem edit_asset_eq (st : PMTState) (project category oldD newD : String)
    (sel : Option String) (cats : ProjectCats) (cv : CatVal) (asset : Asset)
    (db : String) (bf bd : Bool)
    (hproj : getKey st.hierarchy project = some cats)
    (hcat : getKey cats category = some cv)
    (hfind : (getAssets cv).find? (fun a => a.display_name = oldD) = some asset)
    (hnd : newD ≠ "")
    (hres : resolveDbName st.conventions category newD sel = .ok db)
    (hnodup : (getAssets cv).any (fun a => a ≠ asset ∧ a.db_name = db) = false) :
    edit_asset st project category oldD newD sel bf bd =
    ⟨(saveAssets { st with
        hierarchy := setKey st.hierarchy project (setKey cats category
          (setAssets cv (updateFirst (getAssets cv) oldD ⟨newD, db⟩)))
        fs := (tryRename (tryRename st.fs
            [project, category, asset.db_name, asset.db_name ++ ".hipnc"]
            [project, category, asset.db_name, db ++ ".hipnc"]
            bf .houFileRenameFailed).1
          [project, category, asset.db_name]
          [project, category, db]
          bd .assetFolderRenameFailed).1 }).1,
      true,
      (tryRename st.fs
        [project, category, asset.db_name, asset.db_name ++ ".hipnc"]
        [project, category, asset.db_name, db ++ ".hipnc"]
        bf .houFileRenameFailed).2 ++
      (tryRename (tryRename st.fs
          [project, category, asset.db_name, asset.db_name ++ ".hipnc"]
          [project, category, asset.db_name, db ++ ".hipnc"]
          bf .houFileRenameFailed).1
        [project, category, asset.db_name]
        [project, category, db]
        bd .assetFolderRenameFailed).2 ++
      (saveAssets { st with
        hierarchy := setKey st.hierarchy project (setKey cats category
          (setAssets cv (updateFirst (getAssets cv) oldD ⟨newD, db⟩)))
        fs := (tryRename (tryRename st.fs
            [project, category, asset.db_name, asset.db_name ++ ".hipnc"]
            [project, category, asset.db_name, db ++ ".hipnc"]
            bf .houFileRenameFailed).1
          [project, category, asset.db_name]
          [project, category, db]
          bd .assetFolderRenameFailed).1 }).2,
      .ok ()⟩ := by
  simp only [edit_asset, hproj, hcat, hfind, hnd, hres, hnodup]
  simp

/-- Reduction of an `edit_asset_clicked` call that hits the duplicate
check. -/
theorem edit_asset_dup (st : PMTState) (project category oldD newD : String)
    (sel : Option String) (cats : ProjectCats) (cv : CatVal) (asset : Asset)
    (db : String) (bf bd : Bool)
    (hproj : getKey st.hierarchy project = some cats)
    (hcat : getKey cats category = some cv)
    (hfind : (getAssets cv).find? (fun a => a.display_name = oldD) = some asset)
    (hnd : newD ≠ "")
    (hres : resolveDbName st.conventions category newD sel = .ok db)
    (hdup : (getAssets cv).any (fun a => a ≠ asset ∧ a.db_name = db) = true) :
    edit_asset st project category oldD newD sel bf bd =
      ⟨st, false, [], .error .duplicate⟩ := by
  simp only [edit_asset, hproj, hcat, hfind, hnd, hres, hdup]
  simp

/-- C9: for `edit_asset_clicked` (renameAsset) and `rename_project`,
every combination of filesystem-rename outcomes leaves the document
mutation applied and persisted, the operation reporting success, with a
separate warning present exactly when the corresponding attempted rename
failed (a rename is attempted only when its source path exists; the
folder rename looks at the tree left by the file-rename step). -/
theorem rename_commits_despite_fs_failure :
    (∀ (st : PMTState) (project category oldD newD : String)
      (sel : Option String) (cats : ProjectCats) (cv : CatVal) (asset : Asset)
      (db : String) (bf bd : Bool),
      getKey st.hierarchy project = some cats →
      getKey cats category = some cv →
      (getAssets cv).find? (fun a => a.display_name = oldD) = some asset →
      newD ≠ "" →
      resolveDbName st.conventions category newD sel = .ok db →
      (getAssets cv).any (fun a => a ≠ asset ∧ a.db_name = db) = false →
      (edit_asset st project category oldD newD sel bf bd).outcome = .ok () ∧
      (edit_asset st project category oldD newD sel bf bd).persisted = true ∧
      (edit_asset st project category oldD newD sel bf bd).state.hierarchy =
        setKey st.hierarchy project (setKey cats category
          (setAssets cv (updateFirst (getAssets cv) oldD ⟨newD, db⟩))) ∧
      (Warning.houFileRenameFailed ∈
          (edit_asset st project category oldD newD sel bf bd).warnings ↔
        bf = true ∧ (st.fs.find [project, category, asset.db_name,
          asset.db_name ++ ".hipnc"]).isSome = true) ∧
      (Warning.assetFolderRenameFailed ∈
          (edit_asset st project category oldD newD sel bf bd).warnings ↔
        bd = true ∧
          ((tryRename st.fs
              [project, category, asset.db_name, asset.db_name ++ ".hipnc"]
              [project, category, asset.db_name, db ++ ".hipnc"]
              bf .houFileRenameFailed).1.find
            [project, category, asset.db_name]).isSome = true)) ∧
    (∀ (st : PMTState) (oldName newInput : String) (b : Bool)
      (projVal : ProjectCats),
      oldName ≠ "Master Assets" →
      newInput ≠ "" →
      pyStrip newInput ≠ "" →
      pyStrip newInput ∉ st.projects →
      pyStrip newInput ≠ "Master Assets" →
      oldName ∈ st.projects →
      hasKey st.hierarchy oldName = true →
      getKey st.hierarchy oldName = some projVal →
      (rename_project st oldName newInput b).outcome = .ok () ∧
      (rename_project st oldName newInput b).persisted = true ∧
      (rename_project st oldName newInput b).state.hierarchy =
        setKey (eraseKey st.hierarchy oldName) (pyStrip newInput) projVal ∧
      (rename_project st oldName newInput b).state.projects =
        replaceFirst st.projects oldName (pyStrip newInput) ∧
      (Warning.projectFolderRenameFailed ∈
          (rename_project st oldName newInput b).warnings ↔
        b = true ∧ (st.fs.find [oldName]).isSome = true)) := by
  constructor
  · intro st project category oldD newD sel cats cv asset db bf bd
      hproj hcat hfind hnd hres hnodup
    have hred := edit_asset_eq st project category oldD newD sel cats cv
      asset db bf bd hproj hcat hfind hnd hres hnodup
    rw [hred]
    refine ⟨rfl, rfl, by rw [saveAssets_hierarchy], ?_, ?_⟩
    · rw [tryRename_warnings, tryRename_warnings]
      rcases saveAssets_warnings { st with
          hierarchy := setKey st.hierarchy project (setKey cats category
            (setAssets cv (updateFirst (getAssets cv) oldD ⟨newD, db⟩)))
          fs := (tryRename (tryRename st.fs
              [project, category, asset.db_name, asset.db_name ++ ".hipnc"]
              [project, category, asset.db_name, db ++ ".hipnc"]
              bf .houFileRenameFailed).1
            [project, category, asset.db_name]
            [project, category, db]
            bd .assetFolderRenameFailed).1 } with hw | hw <;>
        rw [hw] <;> split <;> split <;> simp_all
    · rw [tryRename_warnings, tryRename_warnings]
      rcases saveAssets_warnings { st with
          hierarchy := setKey st.hierarchy project (setKey cats category
            (setAssets cv (updateFirst (getAssets cv) oldD ⟨newD, db⟩)))
          fs := (tryRename (tryRename st.fs
              [project, category, asset.db_name, asset.db_name ++ ".hipnc"]
              [project, category, asset.db_name, db ++ ".hipnc"]
              bf .houFileRenameFailed).1
            [project, category, asset.db_name]
            [project, category, db]
            bd .assetFolderRenameFailed).1 } with hw | hw <;>
        rw [hw] <;> split <;> split <;> simp_all
  · intro st oldName newInput b projVal hold hni hstrip hnotmem hnotma hmem hhk
      hget
    have hcond : ¬(pyStrip newInput ∈ st.projects ∨
        pyStrip newInput = "Master Assets") := by
      rintro (h | h)
      · exact hnotmem h
      · exact hnotma h
    have hred : rename_project st oldName newInput b =
        ⟨(saveAssets { st with
            projects := replaceFirst st.projects oldName (pyStrip newInput)
            hierarchy := setKey (eraseKey st.hierarchy oldName)
              (pyStrip newInput) projVal
            fs := (tryRename st.fs [oldName] [pyStrip newInput] b
              .projectFolderRenameFailed).1 }).1,
          true,
          (tryRename st.fs [oldName] [pyStrip newInput] b
            .projectFolderRenameFailed).2 ++
          (saveAssets { st with
            projects := replaceFirst st.projects oldName (pyStrip newInput)
            hierarchy := setKey (eraseKey st.hierarchy oldName)
              (pyStrip newInput) projVal
            fs := (tryRename st.fs [oldName] [pyStrip newInput] b
              .projectFolderRenameFailed).1 }).2,
          .ok ()⟩ := by
      simp only [rename_project, hold, hni, hstrip, hcond, hget]
      have hmemhk : oldName ∈ st.projects ∧ hasKey st.hierarchy oldName = true :=
        ⟨hmem, hhk⟩
      simp [hmemhk, hold, hni, hstrip, hcond]
    rw [hred]
    refine ⟨rfl, rfl, by rw [saveAssets_hierarchy], by rw [saveAssets_projects],
      ?_⟩
    rw [tryRename_warnings]
    rcases saveAssets_warnings { st with
        projects := replaceFirst st.projects oldName (pyStrip newInput)
        hierarchy := setKey (eraseKey st.hierarchy oldName)
          (pyStrip newInput) projVal
        fs := (tryRename st.fs [oldName] [pyStrip newInput] b
          .projectFolderRenameFailed).1 } with hw | hw <;>
      rw [hw] <;> split <;> simp_all

/-- Witness for C9: in a concrete state where both the asset's data file
and its folder exist and both renames fail, the document mutation is
still applied and both warnings are reported; likewise for a failing
project-folder rename. -/
theorem rename_commits_despite_fs_failure_witness :
    (edit_asset ⟨["Master Assets", "P"],
        [("Master Assets", []), ("P", [("C", .bare [⟨"A", "A"⟩])])], [],
        .dir [("P", .dir [("C", .dir [("A", .dir [("A.hipnc", .file)])])])]⟩
      "P" "C" "A" "B" none true true).state.hierarchy =
      [("Master Assets", []), ("P", [("C", CatVal.bare [⟨"B", "B"⟩])])] ∧
    Warning.houFileRenameFailed ∈ (edit_asset ⟨["Master Assets", "P"],
        [("Master Assets", []), ("P", [("C", .bare [⟨"A", "A"⟩])])], [],
        .dir [("P", .dir [("C", .dir [("A", .dir [("A.hipnc", .file)])])])]⟩
      "P" "C" "A" "B" none true true).warnings ∧
    Warning.assetFolderRenameFailed ∈ (edit_asset ⟨["Master Assets", "P"],
        [("Master Assets", []), ("P", [("C", .bare [⟨"A", "A"⟩])])], [],
        .dir [("P", .dir [("C", .dir [("A", .dir [("A.hipnc", .file)])])])]⟩
      "P" "C" "A" "B" none true true).warnings ∧
    (rename_project ⟨["Master Assets", "P"],
        [("Master Assets", []), ("P", [("C", .bare [⟨"A", "A"⟩])])], [],
        .dir [("P", .dir [("C", .dir [("A", .dir [("A.hipnc", .file)])])])]⟩
      "P" "Q" true).state.hierarchy =
      [("Master Assets", []), ("Q", [("C", CatVal.bare [⟨"A", "A"⟩])])] ∧
    Warning.projectFolderRenameFailed ∈ (rename_project ⟨["Master Assets", "P"],
        [("Master Assets", []), ("P", [("C", .bare [⟨"A", "A"⟩])])], [],
        .dir [("P", .dir [("C", .dir [("A", .dir [("A.hipnc", .file)])])])]⟩
      "P" "Q" true).warnings := by
  have he := rename_commits_despite_fs_failure.1 ⟨["Master Assets", "P"],
      [("Master Assets", []), ("P", [("C", .bare [⟨"A", "A"⟩])])], [],
      .dir [("P", .dir [("C", .dir [("A", .dir [("A.hipnc", .file)])])])]⟩
    "P" "C" "A" "B" none [("C", .bare [⟨"A", "A"⟩])] (.bare [⟨"A", "A"⟩])
    ⟨"A", "A"⟩ "B" true true rfl rfl rfl (by decide) rfl rfl
  have hr := rename_commits_despite_fs_failure.2 ⟨["Master Assets", "P"],
      [("Master Assets", []), ("P", [("C", .bare [⟨"A", "A"⟩])])], [],
      .dir [("P", .dir [("C", .dir [("A", .dir [("A.hipnc", .file)])])])]⟩
    "P" "Q" true [("C", .bare [⟨"A", "A"⟩])] (by decide) (by decide) (by decide)
    (by decide) (by decide) (by decide) rfl rfl
  exact ⟨he.2.2.1.trans rfl, he.2.2.2.1.mpr ⟨rfl, rfl⟩,
    he.2.2.2.2.mpr ⟨rfl, rfl⟩, hr.2.2.1.trans rfl, hr.2.2.2.2.mpr ⟨rfl, rfl⟩⟩

/-! ## The Master Assets invariant (C1)

`__init__` (lines 212-236) ensures a `"Master Assets"` project exists and
puts it first in the project list; the public operations refuse to
create, rename (from or to), or delete it. -/

/-- Lines 217-224: insert the distinguished project when missing. -/
def ensureMasterAssets (h : Hierarchy) : Hierarchy :=
  if hasKey h "Master Assets" then h
  else h ++ [("Master Assets",
    [("Company Logo", .bare []), ("Marketing Materials", .bare []),
     ("Master Materials", .bare []), ("Master Textures", .bare []),
     ("Master Assets", .bare [])])]

/-- Lines 230-233: `"Master Assets"` is moved to the front of the project
list (`remove` then `insert 0`). -/
def orderProjects (ks : List String) : List String :=
  if "Master Assets" ∈ ks then "Master Assets" :: ks.erase "Master Assets"
  else ks

/-- The state right after `__init__`, for an arbitrary loaded hierarchy
(with `naming_conventions` already popped), conventions, and on-disk
tree. -/
def initState (h0 : Hierarchy) (nc : NamingConventions) (fs : FSNode) :
    PMTState :=
  ⟨orderProjects ((ensureMasterAssets h0).map Prod.fst),
   ensureMasterAssets h0, nc, fs⟩

/-- The states reachable through the public operations, starting from any
`__init__` state whose loaded hierarchy has unique project names (a
Python dict cannot repeat a key).  Rename/delete/asset operations receive
arbitrary arguments (the operations themselves reject or crash on the
ones the UI cannot produce). -/
inductive Reach : PMTState → Prop where
  | init (h0 : Hierarchy) (nc : NamingConventions) (fs : FSNode)
      (wf : (h0.map Prod.fst).Nodup) : Reach (initState h0 nc fs)
  | addP {s : PMTState} (t : String) : Reach s → Reach (add_project s t).state
  | renameP {s : PMTState} (o n : String) (b : Bool) :
      Reach s → Reach (rename_project s o n b).state
  | deleteP {s : PMTState} (n : String) (c : Bool) :
      Reach s → Reach (delete_project s n c).state
  | createA {s : PMTState} (p c d : String) (v : Option String) :
      Reach s → Reach (create_asset s p c d v).state
  | editA {s : PMTState} (p c od nd : String) (v : Option String)
      (bf bd : Bool) : Reach s → Reach (edit_asset s p c od nd v bf bd).state
  | deleteA {s : PMTState} (p c d : String) (cf : Bool) :
      Reach s → Reach (delete_asset s p c d cf).state

/-- The structural invariant maintained by every operation: the project
list and the hierarchy keys are duplicate-free and agree as sets, and the
distinguished project is present. -/
def Inv (st : PMTState) : Prop :=
  st.projects.Nodup ∧
  (st.hierarchy.map Prod.fst).Nodup ∧
  (∀ x, x ∈ st.projects ↔ x ∈ st.hierarchy.map Prod.fst) ∧
  "Master Assets" ∈ st.hierarchy.map Prod.fst

theorem hasKey_iff_mem {α : Type} {l : List (String × α)} {k : String} :
    hasKey l k = true ↔ k ∈ l.map Prod.fst := by
  induction l with
  | nil => simp
  | cons p rest ih =>
    obtain ⟨a, b⟩ := p
    simp only [hasKey_cons, Bool.or_eq_true, beq_iff_eq, List.map_cons,
      List.mem_cons, ih]
    exact or_congr eq_comm Iff.rfl

theorem keys_eraseKey {α : Type} (l : List (String × α)) (k : String) :
    (eraseKey l k).map Prod.fst = (l.map Prod.fst).filter (fun x => x ≠ k) := by
  induction l with
  | nil => rfl
  | cons p rest ih =>
    obtain ⟨a, b⟩ := p
    by_cases hak : a = k
    · have h1 : eraseKey ((a, b) :: rest) k = eraseKey rest k := by
        simp [eraseKey, hak]
      rw [h1, ih, List.map_cons, List.filter_cons]
      simp [hak]
    · have h1 : eraseKey ((a, b) :: rest) k = (a, b) :: eraseKey rest k := by
        simp [eraseKey, hak]
      rw [h1, List.map_cons, ih, List.map_cons, List.filter_cons]
      simp [hak]

theorem keys_map_set {α : Type} (l : List (String × α)) (k : String) (v : α) :
    (l.map (fun p => if p.1 = k then (k, v) else p)).map Prod.fst =
      l.map Prod.fst := by
  induction l with
  | nil => rfl
  | cons p rest ih =>
    obtain ⟨a, b⟩ := p
    by_cases hak : a = k
    · simp [hak, ih]
    · simp [hak, ih]

theorem keys_setKey_of_hasKey {α : Type} {l : List (String × α)} {k : String}
    (h : hasKey l k = true) (v : α) :
    (setKey l k v).map Prod.fst = l.map Prod.fst := by
  unfold setKey
  rw [if_pos h]
  exact keys_map_set l k v

theorem keys_setKey_of_not {α : Type} {l : List (String × α)} {k : String}
    (h : hasKey l k = false) (v : α) :
    (setKey l k v).map Prod.fst = l.map Prod.fst ++ [k] := by
  unfold setKey
  rw [if_neg (by simp [h])]
  simp

theorem mem_replaceFirst {l : List String} {old new x : String}
    (h : x ∈ replaceFirst l old new) : x ∈ l ∨ x = new := by
  induction l with
  | nil => simp [replaceFirst] at h
  | cons a rest ih =>
    by_cases ha : a = old
    · rw [show replaceFirst (a :: rest) old new = new :: rest from by
        simp [replaceFirst, ha]] at h
      rcases List.mem_cons.mp h with h1 | h1
      · right; exact h1
      · left; exact List.mem_cons_of_mem _ h1
    · rw [show replaceFirst (a :: rest) old new =
          a :: replaceFirst rest old new from by simp [replaceFirst, ha]] at h
      rcases List.mem_cons.mp h with h1 | h1
      · left; simp [h1]
      · rcases ih h1 with h2 | h2
        · left; exact List.mem_cons_of_mem _ h2
        · right; exact h2

theorem mem_replaceFirst_iff {l : List String} {old new x : String}
    (hnd : l.Nodup) (hm : old ∈ l) :
    x ∈ replaceFirst l old new ↔ (x ∈ l ∧ x ≠ old) ∨ x = new := by
  induction l with
  | nil => simp at hm
  | cons a rest ih =>
    rw [List.nodup_cons] at hnd
    by_cases ha : a = old
    · subst ha
      have hnr : a ∉ rest := hnd.1
      rw [show replaceFirst (a :: rest) a new = new :: rest from by
        simp [replaceFirst]]
      constructor
      · intro h
        rcases List.mem_cons.mp h with h1 | h1
        · right; exact h1
        · left
          exact ⟨List.mem_cons_of_mem _ h1, fun hx => hnr (hx ▸ h1)⟩
      · rintro (⟨h1, h2⟩ | h1)
        · rcases List.mem_cons.mp h1 with h3 | h3
          · exact absurd h3 h2
          · exact List.mem_cons_of_mem _ h3
        · exact h1 ▸ List.mem_cons_self _ _
    · rw [show replaceFirst (a :: rest) old new =
          a :: replaceFirst rest old new from by simp [replaceFirst, ha]]
      rcases List.mem_cons.mp hm with h1 | h1
      · exact absurd h1.symm ha
      · rw [List.mem_cons, ih hnd.2 h1]
        constructor
        · rintro (rfl | (⟨h2, h3⟩ | h2))
          · exact Or.inl ⟨List.mem_cons_self _ _, fun hx => ha hx⟩
          · exact Or.inl ⟨List.mem_cons_of_mem _ h2, h3⟩
          · exact Or.inr h2
        · rintro (⟨h2, h3⟩ | h2)
          · rcases List.mem_cons.mp h2 with h4 | h4
            · exact Or.inl h4
            · exact Or.inr (Or.inl ⟨h4, h3⟩)
          · exact Or.inr (Or.inr h2)

theorem nodup_replaceFirst {l : List String} {old new : String}
    (hnd : l.Nodup) (hnew : new ∉ l) : (replaceFirst l old new).Nodup := by
  induction l with
  | nil => exact List.nodup_nil
  | cons a rest ih =>
    rw [List.nodup_cons] at hnd
    by_cases ha : a = old
    · rw [show replaceFirst (a :: rest) old new = new :: rest from by
        simp [replaceFirst, ha]]
      rw [List.nodup_cons]
      exact ⟨fun h => hnew (List.mem_cons_of_mem _ h), hnd.2⟩
    · rw [show replaceFirst (a :: rest) old new =
          a :: replaceFirst rest old new from by simp [replaceFirst, ha]]
      rw [List.nodup_cons]
      refine ⟨fun h => ?_, ih hnd.2 (fun h => hnew (List.mem_cons_of_mem _ h))⟩
      rcases mem_replaceFirst h with h1 | h1
      · exact hnd.1 h1
      · exact hnew (h1 ▸ List.mem_cons_self _ _)

theorem inv_saveAssets {x : PMTState} (h : Inv x) : Inv (saveAssets x).1 := by
  unfold Inv at h ⊢
  rw [saveAssets_projects, saveAssets_hierarchy]
  exact h

theorem inv_initState (h0 : Hierarchy) (nc : NamingConventions) (fs : FSNode)
    (wf : (h0.map Prod.fst).Nodup) : Inv (initState h0 nc fs) := by
  unfold initState Inv ensureMasterAssets
  by_cases hk : hasKey h0 "Master Assets" = true
  · rw [if_pos hk]
    have hmem : "Master Assets" ∈ h0.map Prod.fst := hasKey_iff_mem.mp hk
    unfold orderProjects
    rw [if_pos hmem]
    refine ⟨?_, wf, ?_, hmem⟩
    · rw [List.nodup_cons]
      exact ⟨wf.not_mem_erase, wf.erase _⟩
    · intro x
      rw [List.mem_cons, wf.mem_erase_iff]
      constructor
      · rintro (rfl | ⟨_, h2⟩)
        · exact hmem
        · exact h2
      · intro hx
        by_cases hxm : x = "Master Assets"
        · exact Or.inl hxm
        · exact Or.inr ⟨hxm, hx⟩
  · rw [if_neg hk]
    have hmem : "Master Assets" ∉ h0.map Prod.fst :=
      fun h => hk (hasKey_iff_mem.mpr h)
    have hkeq : ((h0 ++ [("Master Assets",
        [("Company Logo", CatVal.bare []), ("Marketing Materials", .bare []),
         ("Master Materials", .bare []), ("Master Textures", .bare []),
         ("Master Assets", .bare [])])]).map Prod.fst) =
        h0.map Prod.fst ++ ["Master Assets"] := by simp
    rw [hkeq]
    have hkeys : (h0.map Prod.fst ++ ["Master Assets"]).Nodup := by
      simp [List.nodup_append, wf, hmem]
    have hmem2 : "Master Assets" ∈ h0.map Prod.fst ++ ["Master Assets"] := by
      simp
    unfold orderProjects
    rw [if_pos hmem2]
    refine ⟨?_, hkeys, ?_, hmem2⟩
    · rw [List.nodup_cons]
      exact ⟨hkeys.not_mem_erase, hkeys.erase _⟩
    · intro x
      rw [List.mem_cons, hkeys.mem_erase_iff]
      constructor
      · rintro (rfl | ⟨_, h2⟩)
        · exact hmem2
        · exact h2
      · intro hx
        by_cases hxm : x = "Master Assets"
        · exact Or.inl hxm
        · exact Or.inr ⟨hxm, hx⟩

theorem inv_add (st : PMTState) (t : String) (h : Inv st) :
    Inv (add_project st t).state := by
  obtain ⟨hp, hk, hiff, hma⟩ := h
  by_cases h1 : pyStrip t = ""
  · simp only [add_project, h1]
    exact ⟨hp, hk, hiff, hma⟩
  by_cases h2 : pyStrip t = "Master Assets"
  · simp only [add_project, h1, h2, ne_eq, not_false_eq_true, if_true, if_pos rfl]
    exact ⟨hp, hk, hiff, hma⟩
  by_cases h3 : pyStrip t ∈ st.projects
  · simp [add_project, h1, h2, h3]
    exact ⟨hp, hk, hiff, hma⟩
  by_cases h4 : hasKey st.hierarchy (pyStrip t) = true
  · simp [add_project, h1, h2, h3, h4]
    refine ⟨?_, hk, ?_, hma⟩
    · simp [List.nodup_append, hp, h3]
    · intro x
      rw [List.mem_append]
      constructor
      · rintro (hx | hx)
        · exact (hiff x).mp hx
        · simp only [List.mem_singleton] at hx
          subst hx
          exact hasKey_iff_mem.mp h4
      · intro hx
        exact Or.inl ((hiff x).mpr hx)
  · simp [add_project, h1, h2, h3, h4]
    apply inv_saveAssets
    have hknot : pyStrip t ∉ st.hierarchy.map Prod.fst :=
      fun hmem => h4 (hasKey_iff_mem.mpr hmem)
    refine ⟨?_, ?_, ?_, ?_⟩
    · simp [List.nodup_append, hp, h3]
    · simp [List.nodup_append, hk, hknot]
    · intro x
      simp only [List.map_append, List.map_cons, List.map_nil, List.mem_append]
      constructor
      · rintro (hx | hx)
        · exact Or.inl ((hiff x).mp hx)
        · exact Or.inr hx
      · rintro (hx | hx)
        · exact Or.inl ((hiff x).mpr hx)
        · exact Or.inr hx
    · simp only [List.map_append, List.mem_append]
      exact Or.inl hma

theorem inv_rename (st : PMTState) (o n : String) (b : Bool) (h : Inv st) :
    Inv (rename_project st o n b).state := by
  obtain ⟨hp, hk, hiff, hma⟩ := h
  by_cases h1 : o = "Master Assets"
  · simp only [rename_project, h1, if_pos rfl]
    exact ⟨hp, hk, hiff, hma⟩
  by_cases h2 : n = ""
  · simp [rename_project, h1, h2]
    exact ⟨hp, hk, hiff, hma⟩
  by_cases h3 : pyStrip n = ""
  · simp [rename_project, h1, h2, h3]
    exact ⟨hp, hk, hiff, hma⟩
  by_cases h4 : pyStrip n ∈ st.projects ∨ pyStrip n = "Master Assets"
  · simp [rename_project, h1, h2, h3, h4]
    exact ⟨hp, hk, hiff, hma⟩
  by_cases h5 : o ∈ st.projects ∧ hasKey st.hierarchy o = true
  · obtain ⟨projVal, hget⟩ := getKey_isSome_of_hasKey h5.2
    simp [rename_project, h1, h2, h3, h4, h5, hget]
    apply inv_saveAssets
    push_neg at h4
    obtain ⟨hnmem, hnma⟩ := h4
    have hnkeys : pyStrip n ∉ st.hierarchy.map Prod.fst :=
      fun hx => hnmem ((hiff _).mpr hx)
    have herase : (eraseKey st.hierarchy o).map Prod.fst =
        (st.hierarchy.map Prod.fst).filter (fun x => x ≠ o) :=
      keys_eraseKey st.hierarchy o
    have hnoterase : hasKey (eraseKey st.hierarchy o) (pyStrip n) = false := by
      rw [← Bool.not_eq_true]
      intro hx
      have := hasKey_iff_mem.mp hx
      rw [herase] at this
      exact hnkeys (List.mem_of_mem_filter this)
    have hkeys' : (setKey (eraseKey st.hierarchy o) (pyStrip n) projVal).map
        Prod.fst = (st.hierarchy.map Prod.fst).filter (fun x => x ≠ o) ++
        [pyStrip n] := by
      rw [keys_setKey_of_not hnoterase, herase]
    refine ⟨?_, ?_, ?_, ?_⟩
    · exact nodup_replaceFirst hp hnmem
    · rw [hkeys']
      refine List.Nodup.append (hk.filter _) (List.nodup_singleton _) ?_
      intro x hx hx2
      simp only [List.mem_singleton] at hx2
      subst hx2
      exact hnkeys (List.mem_of_mem_filter hx)
    · intro x
      rw [hkeys', mem_replaceFirst_iff hp h5.1, List.mem_append,
        List.mem_filter, List.mem_singleton]
      simp only [ne_eq, decide_not, Bool.not_eq_true', decide_eq_false_iff_not]
      rw [hiff x]
    · rw [hkeys', List.mem_append, List.mem_filter]
      left
      simp only [ne_eq, decide_not, Bool.not_eq_true', decide_eq_false_iff_not]
      exact ⟨hma, fun hx => h1 hx.symm⟩
  · simp only [rename_project, h1, h2, h3, h4, h5]
    cases hget : getKey st.hierarchy o with
    | none => simp [h1, h2, h3, h4, h5, hget]; exact ⟨hp, hk, hiff, hma⟩
    | some projVal => simp [h1, h2, h3, h4, h5, hget]; exact ⟨hp, hk, hiff, hma⟩

theorem inv_delete (st : PMTState) (nm : String) (c : Bool) (h : Inv st) :
    Inv (delete_project st nm c).state := by
  obtain ⟨hp, hk, hiff, hma⟩ := h
  by_cases h1 : nm = "Master Assets"
  · simp only [delete_project, h1, if_pos rfl]
    exact ⟨hp, hk, hiff, hma⟩
  by_cases hc : c = true
  · by_cases h2 : nm ∈ st.projects ∧ hasKey st.hierarchy nm = true
    · simp [delete_project, h1, hc, h2]
      apply inv_saveAssets
      have herase : (eraseKey st.hierarchy nm).map Prod.fst =
          (st.hierarchy.map Prod.fst).filter (fun x => x ≠ nm) :=
        keys_eraseKey st.hierarchy nm
      refine ⟨hp.erase _, ?_, ?_, ?_⟩
      · rw [herase]
        exact hk.filter _
      · intro x
        rw [hp.mem_erase_iff, herase, List.mem_filter]
        simp only [ne_eq, decide_not, Bool.not_eq_true', decide_eq_false_iff_not]
        rw [hiff x]
        tauto
      · rw [herase, List.mem_filter]
        simp only [ne_eq, decide_not, Bool.not_eq_true', decide_eq_false_iff_not]
        exact ⟨hma, fun hx => h1 hx.symm⟩
    · simp [delete_project, h1, hc, h2]
      exact ⟨hp, hk, hiff, hma⟩
  · simp [delete_project, h1, hc]
    exact ⟨hp, hk, hiff, hma⟩

/-- Updating a category inside an existing project leaves the project
list, the hierarchy keys, and hence the whole invariant intact. -/
theorem inv_set_hierarchy {st : PMTState} {project : String}
    {newCats : ProjectCats} (h : Inv st)
    (hhk : hasKey st.hierarchy project = true) (fs' : FSNode) :
    Inv { st with
      hierarchy := setKey st.hierarchy project newCats
      fs := fs' } := by
  obtain ⟨hp, hk, hiff, hma⟩ := h
  have hkeys := keys_setKey_of_hasKey hhk newCats
  exact ⟨hp, by rw [hkeys]; exact hk,
    fun x => by rw [hkeys]; exact hiff x, by rw [hkeys]; exact hma⟩

theorem inv_create (st : PMTState) (p c d : String) (v : Option String)
    (h : Inv st) : Inv (create_asset st p c d v).state := by
  by_cases hd : d = ""
  · simp only [create_asset, hd, if_pos rfl]
    exact h
  cases hres : resolveDbName st.conventions c d v with
  | error e =>
    cases e <;> simp [create_asset, hd, hres] <;> exact h
  | ok db =>
    cases hgp : getKey st.hierarchy p with
    | none => simp [create_asset, hd, hres, hgp]; exact h
    | some cats =>
      cases hgc : getKey cats c with
      | none => simp [create_asset, hd, hres, hgp, hgc]; exact h
      | some cv =>
        by_cases hdup : ((getAssets cv).any fun a => a.db_name = db) = true
        · simp [create_asset, hd, hres, hgp, hgc, hdup]
          exact h
        · simp [create_asset, hd, hres, hgp, hgc, hdup]
          apply inv_saveAssets
          exact inv_set_hierarchy h (hasKey_of_getKey_some hgp) st.fs

theorem inv_edit (st : PMTState) (p c od nd : String) (v : Option String)
    (bf bd : Bool) (h : Inv st) :
    Inv (edit_asset st p c od nd v bf bd).state := by
  cases hgp : getKey st.hierarchy p with
  | none => simp only [edit_asset, hgp]; exact h
  | some cats =>
    cases hgc : getKey cats c with
    | none => simp only [edit_asset, hgp, hgc]; exact h
    | some cv =>
      cases hfind : (getAssets cv).find? (fun a => a.display_name = od) with
      | none => simp only [edit_asset, hgp, hgc, hfind]; exact h
      | some asset =>
        by_cases hnd : nd = ""
        · simp only [edit_asset, hgp, hgc, hfind, hnd, if_pos rfl]
          exact h
        cases hres : resolveDbName st.conventions c nd v with
        | error e =>
          cases e <;> simp [edit_asset, hgp, hgc, hfind, hnd, hres] <;> exact h
        | ok db =>
          by_cases hdup :
              ((getAssets cv).any fun a => a ≠ asset ∧ a.db_name = db) = true
          · rw [edit_asset_dup st p c od nd v cats cv asset db bf bd hgp hgc
              hfind hnd hres hdup]
            exact h
          · have hdup' :
                ((getAssets cv).any fun a => a ≠ asset ∧ a.db_name = db) =
                  false := by simpa using hdup
            rw [edit_asset_eq st p c od nd v cats cv asset db bf bd hgp hgc
              hfind hnd hres hdup']
            apply inv_saveAssets
            exact inv_set_hierarchy h (hasKey_of_getKey_some hgp) _

theorem inv_deleteA (st : PMTState) (p c d : String) (cf : Bool) (h : Inv st) :
    Inv (delete_asset st p c d cf).state := by
  cases hgp : getKey st.hierarchy p with
  | none => simp only [delete_asset, hgp]; exact h
  | some cats =>
    cases hgc : getKey cats c with
    | none => simp only [delete_asset, hgp, hgc]; exact h
    | some cv =>
      cases hfind : (getAssets cv).find? (fun a => a.display_name = d) with
      | none => simp only [delete_asset, hgp, hgc, hfind]; exact h
      | some asset =>
        by_cases hc : cf = true
        · simp [delete_asset, hgp, hgc, hfind, hc]
          apply inv_saveAssets
          exact inv_set_hierarchy h (hasKey_of_getKey_some hgp) st.fs
        · simp [delete_asset, hgp, hgc, hfind, hc]
          exact h

theorem reach_inv {s : PMTState} (h : Reach s) : Inv s := by
  induction h with
  | init h0 nc fs wf => exact inv_initState h0 nc fs wf
  | addP t _ ih => exact inv_add _ t ih
  | renameP o n b _ ih => exact inv_rename _ o n b ih
  | deleteP n c _ ih => exact inv_delete _ n c ih
  | createA p c d v _ ih => exact inv_create _ p c d v ih
  | editA p c od nd v bf bd _ ih => exact inv_edit _ p c od nd v bf bd ih
  | deleteA p c d cf _ ih => exact inv_deleteA _ p c d cf ih

/-- C1: in every reachable state, `"Master Assets"` exists exactly once
among the projects of the document, and the operations that would touch
it fail without changing anything: creating a project with the reserved
name fails with the reserved-name warning, renaming it (as source) fails
as immutable, renaming any other project *to* it fails as
already-exists/reserved, and deleting it fails as immutable — each
returning the state (document and filesystem) unchanged, unpersisted. -/
theorem master_assets_invariant (s : PMTState) (h : Reach s) :
    (s.hierarchy.map Prod.fst).count "Master Assets" = 1 ∧
    (∀ t, pyStrip t = "Master Assets" →
      add_project s t = ⟨s, false, [], .error .reservedName⟩) ∧
    (∀ x b, rename_project s "Master Assets" x b =
      ⟨s, false, [], .error .immutable⟩) ∧
    (∀ p b, p ≠ "Master Assets" →
      rename_project s p "Master Assets" b =
        ⟨s, false, [], .error .alreadyExists⟩) ∧
    (∀ c, delete_project s "Master Assets" c =
      ⟨s, false, [], .error .immutable⟩) := by
  obtain ⟨-, hk, -, hma⟩ := reach_inv h
  refine ⟨List.count_eq_one_of_mem hk hma, ?_, ?_, ?_, ?_⟩
  · intro t ht
    simp [add_project, ht]
  · intro x b
    simp [rename_project]
  · intro p b hp
    have hstrip : pyStrip "Master Assets" = "Master Assets" := rfl
    simp [rename_project, hp, hstrip]
  · intro c
    simp [delete_project]

/-- Witness for C1: the freshly initialized empty document. -/
theorem master_assets_invariant_witness :
    ((initState [] [] (.dir [])).hierarchy.map Prod.fst).count
      "Master Assets" = 1 ∧
    delete_project (initState [] [] (.dir [])) "Master Assets" true =
      ⟨initState [] [] (.dir []), false, [], .error .immutable⟩ :=
  ⟨(master_assets_invariant _ (Reach.init [] [] _ (by simp))).1,
   (master_assets_invariant _ (Reach.init [] [] _ (by simp))).2.2.2.2 true⟩

/-! ## Reconciliation: orphan pruning (C8) and idempotence (C7)

The lemmas below characterise the three passes of
`sync_filesystem_with_json`.  A real directory never lists the same name
twice (`NodupFS`), and a document produced by the operations has
non-empty, duplicate-free names (`wfDoc`). -/

/-- There is a directory at `q`. -/
def pathIsDir (fs : FSNode) (q : Path) : Prop :=
  ∃ d, fs.find q = some (.dir d)

/-- Every directory of the tree lists pairwise-distinct names. -/
inductive NodupFS : FSNode → Prop where
  | file : NodupFS .file
  | dir {cs : List (String × FSNode)} :
      (cs.map Prod.fst).Nodup → (∀ e ∈ cs, NodupFS e.2) → NodupFS (.dir cs)

/-- Well-formedness of a document as far as the reconciler is concerned:
unique non-empty project/category names, and asset identifiers that are
non-empty and do not look like `.txt` marker files. -/
def wfDoc (h : Hierarchy) : Prop :=
  (h.map Prod.fst).Nodup ∧
  ∀ p cats, (p, cats) ∈ h → p ≠ "" ∧ (cats.map Prod.fst).Nodup ∧
    ∀ c cv, (c, cv) ∈ cats → c ≠ "" ∧
      ∀ a ∈ getAssets cv, a.db_name ≠ "" ∧ (splitExt a.db_name).2 ≠ ".txt"

theorem getKey_of_mem_nodup {α : Type} {l : List (String × α)} {n : String}
    {x : α} (hmem : (n, x) ∈ l) (hnd : (l.map Prod.fst).Nodup) :
    getKey l n = some x := by
  induction l with
  | nil => simp at hmem
  | cons p rest ih =>
    obtain ⟨a, b⟩ := p
    simp only [List.map_cons, List.nodup_cons] at hnd
    rcases List.mem_cons.mp hmem with h1 | h1
    · obtain ⟨rfl, rfl⟩ := Prod.mk.injEq .. ▸ h1
      simp
    · have hna : a ≠ n := by
        intro hna
        subst hna
        exact hnd.1 (List.mem_map.mpr ⟨(a, x), h1, rfl⟩)
      simp only [getKey_cons, hna, if_false]
      exact ih h1 hnd.2

theorem setKey_getKey_id {α : Type} {l : List (String × α)} {n : String}
    {v : α} (hget : getKey l n = some v) (hnd : (l.map Prod.fst).Nodup) :
    setKey l n v = l := by
  have hk : hasKey l n = true := hasKey_of_getKey_some hget
  unfold setKey
  rw [if_pos hk]
  induction l with
  | nil => rfl
  | cons p rest ih =>
    obtain ⟨a, b⟩ := p
    simp only [List.map_cons, List.nodup_cons] at hnd
    by_cases han : a = n
    · subst han
      simp at hget
      subst hget
      have hrest : rest.map (fun p => if p.1 = a then (a, b) else p) = rest := by
        apply map_set_id
        rw [← Bool.not_eq_true]
        intro hx
        exact hnd.1 (hasKey_iff_mem.mp hx)
      simp [hrest]
    · simp only [getKey_cons, han, if_false] at hget
      have hk' : hasKey rest n = true := hasKey_of_getKey_some hget
      simp only [List.map_cons, han, if_false]
      rw [ih hget hnd.2 hk']

theorem getKey_none_hasKey {α : Type} {l : List (String × α)} {k : String}
    (h : getKey l k = none) : hasKey l k = false := by
  rw [← Bool.not_eq_true]
  intro hk
  obtain ⟨b, hb⟩ := getKey_isSome_of_hasKey hk
  rw [hb] at h
  exact Option.noConfusion h

/-- Overwriting a key twice keeps only the second value. -/
theorem setKey_setKey_overwrite {α : Type} (l : List (String × α))
    (k : String) (v w : α) : setKey (setKey l k v) k w = setKey l k w := by
  by_cases hk : hasKey l k = true
  · have h1 : setKey l k v = l.map (fun p => if p.1 = k then (k, v) else p) := by
      unfold setKey; rw [if_pos hk]
    have h2 : setKey l k w = l.map (fun p => if p.1 = k then (k, w) else p) := by
      unfold setKey; rw [if_pos hk]
    rw [h1, h2]
    unfold setKey
    rw [if_pos (by rw [hasKey_map_set]; exact hk)]
    rw [List.map_map]
    apply List.map_congr_left
    intro p _
    by_cases hp : p.1 = k <;> simp [hp]
  · have hk' : hasKey l k = false := by simpa using hk
    have h1 : setKey l k v = l ++ [(k, v)] := by
      unfold setKey; rw [if_neg hk]
    have h2 : setKey l k w = l ++ [(k, w)] := by
      unfold setKey; rw [if_neg hk]
    rw [h1, h2]
    unfold setKey
    rw [if_pos (by rw [hasKey_append]; simp)]
    rw [List.map_append, map_set_id hk']
    simp

theorem NodupFS.children {cs : List (String × FSNode)}
    (h : NodupFS (.dir cs)) : (cs.map Prod.fst).Nodup := by
  cases h with
  | dir h1 h2 => exact h1

theorem NodupFS.mem {cs : List (String × FSNode)} {e : String × FSNode}
    (h : NodupFS (.dir cs)) (hmem : e ∈ cs) : NodupFS e.2 := by
  cases h with
  | dir h1 h2 => exact h2 e hmem

/-! ### `os.makedirs` lemmas -/

theorem mkNewChain_find (rest : List String) (pre : Path) :
    ((mkNewChain rest pre).1).find rest = some (.dir []) := by
  induction rest generalizing pre with
  | nil => rfl
  | cons n rs ih =>
    simp only [mkNewChain, FSNode.find, getKey_cons, if_pos rfl]
    exact ih (pre ++ [n])

theorem mkNewChain_nodup (rest : List String) (pre : Path) :
    NodupFS (mkNewChain rest pre).1 := by
  induction rest generalizing pre with
  | nil => exact NodupFS.dir List.nodup_nil (by simp)
  | cons n rs ih =>
    refine NodupFS.dir (by simp) ?_
    intro e he
    simp only [mkNewChain, List.mem_singleton] at he
    subst he
    exact ih (pre ++ [n])

theorem mkNewChain_events (rest : List String) (pre : Path) :
    ∀ ev ∈ (mkNewChain rest pre).2, ∃ q, ev = .created q ∧ pre <+: q := by
  induction rest generalizing pre with
  | nil =>
    intro ev hev
    simp only [mkNewChain, List.mem_singleton] at hev
    exact ⟨pre, hev, List.prefix_refl pre⟩
  | cons n rs ih =>
    intro ev hev
    simp only [mkNewChain, List.mem_cons] at hev
    rcases hev with rfl | hev
    · exact ⟨pre, rfl, List.prefix_refl pre⟩
    · obtain ⟨q, hq, hpre⟩ := ih (pre ++ [n]) ev hev
      exact ⟨q, hq, ((List.prefix_append pre [n]).trans hpre)⟩

/-- `makedirs` of an existing directory path changes nothing and reports
nothing. -/
theorem mkdirsGo_id {fs : FSNode} {q : List String} {d : List (String × FSNode)}
    (hnd : NodupFS fs) (hfind : fs.find q = some (.dir d)) (pre : Path) :
    mkdirsGo fs q pre = .ok (fs, []) := by
  induction q generalizing fs pre with
  | nil =>
    cases fs with
    | file => simp [FSNode.find] at hfind
    | dir cs => rfl
  | cons n rest ih =>
    cases fs with
    | file => simp [FSNode.find] at hfind
    | dir cs =>
      simp only [FSNode.find] at hfind
      cases hget : getKey cs n with
      | none => rw [hget] at hfind; exact Option.noConfusion hfind
      | some child =>
        rw [hget] at hfind
        have hchild : NodupFS child := hnd.mem (getKey_mem hget)
        simp only [mkdirsGo, hget]
        rw [ih hchild hfind (pre ++ [n])]
        simp [Except.map, setKey_getKey_id hget hnd.children]

/-- After a successful `makedirs` the target path is a directory. -/
theorem mkdirsGo_makes {fs fs' : FSNode} {q : List String} {pre : Path}
    {t : List FSEvent} (h : mkdirsGo fs q pre = .ok (fs', t)) :
    pathIsDir fs' q := by
  induction q generalizing fs fs' pre t with
  | nil =>
    cases fs with
    | file => simp [mkdirsGo] at h
    | dir cs =>
      simp only [mkdirsGo, Except.ok.injEq, Prod.mk.injEq] at h
      obtain ⟨h1, -⟩ := h
      exact ⟨cs, by rw [← h1]; rfl⟩
  | cons n rest ih =>
    cases fs with
    | file => simp [mkdirsGo] at h
    | dir cs =>
      simp only [mkdirsGo] at h
      cases hget : getKey cs n with
      | some child =>
        simp only [hget] at h
        cases hrec : mkdirsGo child rest (pre ++ [n]) with
        | error e => rw [hrec] at h; simp [Except.map] at h
        | ok r =>
          rw [hrec] at h
          simp only [Except.map, Except.ok.injEq, Prod.mk.injEq] at h
          obtain ⟨h1, -⟩ := h
          obtain ⟨d, hd⟩ := ih hrec
          refine ⟨d, ?_⟩
          rw [← h1]
          simp only [FSNode.find, getKey_setKey_self]
          exact hd
      | none =>
        simp only [hget] at h
        simp only [Except.ok.injEq, Prod.mk.injEq] at h
        obtain ⟨h1, -⟩ := h
        refine ⟨[], ?_⟩
        rw [← h1]
        simp only [FSNode.find]
        rw [getKey_append_pair (getKey_none_hasKey hget)]
        exact mkNewChain_find rest (pre ++ [n])

/-- `makedirs` preserves duplicate-freeness of every directory. -/
theorem mkdirsGo_nodup {fs fs' : FSNode} {q : List String} {pre : Path}
    {t : List FSEvent} (hnd : NodupFS fs)
    (h : mkdirsGo fs q pre = .ok (fs', t)) : NodupFS fs' := by
  induction q generalizing fs fs' pre t with
  | nil =>
    cases fs with
    | file => simp [mkdirsGo] at h
    | dir cs =>
      simp only [mkdirsGo, Except.ok.injEq, Prod.mk.injEq] at h
      rw [← h.1]
      exact hnd
  | cons n rest ih =>
    cases fs with
    | file => simp [mkdirsGo] at h
    | dir cs =>
      simp only [mkdirsGo] at h
      cases hget : getKey cs n with
      | some child =>
        simp only [hget] at h
        cases hrec : mkdirsGo child rest (pre ++ [n]) with
        | error e => rw [hrec] at h; simp [Except.map] at h
        | ok r =>
          rw [hrec] at h
          simp only [Except.map, Except.ok.injEq, Prod.mk.injEq] at h
          rw [← h.1]
          have hchild : NodupFS r.1 := ih (hnd.mem (getKey_mem hget)) hrec
          refine NodupFS.dir ?_ ?_
          · rw [show (setKey cs n r.1).map Prod.fst = cs.map Prod.fst from
              keys_setKey_of_hasKey (hasKey_of_getKey_some hget) r.1]
            exact hnd.children
          · intro e he
            rcases setKey_mem he with h1 | h1
            · rw [h1]; exact hchild
            · exact hnd.mem h1
      | none =>
        simp only [hget] at h
        simp only [Except.ok.injEq, Prod.mk.injEq] at h
        rw [← h.1]
        refine NodupFS.dir ?_ ?_
        · rw [List.map_append]
          simp only [List.map_cons, List.map_nil]
          refine List.Nodup.append hnd.children (List.nodup_singleton _) ?_
          intro x hx hx2
          simp only [List.mem_singleton] at hx2
          subst hx2
          have := hasKey_iff_mem.mpr hx
          rw [getKey_none_hasKey hget] at this
          exact Bool.noConfusion this
        · intro e he
          rcases List.mem_append.mp he with h1 | h1
          · exact hnd.mem h1
          · simp only [List.mem_singleton] at h1
            rw [h1]
            exact mkNewChain_nodup rest (pre ++ [n])

/-- `makedirs` never loses a directory: every path that was a directory
before is one after. -/
theorem mkdirsGo_mono {fs fs' : FSNode} {q : List String} {pre : Path}
    {t : List FSEvent} {r : Path} (h : mkdirsGo fs q pre = .ok (fs', t))
    (hr : pathIsDir fs r) : pathIsDir fs' r := by
  induction q generalizing fs fs' pre t r with
  | nil =>
    cases fs with
    | file => simp [mkdirsGo] at h
    | dir cs =>
      simp only [mkdirsGo, Except.ok.injEq, Prod.mk.injEq] at h
      rw [← h.1]
      exact hr
  | cons n rest ih =>
    cases fs with
    | file => simp [mkdirsGo] at h
    | dir cs =>
      simp only [mkdirsGo] at h
      obtain ⟨d, hd⟩ := hr
      cases r with
      | nil =>
        simp only [FSNode.find, Option.some.injEq] at hd
        cases hget : getKey cs n with
        | some child =>
          simp only [hget] at h
          cases hrec : mkdirsGo child rest (pre ++ [n]) with
          | error e => rw [hrec] at h; simp [Except.map] at h
          | ok rr =>
            rw [hrec] at h
            simp only [Except.map, Except.ok.injEq, Prod.mk.injEq] at h
            exact ⟨_, by rw [← h.1]; rfl⟩
        | none =>
          simp only [hget] at h
          simp only [Except.ok.injEq, Prod.mk.injEq] at h
          exact ⟨_, by rw [← h.1]; rfl⟩
      | cons m rrest =>
        simp only [FSNode.find] at hd
        cases hgm : getKey cs m with
        | none => rw [hgm] at hd; exact Option.noConfusion hd
        | some childm =>
          rw [hgm] at hd
          cases hget : getKey cs n with
          | some child =>
            simp only [hget] at h
            cases hrec : mkdirsGo child rest (pre ++ [n]) with
            | error e => rw [hrec] at h; simp [Except.map] at h
            | ok rr =>
              rw [hrec] at h
              simp only [Except.map, Except.ok.injEq, Prod.mk.injEq] at h
              by_cases hmn : m = n
              · subst hmn
                rw [hgm] at hget
                have hchild : childm = child := by
                  simpa using hget
                subst hchild
                obtain ⟨d2, hd2⟩ := ih hrec ⟨d, hd⟩
                refine ⟨d2, ?_⟩
                rw [← h.1]
                simp only [FSNode.find, getKey_setKey_self]
                exact hd2
              · refine ⟨d, ?_⟩
                rw [← h.1]
                simp only [FSNode.find]
                rw [getKey_setKey_ne _ _ hmn, hgm]
                exact hd
          | none =>
            simp only [hget] at h
            simp only [Except.ok.injEq, Prod.mk.injEq] at h
            have hmn : m ≠ n := by
              intro hmn
              subst hmn
              rw [hgm] at hget
              exact Option.noConfusion hget
            refine ⟨d, ?_⟩
            rw [← h.1]
            simp only [FSNode.find]
            rw [getKey_append_ne _ _ hmn, hgm]
            exact hd

/-! ### Orphan-removal characterization (lines 626-656)

`isOrphanTxt` names a stray `.txt` marker (extension `.txt`, base name
matching no identifier); `txtKeep`/`txtEvents` give the exact outcome of
the marker scan, `catClean`/`catEvents` and `projClean`/`projEvents` the
per-entry outcome of the category- and project-level orphan scans. -/

/-- A stray `.txt` marker name (line 655). -/
def isOrphanTxt (db : List String) (name : String) : Bool :=
  decide ((splitExt name).2 = ".txt" ∧ (splitExt name).1 ∉ db)

/-- Entries the stray-marker scan keeps. -/
def txtKeep (db : List String) (entries : List (String × FSNode)) :
    List (String × FSNode) :=
  entries.filter (fun e => !isOrphanTxt db e.1)

/-- Events the stray-marker scan reports. -/
def txtEvents (db : List String) (pre : Path)
    (entries : List (String × FSNode)) : List FSEvent :=
  (entries.filter (fun e => isOrphanTxt db e.1)).map
    (fun e => .removedFile (pre ++ [e.1]))

theorem cleanupTxt_ok_inv {db : List String} {pre : Path}
    {entries es : List (String × FSNode)} {t : List FSEvent}
    (h : cleanupTxt db pre entries = .ok (es, t)) :
    es = txtKeep db entries ∧ t = txtEvents db pre entries ∧
    ∀ e ∈ entries, isOrphanTxt db e.1 = true → e.2 = .file := by
  induction entries generalizing es t with
  | nil =>
    simp only [cleanupTxt, Except.ok.injEq, Prod.mk.injEq] at h
    exact ⟨by simp [← h.1, txtKeep], by simp [← h.2, txtEvents], by simp⟩
  | cons e0 rest ih =>
    obtain ⟨name, node⟩ := e0
    by_cases hc : (splitExt name).2 = ".txt" ∧ (splitExt name).1 ∉ db
    · have hcb : isOrphanTxt db name = true := by simp [isOrphanTxt, hc]
      cases node with
      | dir cc => simp [cleanupTxt, hc] at h
      | file =>
        rw [show cleanupTxt db pre ((name, FSNode.file) :: rest)
            = (cleanupTxt db pre rest).map
                (fun r => (r.1, .removedFile (pre ++ [name]) :: r.2)) from by
          simp [cleanupTxt, hc]] at h
        cases hrec : cleanupTxt db pre rest with
        | error e2 => rw [hrec] at h; exact absurd h (by simp [Except.map])
        | ok rr =>
          obtain ⟨r1, r2⟩ := rr
          rw [hrec] at h
          simp only [Except.map, Except.ok.injEq, Prod.mk.injEq] at h
          obtain ⟨ih1, ih2, ih3⟩ := ih hrec
          refine ⟨?_, ?_, ?_⟩
          · rw [← h.1, ih1]; simp [txtKeep, hcb]
          · rw [← h.2, ih2]; simp [txtEvents, hcb]
          · intro e he ho
            rcases List.mem_cons.mp he with rfl | he2
            · rfl
            · exact ih3 e he2 ho
    · have hcb : isOrphanTxt db name = false := by simp [isOrphanTxt, hc]
      rw [show cleanupTxt db pre ((name, node) :: rest)
          = (cleanupTxt db pre rest).map
              (fun r => ((name, node) :: r.1, r.2)) from by
        simp [cleanupTxt, hc]] at h
      cases hrec : cleanupTxt db pre rest with
      | error e2 => rw [hrec] at h; exact absurd h (by simp [Except.map])
      | ok rr =>
        obtain ⟨r1, r2⟩ := rr
        rw [hrec] at h
        simp only [Except.map, Except.ok.injEq, Prod.mk.injEq] at h
        obtain ⟨ih1, ih2, ih3⟩ := ih hrec
        refine ⟨?_, ?_, ?_⟩
        · rw [← h.1, ih1]; simp [txtKeep, hcb]
        · rw [← h.2, ih2]; simp [txtEvents, hcb]
        · intro e he ho
          rcases List.mem_cons.mp he with rfl | he2
          · rw [ho] at hcb; cases hcb
          · exact ih3 e he2 ho

/-- The marker scan succeeds (returning exactly the non-orphan entries and
one removal event per orphan) when every orphan-named entry is a file. -/
theorem cleanupTxt_ok {db : List String} {pre : Path}
    {entries : List (String × FSNode)}
    (hf : ∀ e ∈ entries, isOrphanTxt db e.1 = true → e.2 = .file) :
    cleanupTxt db pre entries =
      .ok (txtKeep db entries, txtEvents db pre entries) := by
  induction entries with
  | nil => rfl
  | cons e0 rest ih =>
    obtain ⟨name, node⟩ := e0
    have hrec := ih (fun e he => hf e (List.mem_cons_of_mem _ he))
    by_cases hc : (splitExt name).2 = ".txt" ∧ (splitExt name).1 ∉ db
    · have hcb : isOrphanTxt db name = true := by simp [isOrphanTxt, hc]
      have hnode : node = .file := hf (name, node) (by simp) hcb
      subst hnode
      rw [show cleanupTxt db pre ((name, FSNode.file) :: rest)
          = (cleanupTxt db pre rest).map
              (fun r => (r.1, .removedFile (pre ++ [name]) :: r.2)) from by
        simp [cleanupTxt, hc]]
      rw [hrec]
      simp [Except.map, txtKeep, txtEvents, hcb]
    · have hcb : isOrphanTxt db name = false := by simp [isOrphanTxt, hc]
      rw [show cleanupTxt db pre ((name, node) :: rest)
          = (cleanupTxt db pre rest).map
              (fun r => ((name, node) :: r.1, r.2)) from by
        simp [cleanupTxt, hc]]
      rw [hrec]
      simp [Except.map, txtKeep, txtEvents, hcb]

/-- On a directory with no orphan markers the scan is the identity. -/
theorem cleanupTxt_id {db : List String} {pre : Path}
    {entries : List (String × FSNode)}
    (hf : ∀ e ∈ entries, isOrphanTxt db e.1 = false) :
    cleanupTxt db pre entries = .ok (entries, []) := by
  have h := @cleanupTxt_ok db pre entries
    (fun e he ho => absurd ho (by simp [hf e he]))
  have h1 : txtKeep db entries = entries :=
    List.filter_eq_self.mpr (fun e he => by simp [hf e he])
  have h2 : txtEvents db pre entries = [] := by
    unfold txtEvents
    rw [List.filter_eq_nil_iff.mpr (fun e he => by simp [hf e he])]
    rfl
  rw [h, h1, h2]

/-- Per-entry survivor of the category-level orphan scan. -/
def catClean (cats : ProjectCats) (e : String × FSNode) :
    Option (String × FSNode) :=
  match e.2 with
  | .file => some e
  | .dir cc =>
    if hasKey cats e.1 then
      some (e.1, .dir (txtKeep (dbNamesOf ((getKey cats e.1).getD (.bare []))) cc))
    else none

/-- Per-entry events of the category-level orphan scan. -/
def catEvents (cats : ProjectCats) (pre : Path) (e : String × FSNode) :
    List FSEvent :=
  match e.2 with
  | .file => []
  | .dir cc =>
    if hasKey cats e.1 then
      txtEvents (dbNamesOf ((getKey cats e.1).getD (.bare []))) (pre ++ [e.1]) cc
    else [.removedDir (pre ++ [e.1])]

theorem cleanupCats_ok_inv {cats : ProjectCats} {pre : Path}
    {entries es : List (String × FSNode)} {t : List FSEvent}
    (h : cleanupCats cats pre entries = .ok (es, t)) :
    es = entries.filterMap (catClean cats) ∧
    t = entries.flatMap (catEvents cats pre) ∧
    ∀ e ∈ entries, ∀ cc, e.2 = .dir cc → hasKey cats e.1 = true →
      ∀ x ∈ cc,
        isOrphanTxt (dbNamesOf ((getKey cats e.1).getD (.bare []))) x.1 = true →
        x.2 = .file := by
  induction entries generalizing es t with
  | nil =>
    simp only [cleanupCats, Except.ok.injEq, Prod.mk.injEq] at h
    exact ⟨by simp [← h.1], by simp [← h.2], by simp⟩
  | cons e0 rest ih =>
    obtain ⟨name, node⟩ := e0
    cases node with
    | file =>
      rw [show cleanupCats cats pre ((name, FSNode.file) :: rest)
          = (cleanupCats cats pre rest).map
              (fun r => ((name, .file) :: r.1, r.2)) from by
        simp [cleanupCats]] at h
      cases hrec : cleanupCats cats pre rest with
      | error e2 => rw [hrec] at h; exact absurd h (by simp [Except.map])
      | ok rr =>
        obtain ⟨r1, r2⟩ := rr
        rw [hrec] at h
        simp only [Except.map, Except.ok.injEq, Prod.mk.injEq] at h
        obtain ⟨ih1, ih2, ih3⟩ := ih hrec
        refine ⟨?_, ?_, ?_⟩
        · rw [← h.1, ih1]; simp [catClean]
        · rw [← h.2, ih2]; simp [catEvents]
        · intro e he cc hcc hk x hx ho
          rcases List.mem_cons.mp he with rfl | he2
          · cases hcc
          · exact ih3 e he2 cc hcc hk x hx ho
    | dir cc0 =>
      by_cases hk : hasKey cats name = true
      · rw [show cleanupCats cats pre ((name, FSNode.dir cc0) :: rest)
            = (do
                let r1 ← cleanupTxt
                  (dbNamesOf ((getKey cats name).getD (.bare [])))
                  (pre ++ [name]) cc0
                let r2 ← cleanupCats cats pre rest
                .ok ((name, .dir r1.1) :: r2.1, r1.2 ++ r2.2)) from by
          simp [cleanupCats, hk]] at h
        cases htxt : cleanupTxt (dbNamesOf ((getKey cats name).getD (.bare [])))
            (pre ++ [name]) cc0 with
        | error e2 =>
          rw [htxt] at h; exact absurd h (by simp [Bind.bind, Except.bind])
        | ok rr1 =>
          obtain ⟨k1, v1⟩ := rr1
          rw [htxt] at h
          simp only [Bind.bind, Except.bind] at h
          cases hrec : cleanupCats cats pre rest with
          | error e2 => rw [hrec] at h; exact absurd h (by simp)
          | ok rr2 =>
            obtain ⟨r1, r2⟩ := rr2
            rw [hrec] at h
            simp only [Except.ok.injEq, Prod.mk.injEq] at h
            obtain ⟨tx1, tx2, tx3⟩ := cleanupTxt_ok_inv htxt
            obtain ⟨ih1, ih2, ih3⟩ := ih hrec
            refine ⟨?_, ?_, ?_⟩
            · rw [← h.1, ih1, tx1]; simp [catClean, hk]
            · rw [← h.2, ih2, tx2]; simp [catEvents, hk]
            · intro e he cc hcc hk2 x hx ho
              rcases List.mem_cons.mp he with rfl | he2
              · injection hcc with hcc2
                subst hcc2
                exact tx3 x hx ho
              · exact ih3 e he2 cc hcc hk2 x hx ho
      · rw [show cleanupCats cats pre ((name, FSNode.dir cc0) :: rest)
            = (cleanupCats cats pre rest).map
                (fun r => (r.1, .removedDir (pre ++ [name]) :: r.2)) from by
          simp [cleanupCats, hk]] at h
        cases hrec : cleanupCats cats pre rest with
        | error e2 => rw [hrec] at h; exact absurd h (by simp [Except.map])
        | ok rr =>
          obtain ⟨r1, r2⟩ := rr
          rw [hrec] at h
          simp only [Except.map, Except.ok.injEq, Prod.mk.injEq] at h
          obtain ⟨ih1, ih2, ih3⟩ := ih hrec
          refine ⟨?_, ?_, ?_⟩
          · rw [← h.1, ih1]; simp [catClean, hk]
          · rw [← h.2, ih2]; simp [catEvents, hk]
          · intro e he cc hcc hk2 x hx ho
            rcases List.mem_cons.mp he with rfl | he2
            · exact absurd hk2 hk
            · exact ih3 e he2 cc hcc hk2 x hx ho

/-- Per-entry survivor of the project-level orphan scan. -/
def projClean (h : Hierarchy) (e : String × FSNode) :
    Option (String × FSNode) :=
  match e.2 with
  | .file => some e
  | .dir cc =>
    if hasKey h e.1 then
      some (e.1, .dir (cc.filterMap (catClean ((getKey h e.1).getD []))))
    else none

/-- Per-entry events of the project-level orphan scan. -/
def projEvents (h : Hierarchy) (e : String × FSNode) : List FSEvent :=
  match e.2 with
  | .file => []
  | .dir cc =>
    if hasKey h e.1 then cc.flatMap (catEvents ((getKey h e.1).getD []) [e.1])
    else [.removedDir [e.1]]

theorem cleanupProjects_ok_inv {h : Hierarchy}
    {entries es : List (String × FSNode)} {t : List FSEvent}
    (hok : cleanupProjects h entries = .ok (es, t)) :
    es = entries.filterMap (projClean h) ∧
    t = entries.flatMap (projEvents h) ∧
    ∀ e ∈ entries, ∀ cc, e.2 = .dir cc → hasKey h e.1 = true →
      ∃ es2 t2, cleanupCats ((getKey h e.1).getD []) [e.1] cc = .ok (es2, t2) := by
  induction entries generalizing es t with
  | nil =>
    simp only [cleanupProjects, Except.ok.injEq, Prod.mk.injEq] at hok
    exact ⟨by simp [← hok.1], by simp [← hok.2], by simp⟩
  | cons e0 rest ih =>
    obtain ⟨name, node⟩ := e0
    cases node with
    | file =>
      rw [show cleanupProjects h ((name, FSNode.file) :: rest)
          = (cleanupProjects h rest).map
              (fun r => ((name, .file) :: r.1, r.2)) from by
        simp [cleanupProjects]] at hok
      cases hrec : cleanupProjects h rest with
      | error e2 => rw [hrec] at hok; exact absurd hok (by simp [Except.map])
      | ok rr =>
        obtain ⟨r1, r2⟩ := rr
        rw [hrec] at hok
        simp only [Except.map, Except.ok.injEq, Prod.mk.injEq] at hok
        obtain ⟨ih1, ih2, ih3⟩ := ih hrec
        refine ⟨?_, ?_, ?_⟩
        · rw [← hok.1, ih1]; simp [projClean]
        · rw [← hok.2, ih2]; simp [projEvents]
        · intro e he cc hcc hk
          rcases List.mem_cons.mp he with rfl | he2
          · cases hcc
          · exact ih3 e he2 cc hcc hk
    | dir cc0 =>
      by_cases hk : hasKey h name = true
      · rw [show cleanupProjects h ((name, FSNode.dir cc0) :: rest)
            = (do
                let r1 ← cleanupCats ((getKey h name).getD []) [name] cc0
                let r2 ← cleanupProjects h rest
                .ok ((name, .dir r1.1) :: r2.1, r1.2 ++ r2.2)) from by
          simp [cleanupProjects, hk]] at hok
        cases hcat : cleanupCats ((getKey h name).getD []) [name] cc0 with
        | error e2 =>
          rw [hcat] at hok; exact absurd hok (by simp [Bind.bind, Except.bind])
        | ok rr1 =>
          obtain ⟨k1, v1⟩ := rr1
          rw [hcat] at hok
          simp only [Bind.bind, Except.bind] at hok
          cases hrec : cleanupProjects h rest with
          | error e2 => rw [hrec] at hok; exact absurd hok (by simp)
          | ok rr2 =>
            obtain ⟨r1, r2⟩ := rr2
            rw [hrec] at hok
            simp only [Except.ok.injEq, Prod.mk.injEq] at hok
            obtain ⟨ct1, ct2, -⟩ := cleanupCats_ok_inv hcat
            obtain ⟨ih1, ih2, ih3⟩ := ih hrec
            refine ⟨?_, ?_, ?_⟩
            · rw [← hok.1, ih1, ct1]; simp [projClean, hk]
            · rw [← hok.2, ih2, ct2]; simp [projEvents, hk]
            · intro e he cc hcc hk2
              rcases List.mem_cons.mp he with rfl | he2
              · injection hcc with hcc2
                subst hcc2
                exact ⟨k1, v1, hcat⟩
              · exact ih3 e he2 cc hcc hk2
      · rw [show cleanupProjects h ((name, FSNode.dir cc0) :: rest)
            = (cleanupProjects h rest).map
                (fun r => (r.1, .removedDir [name] :: r.2)) from by
          simp [cleanupProjects, hk]] at hok
        cases hrec : cleanupProjects h rest with
        | error e2 => rw [hrec] at hok; exact absurd hok (by simp [Except.map])
        | ok rr =>
          obtain ⟨r1, r2⟩ := rr
          rw [hrec] at hok
          simp only [Except.map, Except.ok.injEq, Prod.mk.injEq] at hok
          obtain ⟨ih1, ih2, ih3⟩ := ih hrec
          refine ⟨?_, ?_, ?_⟩
          · rw [← hok.1, ih1]; simp [projClean, hk]
          · rw [← hok.2, ih2]; simp [projEvents, hk]
          · intro e he cc hcc hk2
            rcases List.mem_cons.mp he with rfl | he2
            · exact absurd hk2 hk
            · exact ih3 e he2 cc hcc hk2

/-- **C8.** On every document and on-disk tree on which the orphan-removal
pass (`cleanup_filesystem`, lines 626-656) completes: (1) every directory
directly under the root whose name is not a project of the document is
removed — a `removedDir` event is reported and no directory of that name
survives; (2) every directory under a known project whose name is not one
of that project's categories is removed likewise; (3) every `.txt` marker
entry inside a known category whose base name matches no asset identifier
of that category is a file, is removed with a `removedFile` event, and
survives nowhere; (4) a directory inside a known category — in particular
an asset folder whose identifier matches no asset in the category — is
never removed (the documented gap). -/
theorem cleanup_orphan_spec (h : Hierarchy) (cs : List (String × FSNode))
    (fs' : FSNode) (t : List FSEvent)
    (hok : cleanupFS h (.dir cs) = .ok (fs', t)) :
    ∃ cs', fs' = .dir cs' ∧
      ((∀ name sub, (name, FSNode.dir sub) ∈ cs → hasKey h name = false →
        FSEvent.removedDir [name] ∈ t ∧
        ∀ sub2, (name, FSNode.dir sub2) ∉ cs') ∧
       (∀ p pcs, (p, FSNode.dir pcs) ∈ cs → hasKey h p = true →
        ∀ c sub, (c, FSNode.dir sub) ∈ pcs →
          hasKey ((getKey h p).getD []) c = false →
          FSEvent.removedDir [p, c] ∈ t ∧
          ∀ pcs2, (p, FSNode.dir pcs2) ∈ cs' →
            ∀ sub2, (c, FSNode.dir sub2) ∉ pcs2) ∧
       (∀ p pcs, (p, FSNode.dir pcs) ∈ cs → hasKey h p = true →
        ∀ c ccs, (c, FSNode.dir ccs) ∈ pcs →
          hasKey ((getKey h p).getD []) c = true →
          ∀ f node, (f, node) ∈ ccs → (splitExt f).2 = ".txt" →
            (splitExt f).1 ∉
              dbNamesOf ((getKey ((getKey h p).getD []) c).getD (.bare [])) →
            node = FSNode.file ∧ FSEvent.removedFile [p, c, f] ∈ t ∧
            ∀ pcs2 ccs2, (p, FSNode.dir pcs2) ∈ cs' →
              (c, FSNode.dir ccs2) ∈ pcs2 → (f, node) ∉ ccs2) ∧
       (∀ p pcs, (p, FSNode.dir pcs) ∈ cs → hasKey h p = true →
        ∀ c ccs, (c, FSNode.dir ccs) ∈ pcs →
          hasKey ((getKey h p).getD []) c = true →
          ∀ a sub, (a, FSNode.dir sub) ∈ ccs →
            ∃ pcs2 ccs2, (p, FSNode.dir pcs2) ∈ cs' ∧
              (c, FSNode.dir ccs2) ∈ pcs2 ∧ (a, FSNode.dir sub) ∈ ccs2)) := by
  rw [show cleanupFS h (.dir cs)
      = (cleanupProjects h cs).map (fun r => (.dir r.1, r.2)) from rfl] at hok
  cases hcp : cleanupProjects h cs with
  | error e => rw [hcp] at hok; exact absurd hok (by simp [Except.map])
  | ok rr =>
    obtain ⟨r1, r2⟩ := rr
    rw [hcp] at hok
    simp only [Except.map, Except.ok.injEq, Prod.mk.injEq] at hok
    obtain ⟨hfs, ht⟩ := hok
    subst hfs
    subst ht
    obtain ⟨hp1, hp2, hp3⟩ := cleanupProjects_ok_inv hcp
    refine ⟨r1, rfl, ?_, ?_, ?_, ?_⟩
    · intro name sub hmem hnk
      constructor
      · rw [hp2]
        exact List.mem_flatMap.mpr
          ⟨(name, .dir sub), hmem, by simp [projEvents, hnk]⟩
      · intro sub2 hmem2
        rw [hp1] at hmem2
        obtain ⟨e, he, hpe⟩ := List.mem_filterMap.mp hmem2
        obtain ⟨n0, v0⟩ := e
        cases v0 with
        | file => simp [projClean] at hpe
        | dir cc =>
          by_cases hk0 : hasKey h n0 = true
          · simp [projClean, hk0] at hpe
            rw [hpe.1] at hk0
            exact absurd hk0 (by simp [hnk])
          · simp [projClean, hk0] at hpe
    · intro p pcs hpm hkp c sub hcm hnc
      constructor
      · rw [hp2]
        refine List.mem_flatMap.mpr ⟨(p, .dir pcs), hpm, ?_⟩
        simp only [projEvents, hkp, if_true]
        refine List.mem_flatMap.mpr ⟨(c, .dir sub), hcm, ?_⟩
        simp [catEvents, hnc]
      · intro pcs2 hm2 sub2 hmem2
        rw [hp1] at hm2
        obtain ⟨e, he, hpe⟩ := List.mem_filterMap.mp hm2
        obtain ⟨n0, v0⟩ := e
        cases v0 with
        | file => simp [projClean] at hpe
        | dir cc =>
          by_cases hk0 : hasKey h n0 = true
          · simp [projClean, hk0] at hpe
            obtain ⟨hn0, hcc⟩ := hpe
            subst hn0
            rw [← hcc] at hmem2
            obtain ⟨x, hx, hxe⟩ := List.mem_filterMap.mp hmem2
            obtain ⟨m0, w0⟩ := x
            cases w0 with
            | file => simp [catClean] at hxe
            | dir dd =>
              simp [catClean] at hxe
              obtain ⟨hk1, hm0, -⟩ := hxe
              subst hm0
              exact absurd hk1 (by simp [hnc])
          · simp [projClean, hk0] at hpe
    · intro p pcs hpm hkp c ccs hcm hkc f node hfm hext hbn
      have horph : isOrphanTxt
          (dbNamesOf ((getKey ((getKey h p).getD []) c).getD (.bare []))) f
          = true := by
        simp [isOrphanTxt, hext, hbn]
      obtain ⟨es2, t2, hcat⟩ := hp3 (p, .dir pcs) hpm pcs rfl hkp
      obtain ⟨c1, c2, c3⟩ := cleanupCats_ok_inv hcat
      have hnode : node = .file := c3 (c, .dir ccs) hcm ccs rfl hkc (f, node) hfm horph
      refine ⟨hnode, ?_, ?_⟩
      · rw [hp2]
        refine List.mem_flatMap.mpr ⟨(p, .dir pcs), hpm, ?_⟩
        simp only [projEvents, hkp, if_true]
        refine List.mem_flatMap.mpr ⟨(c, .dir ccs), hcm, ?_⟩
        simp only [catEvents, hkc, if_true, txtEvents]
        refine List.mem_map.mpr ⟨(f, node), List.mem_filter.mpr ⟨hfm, ?_⟩, by simp⟩
        simpa using horph
      · intro pcs2 ccs2 hm2 hmc2
        rw [hp1] at hm2
        obtain ⟨e, he, hpe⟩ := List.mem_filterMap.mp hm2
        obtain ⟨n0, v0⟩ := e
        cases v0 with
        | file => simp [projClean] at hpe
        | dir cc =>
          by_cases hk0 : hasKey h n0 = true
          · simp [projClean, hk0] at hpe
            obtain ⟨hn0, hcc⟩ := hpe
            subst hn0
            rw [← hcc] at hmc2
            obtain ⟨x, hx, hxe⟩ := List.mem_filterMap.mp hmc2
            obtain ⟨m0, w0⟩ := x
            cases w0 with
            | file => simp [catClean] at hxe
            | dir dd =>
              simp [catClean] at hxe
              obtain ⟨hk1, hm0, hdd⟩ := hxe
              subst hm0
              intro hfin
              rw [← hdd] at hfin
              simp only [txtKeep] at hfin
              have h2 := (List.mem_filter.mp hfin).2
              simp only at h2
              rw [horph] at h2
              simp at h2
          · simp [projClean, hk0] at hpe
    · intro p pcs hpm hkp c ccs hcm hkc a sub ham
      obtain ⟨es2, t2, hcat⟩ := hp3 (p, .dir pcs) hpm pcs rfl hkp
      obtain ⟨-, -, c3⟩ := cleanupCats_ok_inv hcat
      have hsafe : isOrphanTxt
          (dbNamesOf ((getKey ((getKey h p).getD []) c).getD (.bare []))) a
          = false := by
        by_contra hcon
        have hfile := c3 (c, .dir ccs) hcm ccs rfl hkc (a, .dir sub) ham
          (by simpa using hcon)
        exact FSNode.noConfusion hfile
      rw [hp1]
      refine ⟨pcs.filterMap (catClean ((getKey h p).getD [])),
        txtKeep (dbNamesOf ((getKey ((getKey h p).getD []) c).getD (.bare []))) ccs,
        ?_, ?_, ?_⟩
      · exact List.mem_filterMap.mpr ⟨(p, .dir pcs), hpm, by simp [projClean, hkp]⟩
      · exact List.mem_filterMap.mpr ⟨(c, .dir ccs), hcm, by simp [catClean, hkc]⟩
      · simp only [txtKeep]
        exact List.mem_filter.mpr ⟨ham, by simp [hsafe]⟩

/-- Witness for C8: a concrete document and tree exercising all four
clauses — the unknown root directory `Q`, the unknown category directory
`P/D` and the stray marker `P/C/junk.txt` are removed, while the orphan
asset folder `P/C/A` survives. -/
theorem cleanup_orphan_spec_witness :
    ∃ fs' t,
      cleanupFS
        [("P", [("C", CatVal.bare [{ display_name := "A", db_name := "A" }])])]
        (.dir [("Q", .dir []),
               ("P", .dir [("D", .dir []),
                           ("C", .dir [("junk.txt", .file), ("A", .dir [])])])])
        = .ok (fs', t) ∧
      FSEvent.removedDir ["Q"] ∈ t ∧
      FSEvent.removedDir ["P", "D"] ∈ t ∧
      FSEvent.removedFile ["P", "C", "junk.txt"] ∈ t ∧
      ∃ cs' pcs' ccs', fs' = .dir cs' ∧ ("P", FSNode.dir pcs') ∈ cs' ∧
        ("C", FSNode.dir ccs') ∈ pcs' ∧ ("A", FSNode.dir []) ∈ ccs' := by
  have hok : cleanupFS
      [("P", [("C", CatVal.bare [{ display_name := "A", db_name := "A" }])])]
      (.dir [("Q", .dir []),
             ("P", .dir [("D", .dir []),
                         ("C", .dir [("junk.txt", .file), ("A", .dir [])])])])
      = .ok (.dir [("P", .dir [("C", .dir [("A", .dir [])])])],
             [.removedDir ["Q"], .removedDir ["P", "D"],
              .removedFile ["P", "C", "junk.txt"]]) := by rfl
  obtain ⟨cs', hfs, h1, h2, h3, h4⟩ := cleanup_orphan_spec _ _ _ _ hok
  refine ⟨_, _, hok, ?_, ?_, ?_, ?_⟩
  · exact (h1 "Q" [] (by simp) (by decide)).1
  · exact (h2 "P" [("D", .dir []), ("C", .dir [("junk.txt", .file), ("A", .dir [])])]
      (by simp) (by decide) "D" [] (by simp) (by decide)).1
  · exact (h3 "P" [("D", .dir []), ("C", .dir [("junk.txt", .file), ("A", .dir [])])]
      (by simp) (by decide) "C" [("junk.txt", .file), ("A", .dir [])]
      (by simp) (by decide) "junk.txt" .file (by simp) (by decide) (by decide)).2.1
  · obtain ⟨pcs', ccs', hm1, hm2, hm3⟩ :=
      h4 "P" [("D", .dir []), ("C", .dir [("junk.txt", .file), ("A", .dir [])])]
        (by simp) (by decide) "C" [("junk.txt", .file), ("A", .dir [])]
        (by simp) (by decide) "A" [] (by simp)
    exact ⟨cs', pcs', ccs', hfs, hm1, hm2, hm3⟩

/-! ### Reconciliation idempotence: dictionary and tree infrastructure -/

theorem getKey_append_of_some {α : Type} {l1 : List (String × α)}
    (l2 : List (String × α)) {k : String} {v : α}
    (h : getKey l1 k = some v) : getKey (l1 ++ l2) k = some v := by
  induction l1 with
  | nil => simp at h
  | cons p rest ih =>
    obtain ⟨a, b⟩ := p
    by_cases hak : a = k
    · subst hak
      simp at h
      simp [h]
    · simp only [getKey_cons, hak, if_false] at h
      simp only [List.cons_append, getKey_cons, hak, if_false]
      exact ih h

theorem getKey_append_of_none {α : Type} {l1 : List (String × α)}
    (l2 : List (String × α)) {k : String}
    (h : hasKey l1 k = false) : getKey (l1 ++ l2) k = getKey l2 k := by
  induction l1 with
  | nil => rfl
  | cons p rest ih =>
    obtain ⟨a, b⟩ := p
    simp only [hasKey_cons, Bool.or_eq_false_iff] at h
    have hak : ¬(a = k) := by
      intro hh
      rw [hh] at h
      simp at h
    simp only [List.cons_append, getKey_cons, hak, if_false]
    exact ih h.2

theorem setKey_append_keyleft {α : Type} {l1 l2 : List (String × α)}
    {k : String} (v : α) (h1 : hasKey l1 k = true) (h2 : hasKey l2 k = false) :
    setKey (l1 ++ l2) k v = setKey l1 k v ++ l2 := by
  unfold setKey
  rw [if_pos (by rw [hasKey_append, h1]; rfl), if_pos h1]
  rw [List.map_append, map_set_id h2]

theorem setKey_snoc_self {α : Type} {l : List (String × α)} {k : String}
    (w v : α) (h : hasKey l k = false) :
    setKey (l ++ [(k, w)]) k v = l ++ [(k, v)] := by
  unfold setKey
  rw [if_pos (by rw [hasKey_append, h]; simp)]
  rw [List.map_append, map_set_id h]
  simp

theorem getKey_map_const {α : Type} {names : List String} {x : String} (v : α)
    (h : x ∈ names) :
    getKey (names.map (fun n => (n, v))) x = some v := by
  induction names with
  | nil => simp at h
  | cons n rest ih =>
    rcases List.mem_cons.mp h with rfl | h2
    · simp
    · by_cases hnx : n = x
      · subst hnx; simp
      · simp only [List.map_cons, getKey_cons, hnx, if_false]
        exact ih h2

theorem getKey_filterMap {α β : Type} {f : String × α → Option (String × β)}
    (hkey : ∀ e e2, f e = some e2 → e2.1 = e.1)
    {l : List (String × α)} {k : String} {v : α} {w : String × β}
    (hget : getKey l k = some v) (hf : f (k, v) = some w) :
    getKey (l.filterMap f) k = some w.2 := by
  induction l with
  | nil => simp at hget
  | cons p rest ih =>
    obtain ⟨a, b⟩ := p
    by_cases hak : a = k
    · subst hak
      simp at hget
      subst hget
      obtain ⟨w1, w2⟩ := w
      have hw1 : w1 = a := hkey (a, b) (w1, w2) hf
      subst hw1
      simp [List.filterMap_cons, hf]
    · simp only [getKey_cons, hak, if_false] at hget
      cases hfa : f (a, b) with
      | none => simp only [List.filterMap_cons, hfa]; exact ih hget
      | some e2 =>
        have he2 : e2.1 = a := hkey (a, b) e2 hfa
        obtain ⟨e21, e22⟩ := e2
        simp only at he2
        subst he2
        simp only [List.filterMap_cons, hfa, getKey_cons, hak, if_false]
        exact ih hget

theorem keys_filterMap_sublist {α β : Type} {f : String × α → Option (String × β)}
    (hkey : ∀ e e2, f e = some e2 → e2.1 = e.1) (l : List (String × α)) :
    ((l.filterMap f).map Prod.fst).Sublist (l.map Prod.fst) := by
  induction l with
  | nil => simp
  | cons e rest ih =>
    cases hfe : f e with
    | none =>
      simp only [List.filterMap_cons, hfe, List.map_cons]
      exact ih.cons _
    | some e2 =>
      simp only [List.filterMap_cons, hfe, List.map_cons]
      rw [hkey e e2 hfe]
      exact ih.cons₂ _

theorem catClean_key {cats : ProjectCats} {e e2 : String × FSNode}
    (h : catClean cats e = some e2) : e2.1 = e.1 := by
  obtain ⟨n, v⟩ := e
  cases v with
  | file =>
    simp only [catClean, Option.some.injEq] at h
    rw [← h]
  | dir cc =>
    simp only [catClean] at h
    by_cases hk : hasKey cats n = true
    · rw [if_pos hk] at h
      simp only [Option.some.injEq] at h
      rw [← h]
    · rw [if_neg hk] at h
      exact Option.noConfusion h

theorem projClean_key {h : Hierarchy} {e e2 : String × FSNode}
    (hp : projClean h e = some e2) : e2.1 = e.1 := by
  obtain ⟨n, v⟩ := e
  cases v with
  | file =>
    simp only [projClean, Option.some.injEq] at hp
    rw [← hp]
  | dir cc =>
    simp only [projClean] at hp
    by_cases hk : hasKey h n = true
    · rw [if_pos hk] at hp
      simp only [Option.some.injEq] at hp
      rw [← hp]
    · rw [if_neg hk] at hp
      exact Option.noConfusion hp

theorem NodupFS_txtKeep {db : List String} {ccs : List (String × FSNode)}
    (hnd : NodupFS (.dir ccs)) : NodupFS (.dir (txtKeep db ccs)) := by
  refine NodupFS.dir ?_ ?_
  · exact List.Nodup.sublist ((List.filter_sublist _).map _) hnd.children
  · intro e he
    simp only [txtKeep] at he
    exact hnd.mem (List.mem_filter.mp he).1

theorem NodupFS_catClean {cats : ProjectCats} {pcs : List (String × FSNode)}
    (hnd : NodupFS (.dir pcs)) :
    NodupFS (.dir (pcs.filterMap (catClean cats))) := by
  refine NodupFS.dir ?_ ?_
  · exact List.Nodup.sublist
      (keys_filterMap_sublist (fun e e2 => catClean_key) pcs) hnd.children
  · intro e he
    obtain ⟨x, hx, hxe⟩ := List.mem_filterMap.mp he
    obtain ⟨n, v⟩ := x
    cases v with
    | file =>
      simp only [catClean, Option.some.injEq] at hxe
      rw [← hxe]
      exact NodupFS.file
    | dir cc =>
      simp only [catClean] at hxe
      by_cases hk : hasKey cats n = true
      · rw [if_pos hk] at hxe
        simp only [Option.some.injEq] at hxe
        rw [← hxe]
        exact NodupFS_txtKeep (hnd.mem hx)
      · rw [if_neg hk] at hxe
        exact Option.noConfusion hxe

theorem NodupFS_projClean {h : Hierarchy} {rcs : List (String × FSNode)}
    (hnd : NodupFS (.dir rcs)) :
    NodupFS (.dir (rcs.filterMap (projClean h))) := by
  refine NodupFS.dir ?_ ?_
  · exact List.Nodup.sublist
      (keys_filterMap_sublist (fun e e2 => projClean_key) rcs) hnd.children
  · intro e he
    obtain ⟨x, hx, hxe⟩ := List.mem_filterMap.mp he
    obtain ⟨n, v⟩ := x
    cases v with
    | file =>
      simp only [projClean, Option.some.injEq] at hxe
      rw [← hxe]
      exact NodupFS.file
    | dir cc =>
      simp only [projClean] at hxe
      by_cases hk : hasKey h n = true
      · rw [if_pos hk] at hxe
        simp only [Option.some.injEq] at hxe
        rw [← hxe]
        exact NodupFS_catClean (hnd.mem hx)
      · rw [if_neg hk] at hxe
        exact Option.noConfusion hxe

theorem except_bind_ok {ε α β : Type} (a : α) (f : α → Except ε β) :
    Bind.bind (Except.ok a : Except ε α) f = f a := rfl

theorem except_bind_error {ε α β : Type} (e : ε) (f : α → Except ε β) :
    Bind.bind (Except.error e : Except ε α) f = Except.error e := rfl

/-- Sequential `os.makedirs` over pre-filtered paths below a fixed prefix
(proof device for `create_hidden_folders`). -/
def mkdirsManyGo : List (List String) → Path → FSNode →
    Except PyErr (FSNode × List FSEvent)
  | [], _, fs => .ok (fs, [])
  | q :: rest, pre, fs => do
    let r1 ← mkdirsGo fs q pre
    let r2 ← mkdirsManyGo rest pre r1.1
    .ok (r2.1, r1.2 ++ r2.2)

theorem mkdirsMany_eq_go (paths : List Path) (fs : FSNode) :
    mkdirsMany paths fs =
      mkdirsManyGo (paths.map (fun q => q.filter (fun c => c ≠ ""))) [] fs := by
  induction paths generalizing fs with
  | nil => rfl
  | cons q rest ih =>
    simp only [mkdirsMany, List.map_cons, mkdirsManyGo]
    rw [show mkdirs fs q = mkdirsGo fs (q.filter (fun c => c ≠ "")) [] from rfl]
    cases hh : mkdirsGo fs (q.filter (fun c => c ≠ "")) [] with
    | error e => simp only [except_bind_error]
    | ok r1 =>
      simp only [except_bind_ok]
      rw [ih r1.1]

theorem mkdirsManyGo_append {l1 l2 : List (List String)} {pre : Path}
    {fs fs' : FSNode} {t : List FSEvent} :
    mkdirsManyGo (l1 ++ l2) pre fs = .ok (fs', t) ↔
      ∃ f1 t1 t2, mkdirsManyGo l1 pre fs = .ok (f1, t1) ∧
        mkdirsManyGo l2 pre f1 = .ok (fs', t2) ∧ t = t1 ++ t2 := by
  induction l1 generalizing fs t with
  | nil =>
    constructor
    · intro hh
      exact ⟨fs, [], t, rfl, hh, rfl⟩
    · rintro ⟨f1, t1, t2, h1, h2, rfl⟩
      simp only [mkdirsManyGo, Except.ok.injEq, Prod.mk.injEq] at h1
      obtain ⟨rfl, rfl⟩ := h1
      simpa using h2
  | cons q rest ih =>
    simp only [List.cons_append, mkdirsManyGo]
    cases hq : mkdirsGo fs q pre with
    | error e =>
      simp only [except_bind_error]
      constructor
      · intro hh; exact absurd hh (by simp)
      · rintro ⟨f1, t1, t2, h1, h2, rfl⟩
        exact absurd h1 (by simp)
    | ok r1 =>
      obtain ⟨g1, e1⟩ := r1
      simp only [except_bind_ok]
      constructor
      · intro hh
        rw [List.append_eq] at hh
        cases hrec : mkdirsManyGo (rest ++ l2) pre g1 with
        | error e => rw [hrec] at hh; exact absurd hh (by simp [except_bind_error])
        | ok rr =>
          obtain ⟨g2, e2⟩ := rr
          rw [hrec] at hh
          simp only [except_bind_ok, Except.ok.injEq, Prod.mk.injEq] at hh
          obtain ⟨rfl, rfl⟩ := hh
          obtain ⟨f1, t1, t2, ha, hb, hteq⟩ := ih.mp hrec
          refine ⟨f1, e1 ++ t1, t2, ?_, hb, ?_⟩
          · rw [ha, except_bind_ok]
          · rw [hteq, List.append_assoc]
      · rintro ⟨f1, t1, t2, h1, h2, rfl⟩
        cases hrec : mkdirsManyGo rest pre g1 with
        | error e => rw [hrec] at h1; exact absurd h1 (by simp [except_bind_error])
        | ok rr =>
          obtain ⟨g2, e2⟩ := rr
          rw [hrec] at h1
          simp only [except_bind_ok, Except.ok.injEq, Prod.mk.injEq] at h1
          obtain ⟨rfl, rfl⟩ := h1
          have hfull := ih.mpr ⟨g2, e2, t2, hrec, h2, rfl⟩
          rw [List.append_eq, hfull, except_bind_ok, List.append_assoc]

theorem mkdirsManyGo_nodup {paths : List (List String)} {pre : Path}
    {fs fs' : FSNode} {t : List FSEvent} (hnd : NodupFS fs)
    (h : mkdirsManyGo paths pre fs = .ok (fs', t)) : NodupFS fs' := by
  induction paths generalizing fs t with
  | nil =>
    simp only [mkdirsManyGo, Except.ok.injEq, Prod.mk.injEq] at h
    rw [← h.1]
    exact hnd
  | cons q rest ih =>
    simp only [mkdirsManyGo] at h
    cases hq : mkdirsGo fs q pre with
    | error e => rw [hq, except_bind_error] at h; exact absurd h (by simp)
    | ok r1 =>
      obtain ⟨g1, e1⟩ := r1
      rw [hq, except_bind_ok] at h
      cases hrec : mkdirsManyGo rest pre g1 with
      | error e => rw [hrec, except_bind_error] at h; exact absurd h (by simp)
      | ok rr =>
        obtain ⟨g2, e2⟩ := rr
        rw [hrec, except_bind_ok] at h
        simp only [Except.ok.injEq, Prod.mk.injEq] at h
        obtain ⟨rfl, rfl⟩ := h
        exact ih (mkdirsGo_nodup hnd hq) hrec

theorem mkdirsManyGo_mono {paths : List (List String)} {pre : Path}
    {fs fs' : FSNode} {t : List FSEvent} {r : Path}
    (h : mkdirsManyGo paths pre fs = .ok (fs', t))
    (hr : pathIsDir fs r) : pathIsDir fs' r := by
  induction paths generalizing fs t with
  | nil =>
    simp only [mkdirsManyGo, Except.ok.injEq, Prod.mk.injEq] at h
    rw [← h.1]
    exact hr
  | cons q rest ih =>
    simp only [mkdirsManyGo] at h
    cases hq : mkdirsGo fs q pre with
    | error e => rw [hq, except_bind_error] at h; exact absurd h (by simp)
    | ok r1 =>
      obtain ⟨g1, e1⟩ := r1
      rw [hq, except_bind_ok] at h
      cases hrec : mkdirsManyGo rest pre g1 with
      | error e => rw [hrec, except_bind_error] at h; exact absurd h (by simp)
      | ok rr =>
        obtain ⟨g2, e2⟩ := rr
        rw [hrec, except_bind_ok] at h
        simp only [Except.ok.injEq, Prod.mk.injEq] at h
        obtain ⟨rfl, rfl⟩ := h
        exact ih hrec (mkdirsGo_mono hq hr)

theorem mkdirsManyGo_id {paths : List (List String)} {pre : Path} {fs : FSNode}
    (hnd : NodupFS fs) (hp : ∀ q ∈ paths, pathIsDir fs q) :
    mkdirsManyGo paths pre fs = .ok (fs, []) := by
  induction paths with
  | nil => rfl
  | cons q rest ih =>
    obtain ⟨d, hd⟩ := hp q (by simp)
    simp only [mkdirsManyGo]
    rw [mkdirsGo_id hnd hd pre, except_bind_ok,
      ih (fun q2 hq2 => hp q2 (List.mem_cons_of_mem _ hq2)), except_bind_ok]
    rfl

theorem mkdirsManyGo_under {tails : List (List String)} {pre : Path} {n : String}
    {rcs : List (String × FSNode)} {child : FSNode}
    (hnd : (rcs.map Prod.fst).Nodup) (hget : getKey rcs n = some child) :
    mkdirsManyGo (tails.map (fun q => n :: q)) pre (.dir rcs) =
      (mkdirsManyGo tails (pre ++ [n]) child).map
        (fun r => (.dir (setKey rcs n r.1), r.2)) := by
  induction tails generalizing rcs child with
  | nil =>
    simp only [List.map_nil, mkdirsManyGo, Except.map]
    rw [setKey_getKey_id hget hnd]
  | cons q rest ih =>
    simp only [List.map_cons, mkdirsManyGo]
    rw [show mkdirsGo (.dir rcs) (n :: q) pre
        = (mkdirsGo child q (pre ++ [n])).map
            (fun r => (.dir (setKey rcs n r.1), r.2)) from by
      simp [mkdirsGo, hget]]
    cases hq : mkdirsGo child q (pre ++ [n]) with
    | error e => simp [Except.map, except_bind_error]
    | ok r1 =>
      simp only [Except.map, except_bind_ok]
      have hnd2 : ((setKey rcs n r1.1).map Prod.fst).Nodup := by
        rw [keys_setKey_of_hasKey (hasKey_of_getKey_some hget)]
        exact hnd
      rw [ih hnd2 (getKey_setKey_self rcs n r1.1)]
      cases hrec : mkdirsManyGo rest (pre ++ [n]) r1.1 with
      | error e => simp [Except.map, except_bind_error]
      | ok rr =>
        simp only [Except.map, except_bind_ok]
        rw [setKey_setKey_overwrite]

theorem mkdirsGo_single_none {cs : List (String × FSNode)} {x : String} (pre : Path)
    (hget : getKey cs x = none) :
    mkdirsGo (.dir cs) [x] pre =
      .ok (.dir (cs ++ [(x, .dir [])]), [.created (pre ++ [x])]) := by
  simp [mkdirsGo, hget, mkNewChain]

theorem mkdirsGo_single_dir {cs d : List (String × FSNode)} {x : String} (pre : Path)
    (hget : getKey cs x = some (.dir d)) (hnd : (cs.map Prod.fst).Nodup) :
    mkdirsGo (.dir cs) [x] pre = .ok (.dir cs, []) := by
  simp [mkdirsGo, hget, Except.map, setKey_getKey_id hget hnd]

theorem mkdirsGo_single_file {cs : List (String × FSNode)} {x : String} (pre : Path)
    (hget : getKey cs x = some .file) :
    mkdirsGo (.dir cs) [x] pre = .error .fileExists := by
  simp [mkdirsGo, hget, Except.map]

theorem keys_snoc_nodup {α : Type} {cs : List (String × α)} {x : String} (v : α)
    (hnd : (cs.map Prod.fst).Nodup) (hk : hasKey cs x = false) :
    ((cs ++ [(x, v)]).map Prod.fst).Nodup := by
  rw [List.map_append]
  refine List.Nodup.append hnd (by simp) ?_
  intro a ha hax
  simp only [List.map_cons, List.map_nil, List.mem_singleton] at hax
  subst hax
  have hmem : a ∈ cs.map Prod.fst := ha
  rw [← hasKey_iff_mem, hk] at hmem
  cases hmem

theorem singles_run_inv {hfs : List String} {pre : Path}
    {cs : List (String × FSNode)} {fs' : FSNode} {t : List FSEvent}
    (hdist : hfs.Nodup) (hnd : (cs.map Prod.fst).Nodup)
    (h : mkdirsManyGo (hfs.map (fun x => [x])) pre (.dir cs) = .ok (fs', t)) :
    fs' = .dir (cs ++ (hfs.filter (fun x => !hasKey cs x)).map
        (fun x => (x, FSNode.dir []))) ∧
    t = (hfs.filter (fun x => !hasKey cs x)).map
        (fun x => FSEvent.created (pre ++ [x])) ∧
    ∀ x ∈ hfs, ∀ v, getKey cs x = some v → ∃ d, v = FSNode.dir d := by
  induction hfs generalizing cs t with
  | nil =>
    simp only [List.map_nil, mkdirsManyGo, Except.ok.injEq, Prod.mk.injEq] at h
    refine ⟨?_, ?_, by simp⟩
    · rw [← h.1]; simp
    · rw [← h.2]; simp
  | cons x rest ih =>
    simp only [List.map_cons, mkdirsManyGo] at h
    have hdist2 : rest.Nodup := hdist.of_cons
    have hxnot : x ∉ rest := (List.nodup_cons.mp hdist).1
    cases hget : getKey cs x with
    | none =>
      rw [mkdirsGo_single_none pre hget, except_bind_ok] at h
      have hk : hasKey cs x = false := getKey_none_hasKey hget
      have hfc : rest.filter (fun y => !hasKey (cs ++ [(x, FSNode.dir [])]) y)
          = rest.filter (fun y => !hasKey cs y) := by
        apply List.filter_congr
        intro y hy
        have hyx : ¬(x = y) := by
          intro hxy
          subst hxy
          exact hxnot hy
        rw [hasKey_append]
        simp [hyx]
      cases hrec : mkdirsManyGo (rest.map (fun x => [x])) pre
          (.dir (cs ++ [(x, .dir [])])) with
      | error e => rw [hrec, except_bind_error] at h; exact absurd h (by simp)
      | ok rr =>
        obtain ⟨g2, e2⟩ := rr
        rw [hrec, except_bind_ok] at h
        simp only [Except.ok.injEq, Prod.mk.injEq] at h
        obtain ⟨rfl, rfl⟩ := h
        obtain ⟨ih1, ih2, ih3⟩ := ih hdist2 (keys_snoc_nodup _ hnd hk) hrec
        refine ⟨?_, ?_, ?_⟩
        · rw [ih1, hfc, List.append_assoc]
          simp [List.filter_cons, hk]
        · rw [ih2, hfc]
          simp [List.filter_cons, hk]
        · intro y hy v hgv
          rcases List.mem_cons.mp hy with rfl | hy2
          · rw [hget] at hgv; cases hgv
          · exact ih3 y hy2 v (getKey_append_of_some _ hgv)
    | some v =>
      cases v with
      | file =>
        rw [mkdirsGo_single_file pre hget, except_bind_error] at h
        exact absurd h (by simp)
      | dir d =>
        rw [mkdirsGo_single_dir pre hget hnd, except_bind_ok] at h
        have hkt : hasKey cs x = true := hasKey_of_getKey_some hget
        cases hrec : mkdirsManyGo (rest.map (fun x => [x])) pre (.dir cs) with
        | error e => rw [hrec, except_bind_error] at h; exact absurd h (by simp)
        | ok rr =>
          obtain ⟨g2, e2⟩ := rr
          rw [hrec, except_bind_ok] at h
          simp only [List.nil_append, Except.ok.injEq, Prod.mk.injEq] at h
          obtain ⟨rfl, rfl⟩ := h
          obtain ⟨ih1, ih2, ih3⟩ := ih hdist2 hnd hrec
          refine ⟨?_, ?_, ?_⟩
          · rw [ih1]
            simp [List.filter_cons, hkt]
          · rw [ih2]
            simp [List.filter_cons, hkt]
          · intro y hy w hgw
            rcases List.mem_cons.mp hy with rfl | hy2
            · rw [hget] at hgw
              simp only [Option.some.injEq] at hgw
              exact ⟨d, hgw.symm⟩
            · exact ih3 y hy2 w hgw

theorem singles_run_ok {hfs : List String} {pre : Path}
    {cs : List (String × FSNode)}
    (hdist : hfs.Nodup) (hnd : (cs.map Prod.fst).Nodup)
    (hdir : ∀ x ∈ hfs, ∀ v, getKey cs x = some v → ∃ d, v = FSNode.dir d) :
    mkdirsManyGo (hfs.map (fun x => [x])) pre (.dir cs) =
      .ok (.dir (cs ++ (hfs.filter (fun x => !hasKey cs x)).map
          (fun x => (x, FSNode.dir []))),
        (hfs.filter (fun x => !hasKey cs x)).map
          (fun x => FSEvent.created (pre ++ [x]))) := by
  induction hfs generalizing cs with
  | nil => simp [mkdirsManyGo]
  | cons x rest ih =>
    have hdist2 : rest.Nodup := hdist.of_cons
    have hxnot : x ∉ rest := (List.nodup_cons.mp hdist).1
    simp only [List.map_cons, mkdirsManyGo]
    cases hget : getKey cs x with
    | none =>
      rw [mkdirsGo_single_none pre hget, except_bind_ok]
      have hk : hasKey cs x = false := getKey_none_hasKey hget
      have hfc : rest.filter (fun y => !hasKey (cs ++ [(x, FSNode.dir [])]) y)
          = rest.filter (fun y => !hasKey cs y) := by
        apply List.filter_congr
        intro y hy
        have hyx : ¬(x = y) := by
          intro hxy
          subst hxy
          exact hxnot hy
        rw [hasKey_append]
        simp [hyx]
      have hdir2 : ∀ y ∈ rest, ∀ v, getKey (cs ++ [(x, FSNode.dir [])]) y = some v →
          ∃ d, v = FSNode.dir d := by
        intro y hy v hgv
        by_cases hyx : x = y
        · subst hyx
          rw [getKey_append_of_none _ hk] at hgv
          simp at hgv
          exact ⟨[], hgv.symm⟩
        · rw [getKey_append_ne cs _ (fun hh => hyx hh.symm)] at hgv
          exact hdir y (List.mem_cons_of_mem _ hy) v hgv
      rw [ih hdist2 (keys_snoc_nodup _ hnd hk) hdir2, except_bind_ok]
      rw [hfc, List.append_assoc]
      simp [List.filter_cons, hk]
    | some v =>
      obtain ⟨d, rfl⟩ := hdir x (by simp) v hget
      rw [mkdirsGo_single_dir pre hget hnd, except_bind_ok]
      have hkt : hasKey cs x = true := hasKey_of_getKey_some hget
      rw [ih hdist2 hnd (fun y hy w hgw => hdir y (List.mem_cons_of_mem _ hy) w hgw),
        except_bind_ok]
      simp [List.filter_cons, hkt]

/-- Path tails below one asset folder in `create_hidden_folders`. -/
def assetRel (a : String) : List Path :=
  [a] :: hiddenFolders.map (fun hf => [a, hf])

/-- Path tails below one category directory. -/
def catRel (cv : CatVal) : List Path :=
  hiddenFolders.map (fun hf => [hf]) ++
    (getAssets cv).flatMap (fun x => assetRel x.db_name)

/-- Path tails below one project directory. -/
def projRel (cats : ProjectCats) : List Path :=
  hiddenFolders.map (fun hf => [hf]) ++
    cats.flatMap (fun cc => (catRel cc.2).map (fun q => cc.1 :: q))

theorem hiddenPaths_eq (h : Hierarchy) :
    hiddenPaths h =
      h.flatMap (fun pc => (projRel pc.2).map (fun q => pc.1 :: q)) := by
  have hfun : ∀ pc : String × ProjectCats,
      (projRel pc.2).map (fun q => pc.1 :: q) =
        hiddenFolders.map (fun hf => [pc.1, hf]) ++
          pc.2.flatMap (fun cc =>
            hiddenFolders.map (fun hf => [pc.1, cc.1, hf]) ++
            (getAssets cc.2).flatMap (fun a =>
              [pc.1, cc.1, a.db_name] ::
                hiddenFolders.map (fun hf => [pc.1, cc.1, a.db_name, hf]))) := by
    intro pc
    simp only [projRel, catRel, assetRel, List.map_append, List.map_map,
      List.map_flatMap, List.map_cons, Function.comp]
    rfl
  unfold hiddenPaths
  have : (fun pc : String × ProjectCats =>
      hiddenFolders.map (fun hf => [pc.1, hf]) ++
        pc.2.flatMap (fun cc =>
          hiddenFolders.map (fun hf => [pc.1, cc.1, hf]) ++
          (getAssets cc.2).flatMap (fun a =>
            [pc.1, cc.1, a.db_name] ::
              hiddenFolders.map (fun hf => [pc.1, cc.1, a.db_name, hf]))))
      = (fun pc => (projRel pc.2).map (fun q => pc.1 :: q)) :=
    funext (fun pc => (hfun pc).symm)
  rw [this]

theorem hiddenFolders_nodup : hiddenFolders.Nodup := by decide

theorem hiddenFolders_ne_empty : ∀ hf ∈ hiddenFolders, hf ≠ "" := by decide

theorem hiddenFolders_not_txt : ∀ hf ∈ hiddenFolders, (splitExt hf).2 ≠ ".txt" := by
  decide

theorem isOrphanTxt_of_ext {db : List String} {n : String}
    (h : (splitExt n).2 ≠ ".txt") : isOrphanTxt db n = false :=
  decide_eq_false (fun hc => h hc.1)

/-- The hidden folders the orphan pass strips from a project directory:
those that are not also category names, in creation order. -/
def hidTail (cats : ProjectCats) : List (String × FSNode) :=
  (hiddenFolders.filter (fun hf => !hasKey cats hf)).map
    (fun hf => (hf, FSNode.dir []))

/-- A category directory in agreement with its document node after a full
reconciliation pass: no orphan-named entries, hidden folders present, and
an asset folder (with hidden folders inside) for every asset. -/
def CatOk (cv : CatVal) (ccs : List (String × FSNode)) : Prop :=
  (∀ e ∈ ccs, isOrphanTxt (dbNamesOf cv) e.1 = false) ∧
  (∀ hf ∈ hiddenFolders, ∃ d, getKey ccs hf = some (.dir d)) ∧
  (∀ a ∈ getAssets cv, ∃ acs, getKey ccs a.db_name = some (.dir acs) ∧
    ∀ hf ∈ hiddenFolders, ∃ d, getKey acs hf = some (.dir d))

/-- A project directory after a full reconciliation pass: the cleaned
children followed by the re-created hidden folders. -/
def ProjOk (cats : ProjectCats) (pcs : List (String × FSNode)) : Prop :=
  ∃ main, pcs = main ++ hidTail cats ∧
    (∀ e ∈ main, e.2.isDir = true → hasKey cats e.1 = true) ∧
    (∀ hf ∈ hiddenFolders, ∀ v, getKey main hf = some v → ∃ d, v = FSNode.dir d) ∧
    (∀ c cv, (c, cv) ∈ cats → ∃ ccs, getKey main c = some (.dir ccs) ∧ CatOk cv ccs)

/-- The whole scratch tree after a full reconciliation pass. -/
def Synced (h : Hierarchy) (fs : FSNode) : Prop :=
  ∃ rcs, fs = .dir rcs ∧
    (∀ e ∈ rcs, e.2.isDir = true → hasKey h e.1 = true) ∧
    (∀ p cats, (p, cats) ∈ h →
      ∃ pcs, getKey rcs p = some (.dir pcs) ∧ ProjOk cats pcs)

theorem hiddenPaths_components {h : Hierarchy} (hwf : wfDoc h) :
    ∀ q ∈ hiddenPaths h, ∀ comp ∈ q, comp ≠ "" := by
  intro q hq
  unfold hiddenPaths at hq
  obtain ⟨pc, hpc, hq2⟩ := List.mem_flatMap.mp hq
  obtain ⟨p, cats⟩ := pc
  have hp : p ≠ "" := (hwf.2 p cats hpc).1
  rcases List.mem_append.mp hq2 with hq3 | hq3
  · obtain ⟨hf, hhf, rfl⟩ := List.mem_map.mp hq3
    intro comp hcomp
    rcases List.mem_cons.mp hcomp with rfl | hcomp2
    · exact hp
    · simp only [List.mem_singleton] at hcomp2
      subst hcomp2
      exact hiddenFolders_ne_empty _ hhf
  · obtain ⟨cc, hcc, hq4⟩ := List.mem_flatMap.mp hq3
    obtain ⟨c, cv⟩ := cc
    have hc : c ≠ "" := ((hwf.2 p cats hpc).2.2 c cv hcc).1
    rcases List.mem_append.mp hq4 with hq5 | hq5
    · obtain ⟨hf, hhf, rfl⟩ := List.mem_map.mp hq5
      intro comp hcomp
      rcases List.mem_cons.mp hcomp with rfl | hcomp2
      · exact hp
      rcases List.mem_cons.mp hcomp2 with rfl | hcomp3
      · exact hc
      simp only [List.mem_singleton] at hcomp3
      subst hcomp3
      exact hiddenFolders_ne_empty _ hhf
    · obtain ⟨a, ha, hq6⟩ := List.mem_flatMap.mp hq5
      have hdb : a.db_name ≠ "" :=
        (((hwf.2 p cats hpc).2.2 c cv hcc).2 a ha).1
      rcases List.mem_cons.mp hq6 with rfl | hq7
      · intro comp hcomp
        rcases List.mem_cons.mp hcomp with rfl | hcomp2
        · exact hp
        rcases List.mem_cons.mp hcomp2 with rfl | hcomp3
        · exact hc
        simp only [List.mem_singleton] at hcomp3
        subst hcomp3
        exact hdb
      · obtain ⟨hf, hhf, rfl⟩ := List.mem_map.mp hq7
        intro comp hcomp
        rcases List.mem_cons.mp hcomp with rfl | hcomp2
        · exact hp
        rcases List.mem_cons.mp hcomp2 with rfl | hcomp3
        · exact hc
        rcases List.mem_cons.mp hcomp3 with rfl | hcomp4
        · exact hdb
        simp only [List.mem_singleton] at hcomp4
        subst hcomp4
        exact hiddenFolders_ne_empty _ hhf

theorem hiddenPaths_filter_id {h : Hierarchy} (hwf : wfDoc h) :
    (hiddenPaths h).map (fun q => q.filter (fun c => c ≠ "")) = hiddenPaths h := by
  rw [show hiddenPaths h = (hiddenPaths h).map id from by simp]
  rw [List.map_map]
  apply List.map_congr_left
  intro q hq
  simp only [Function.comp, id]
  exact List.filter_eq_self.mpr
    (fun c hc => by simpa using hiddenPaths_components hwf q (by simpa using hq) c hc)

theorem ensureCats_mono {p : String} {cats : ProjectCats} {fs fs' : FSNode}
    {t : List FSEvent} {r : Path}
    (h : ensureCats p cats fs = .ok (fs', t)) (hr : pathIsDir fs r) :
    pathIsDir fs' r := by
  induction cats generalizing fs t with
  | nil =>
    simp only [ensureCats, Except.ok.injEq, Prod.mk.injEq] at h
    rw [← h.1]
    exact hr
  | cons cc rest ih =>
    obtain ⟨c, cv⟩ := cc
    simp only [ensureCats] at h
    cases hm : mkdirs fs [p, c] with
    | error e => rw [hm, except_bind_error] at h; exact absurd h (by simp)
    | ok r1 =>
      obtain ⟨g1, e1⟩ := r1
      rw [hm, except_bind_ok] at h
      cases hrec : ensureCats p rest g1 with
      | error e => rw [hrec, except_bind_error] at h; exact absurd h (by simp)
      | ok rr =>
        obtain ⟨g2, e2⟩ := rr
        rw [hrec, except_bind_ok] at h
        simp only [Except.ok.injEq, Prod.mk.injEq] at h
        obtain ⟨rfl, rfl⟩ := h
        exact ih hrec (mkdirsGo_mono hm hr)

theorem ensureCats_nodup {p : String} {cats : ProjectCats} {fs fs' : FSNode}
    {t : List FSEvent}
    (h : ensureCats p cats fs = .ok (fs', t)) (hnd : NodupFS fs) :
    NodupFS fs' := by
  induction cats generalizing fs t with
  | nil =>
    simp only [ensureCats, Except.ok.injEq, Prod.mk.injEq] at h
    rw [← h.1]
    exact hnd
  | cons cc rest ih =>
    obtain ⟨c, cv⟩ := cc
    simp only [ensureCats] at h
    cases hm : mkdirs fs [p, c] with
    | error e => rw [hm, except_bind_error] at h; exact absurd h (by simp)
    | ok r1 =>
      obtain ⟨g1, e1⟩ := r1
      rw [hm, except_bind_ok] at h
      cases hrec : ensureCats p rest g1 with
      | error e => rw [hrec, except_bind_error] at h; exact absurd h (by simp)
      | ok rr =>
        obtain ⟨g2, e2⟩ := rr
        rw [hrec, except_bind_ok] at h
        simp only [Except.ok.injEq, Prod.mk.injEq] at h
        obtain ⟨rfl, rfl⟩ := h
        exact ih hrec (mkdirsGo_nodup hnd hm)

theorem ensureCats_paths {p : String} {cats : ProjectCats} {fs fs' : FSNode}
    {t : List FSEvent}
    (h : ensureCats p cats fs = .ok (fs', t)) (hp : p ≠ "")
    (hwfc : ∀ c cv, (c, cv) ∈ cats → c ≠ "") :
    ∀ c cv, (c, cv) ∈ cats → pathIsDir fs' [p, c] := by
  induction cats generalizing fs t with
  | nil => intro c cv hm; simp at hm
  | cons cc rest ih =>
    obtain ⟨c0, cv0⟩ := cc
    simp only [ensureCats] at h
    cases hm : mkdirs fs [p, c0] with
    | error e => rw [hm, except_bind_error] at h; exact absurd h (by simp)
    | ok r1 =>
      obtain ⟨g1, e1⟩ := r1
      rw [hm, except_bind_ok] at h
      cases hrec : ensureCats p rest g1 with
      | error e => rw [hrec, except_bind_error] at h; exact absurd h (by simp)
      | ok rr =>
        obtain ⟨g2, e2⟩ := rr
        rw [hrec, except_bind_ok] at h
        simp only [Except.ok.injEq, Prod.mk.injEq] at h
        obtain ⟨rfl, rfl⟩ := h
        intro c cv hmem
        rcases List.mem_cons.mp hmem with heq | hmem2
        · obtain ⟨rfl, rfl⟩ := Prod.mk.injEq .. ▸ heq
          have hc0 : c ≠ "" := hwfc c cv (by simp)
          have hfl : ([p, c].filter (fun s => s ≠ "")) = [p, c] := by
            simp [hp, hc0]
          rw [show mkdirs fs [p, c] = mkdirsGo fs ([p, c].filter (fun s => s ≠ "")) []
            from rfl, hfl] at hm
          exact ensureCats_mono hrec (mkdirsGo_makes hm)
        · exact ih hrec
            (fun c2 cv2 hm2 => hwfc c2 cv2 (List.mem_cons_of_mem _ hm2)) c cv hmem2

theorem ensureDirs_mono {hdoc : Hierarchy} {fs fs' : FSNode}
    {t : List FSEvent} {r : Path}
    (h : ensureDirs hdoc fs = .ok (fs', t)) (hr : pathIsDir fs r) :
    pathIsDir fs' r := by
  induction hdoc generalizing fs t with
  | nil =>
    simp only [ensureDirs, Except.ok.injEq, Prod.mk.injEq] at h
    rw [← h.1]
    exact hr
  | cons pc rest ih =>
    obtain ⟨p, cats⟩ := pc
    simp only [ensureDirs] at h
    cases hm : mkdirs fs [p] with
    | error e => rw [hm, except_bind_error] at h; exact absurd h (by simp)
    | ok r1 =>
      obtain ⟨g1, e1⟩ := r1
      rw [hm, except_bind_ok] at h
      cases hcat : ensureCats p cats g1 with
      | error e => rw [hcat, except_bind_error] at h; exact absurd h (by simp)
      | ok rr =>
        obtain ⟨g2, e2⟩ := rr
        rw [hcat, except_bind_ok] at h
        cases hrec : ensureDirs rest g2 with
        | error e => rw [hrec, except_bind_error] at h; exact absurd h (by simp)
        | ok rr3 =>
          obtain ⟨g3, e3⟩ := rr3
          rw [hrec, except_bind_ok] at h
          simp only [Except.ok.injEq, Prod.mk.injEq] at h
          obtain ⟨rfl, rfl⟩ := h
          exact ih hrec (ensureCats_mono hcat (mkdirsGo_mono hm hr))

theorem ensureDirs_nodup {hdoc : Hierarchy} {fs fs' : FSNode}
    {t : List FSEvent}
    (h : ensureDirs hdoc fs = .ok (fs', t)) (hnd : NodupFS fs) :
    NodupFS fs' := by
  induction hdoc generalizing fs t with
  | nil =>
    simp only [ensureDirs, Except.ok.injEq, Prod.mk.injEq] at h
    rw [← h.1]
    exact hnd
  | cons pc rest ih =>
    obtain ⟨p, cats⟩ := pc
    simp only [ensureDirs] at h
    cases hm : mkdirs fs [p] with
    | error e => rw [hm, except_bind_error] at h; exact absurd h (by simp)
    | ok r1 =>
      obtain ⟨g1, e1⟩ := r1
      rw [hm, except_bind_ok] at h
      cases hcat : ensureCats p cats g1 with
      | error e => rw [hcat, except_bind_error] at h; exact absurd h (by simp)
      | ok rr =>
        obtain ⟨g2, e2⟩ := rr
        rw [hcat, except_bind_ok] at h
        cases hrec : ensureDirs rest g2 with
        | error e => rw [hrec, except_bind_error] at h; exact absurd h (by simp)
        | ok rr3 =>
          obtain ⟨g3, e3⟩ := rr3
          rw [hrec, except_bind_ok] at h
          simp only [Except.ok.injEq, Prod.mk.injEq] at h
          obtain ⟨rfl, rfl⟩ := h
          exact ih hrec (ensureCats_nodup hcat (mkdirsGo_nodup hnd hm))

theorem ensureDirs_paths {hdoc : Hierarchy} {fs fs' : FSNode}
    {t : List FSEvent}
    (h : ensureDirs hdoc fs = .ok (fs', t))
    (hwf : ∀ p cats, (p, cats) ∈ hdoc → p ≠ "" ∧ ∀ c cv, (c, cv) ∈ cats → c ≠ "") :
    ∀ p cats, (p, cats) ∈ hdoc → pathIsDir fs' [p] ∧
      ∀ c cv, (c, cv) ∈ cats → pathIsDir fs' [p, c] := by
  induction hdoc generalizing fs t with
  | nil => intro p cats hm; simp at hm
  | cons pc rest ih =>
    obtain ⟨p0, cats0⟩ := pc
    simp only [ensureDirs] at h
    cases hm : mkdirs fs [p0] with
    | error e => rw [hm, except_bind_error] at h; exact absurd h (by simp)
    | ok r1 =>
      obtain ⟨g1, e1⟩ := r1
      rw [hm, except_bind_ok] at h
      cases hcat : ensureCats p0 cats0 g1 with
      | error e => rw [hcat, except_bind_error] at h; exact absurd h (by simp)
      | ok rr =>
        obtain ⟨g2, e2⟩ := rr
        rw [hcat, except_bind_ok] at h
        cases hrec : ensureDirs rest g2 with
        | error e => rw [hrec, except_bind_error] at h; exact absurd h (by simp)
        | ok rr3 =>
          obtain ⟨g3, e3⟩ := rr3
          rw [hrec, except_bind_ok] at h
          simp only [Except.ok.injEq, Prod.mk.injEq] at h
          obtain ⟨rfl, rfl⟩ := h
          intro p cats hmem
          rcases List.mem_cons.mp hmem with heq | hmem2
          · obtain ⟨rfl, rfl⟩ := Prod.mk.injEq .. ▸ heq
            have hp : p ≠ "" := (hwf p cats (by simp)).1
            have hfl : ([p].filter (fun s => s ≠ "")) = [p] := by simp [hp]
            rw [show mkdirs fs [p] = mkdirsGo fs ([p].filter (fun s => s ≠ "")) []
              from rfl, hfl] at hm
            refine ⟨ensureDirs_mono hrec (ensureCats_mono hcat (mkdirsGo_makes hm)), ?_⟩
            intro c cv hc
            exact ensureDirs_mono hrec
              (ensureCats_paths hcat hp (fun c2 cv2 hm2 => (hwf p cats (by simp)).2 c2 cv2 hm2)
                c cv hc)
          · exact ih hrec (fun p2 cats2 hm2 => hwf p2 cats2 (List.mem_cons_of_mem _ hm2))
              p cats hmem2

theorem find_single {rcs : List (String × FSNode)} {p : String} {d : List (String × FSNode)}
    (h : FSNode.find (.dir rcs) [p] = some (.dir d)) :
    getKey rcs p = some (.dir d) := by
  simp only [FSNode.find] at h
  cases hg : getKey rcs p with
  | none => rw [hg] at h; exact Option.noConfusion h
  | some child =>
    rw [hg] at h
    cases child with
    | file => simp [FSNode.find] at h
    | dir cc =>
      simp only [FSNode.find, Option.some.injEq] at h
      rw [h]

theorem find_pair {rcs : List (String × FSNode)} {p c : String} {d : List (String × FSNode)}
    (h : FSNode.find (.dir rcs) [p, c] = some (.dir d)) :
    ∃ pcs, getKey rcs p = some (.dir pcs) ∧ getKey pcs c = some (.dir d) := by
  simp only [FSNode.find] at h
  cases hg : getKey rcs p with
  | none => rw [hg] at h; exact Option.noConfusion h
  | some child =>
    rw [hg] at h
    cases child with
    | file => simp [FSNode.find] at h
    | dir pcs =>
      exact ⟨pcs, rfl, find_single (by simpa [FSNode.find] using h)⟩

theorem cleanup_shape {h : Hierarchy} {rcsE rcs2 : List (String × FSNode)}
    {t : List FSEvent}
    (hwf : wfDoc h) (hnd : NodupFS (.dir rcsE))
    (hok : cleanupProjects h rcsE = .ok (rcs2, t))
    (hpaths : ∀ p cats, (p, cats) ∈ h → pathIsDir (.dir rcsE) [p] ∧
      ∀ c cv, (c, cv) ∈ cats → pathIsDir (.dir rcsE) [p, c]) :
    NodupFS (.dir rcs2) ∧
    (∀ e ∈ rcs2, e.2.isDir = true → hasKey h e.1 = true) ∧
    (∀ p cats, (p, cats) ∈ h → ∃ mainp, getKey rcs2 p = some (.dir mainp) ∧
      (∀ e ∈ mainp, e.2.isDir = true → hasKey cats e.1 = true) ∧
      (∀ c cv, (c, cv) ∈ cats → ∃ ccs, getKey mainp c = some (.dir ccs) ∧
        ∀ x ∈ ccs, isOrphanTxt (dbNamesOf cv) x.1 = false)) := by
  obtain ⟨hp1, hp2, hp3⟩ := cleanupProjects_ok_inv hok
  subst hp1
  refine ⟨NodupFS_projClean hnd, ?_, ?_⟩
  · intro e he hdir
    obtain ⟨x, hx, hxe⟩ := List.mem_filterMap.mp he
    obtain ⟨n, v⟩ := x
    cases v with
    | file =>
      simp only [projClean, Option.some.injEq] at hxe
      rw [← hxe] at hdir
      simp [FSNode.isDir] at hdir
    | dir cc =>
      simp only [projClean] at hxe
      by_cases hk : hasKey h n = true
      · rw [if_pos hk] at hxe
        simp only [Option.some.injEq] at hxe
        rw [← hxe]
        exact hk
      · rw [if_neg hk] at hxe
        exact Option.noConfusion hxe
  · intro p cats hm
    obtain ⟨hpd, hcd⟩ := hpaths p cats hm
    obtain ⟨d0, hd0⟩ := hpd
    have hgp : getKey rcsE p = some (.dir d0) := find_single hd0
    have hkp : hasKey h p = true := by
      rw [hasKey_iff_mem]
      exact List.mem_map.mpr ⟨(p, cats), hm, rfl⟩
    have hgcats : getKey h p = some cats := getKey_of_mem_nodup hm hwf.1
    have hpcl : projClean h (p, FSNode.dir d0)
        = some (p, .dir (d0.filterMap (catClean cats))) := by
      simp [projClean, hkp, hgcats]
    refine ⟨d0.filterMap (catClean cats), ?_, ?_, ?_⟩
    · exact getKey_filterMap (fun e e2 => projClean_key) hgp hpcl
    · intro e he hdir
      obtain ⟨x, hx, hxe⟩ := List.mem_filterMap.mp he
      obtain ⟨n, v⟩ := x
      cases v with
      | file =>
        simp only [catClean, Option.some.injEq] at hxe
        rw [← hxe] at hdir
        simp [FSNode.isDir] at hdir
      | dir cc =>
        simp only [catClean] at hxe
        by_cases hk : hasKey cats n = true
        · rw [if_pos hk] at hxe
          simp only [Option.some.injEq] at hxe
          rw [← hxe]
          exact hk
        · rw [if_neg hk] at hxe
          exact Option.noConfusion hxe
    · intro c cv hmc
      obtain ⟨d1, hd1⟩ := hcd c cv hmc
      obtain ⟨pcs1, hg1, hg2⟩ := find_pair hd1
      have hpcs1 : pcs1 = d0 := by
        rw [hgp] at hg1
        simp only [Option.some.injEq] at hg1
        injection hg1.symm
      subst hpcs1
      have hkc : hasKey cats c = true := by
        rw [hasKey_iff_mem]
        exact List.mem_map.mpr ⟨(c, cv), hmc, rfl⟩
      have hgcv : getKey cats c = some cv :=
        getKey_of_mem_nodup hmc (hwf.2 p cats hm).2.1
      have hccl : catClean cats (c, FSNode.dir d1)
          = some (c, .dir (txtKeep (dbNamesOf cv) d1)) := by
        simp [catClean, hkc, hgcv]
      refine ⟨txtKeep (dbNamesOf cv) d1,
        getKey_filterMap (fun e e2 => catClean_key) hg2 hccl, ?_⟩
      intro x hx
      simp only [txtKeep] at hx
      have := (List.mem_filter.mp hx).2
      simpa using this

theorem singles_append_hidden {cs : List (String × FSNode)} {hfs : List String}
    (hdir : ∀ x ∈ hfs, ∀ v, getKey cs x = some v → ∃ d, v = FSNode.dir d) :
    ∀ x ∈ hfs, ∃ d, getKey (cs ++ (hfs.filter (fun y => !hasKey cs y)).map
        (fun y => (y, FSNode.dir []))) x = some (.dir d) := by
  intro x hx
  by_cases hk : hasKey cs x = true
  · obtain ⟨v, hv⟩ := getKey_isSome_of_hasKey hk
    obtain ⟨d, rfl⟩ := hdir x hx v hv
    exact ⟨d, getKey_append_of_some _ hv⟩
  · have hk2 : hasKey cs x = false := by simpa using hk
    refine ⟨[], ?_⟩
    rw [getKey_append_of_none _ hk2]
    exact getKey_map_const _ (List.mem_filter.mpr ⟨hx, by simp [hk2]⟩)

theorem mkdirsManyGo_single {q : List String} {pre : Path} {fs : FSNode} :
    mkdirsManyGo [q] pre fs = (mkdirsGo fs q pre).map (fun r => (r.1, r.2 ++ [])) := by
  simp only [mkdirsManyGo]
  cases hq : mkdirsGo fs q pre with
  | error e => rw [except_bind_error]; rfl
  | ok r1 => rw [except_bind_ok, except_bind_ok]; rfl

theorem assetRun_inv {a : String} {pre : Path} {ccs : List (String × FSNode)}
    {fs' : FSNode} {t : List FSEvent}
    (hnd : NodupFS (.dir ccs))
    (h : mkdirsManyGo (assetRel a) pre (.dir ccs) = .ok (fs', t)) :
    ∃ acs, (∀ hf ∈ hiddenFolders, ∃ d, getKey acs hf = some (.dir d)) ∧
      ((getKey ccs a = none ∧ fs' = .dir (ccs ++ [(a, .dir acs)])) ∨
       (∃ acs0, getKey ccs a = some (.dir acs0) ∧
         fs' = .dir (setKey ccs a (.dir acs)))) := by
  have hml : hiddenFolders.map (fun hf => [a, hf])
      = (hiddenFolders.map (fun hf => [hf])).map (fun q => a :: q) := by
    rw [List.map_map]
    rfl
  rw [show assetRel a = [[a]] ++ hiddenFolders.map (fun hf => [a, hf]) from rfl] at h
  obtain ⟨f1, t1, t2, h1, h2, rfl⟩ := mkdirsManyGo_append.mp h
  rw [mkdirsManyGo_single] at h1
  cases hget : getKey ccs a with
  | none =>
    rw [mkdirsGo_single_none pre hget] at h1
    simp only [Except.map, Except.ok.injEq, Prod.mk.injEq] at h1
    obtain ⟨hf1, -⟩ := h1
    subst hf1
    have hk : hasKey ccs a = false := getKey_none_hasKey hget
    have hnd2 : ((ccs ++ [(a, FSNode.dir [])]).map Prod.fst).Nodup :=
      keys_snoc_nodup _ hnd.children hk
    have hget2 : getKey (ccs ++ [(a, FSNode.dir [])]) a = some (.dir []) := by
      rw [getKey_append_of_none _ hk]
      simp
    rw [hml, mkdirsManyGo_under hnd2 hget2] at h2
    cases hrun : mkdirsManyGo (hiddenFolders.map (fun hf => [hf])) (pre ++ [a])
        (.dir []) with
    | error e => rw [hrun] at h2; simp [Except.map] at h2
    | ok rr =>
      obtain ⟨g2, e2⟩ := rr
      rw [hrun] at h2
      simp only [Except.map, Except.ok.injEq, Prod.mk.injEq] at h2
      obtain ⟨hfs1, -⟩ := h2
      obtain ⟨hg2, -, -⟩ := singles_run_inv hiddenFolders_nodup (by simp) hrun
      simp only [List.nil_append, hasKey_nil, Bool.not_false, List.filter_true] at hg2
      subst hg2
      refine ⟨hiddenFolders.map (fun x => (x, FSNode.dir [])), ?_, Or.inl ⟨rfl, ?_⟩⟩
      · intro hf hhf
        exact ⟨[], getKey_map_const _ hhf⟩
      · rw [← hfs1, setKey_snoc_self _ _ hk]
  | some v =>
    cases v with
    | file =>
      rw [mkdirsGo_single_file pre hget] at h1
      simp [Except.map] at h1
    | dir acs0 =>
      rw [mkdirsGo_single_dir pre hget hnd.children] at h1
      simp only [Except.map, Except.ok.injEq, Prod.mk.injEq] at h1
      obtain ⟨hf1, -⟩ := h1
      subst hf1
      have hndacs0 : NodupFS (.dir acs0) := hnd.mem (getKey_mem hget)
      rw [hml, mkdirsManyGo_under hnd.children hget] at h2
      cases hrun : mkdirsManyGo (hiddenFolders.map (fun hf => [hf])) (pre ++ [a])
          (.dir acs0) with
      | error e => rw [hrun] at h2; simp [Except.map] at h2
      | ok rr =>
        obtain ⟨g2, e2⟩ := rr
        rw [hrun] at h2
        simp only [Except.map, Except.ok.injEq, Prod.mk.injEq] at h2
        obtain ⟨hfs1, -⟩ := h2
        obtain ⟨hg2, -, hdir3⟩ := singles_run_inv hiddenFolders_nodup
          hndacs0.children hrun
        subst hg2
        exact ⟨acs0 ++ (hiddenFolders.filter (fun y => !hasKey acs0 y)).map
            (fun y => (y, FSNode.dir [])),
          singles_append_hidden hdir3, Or.inr ⟨acs0, rfl, hfs1.symm⟩⟩

theorem assets_run_inv {assets : List Asset} {pre : Path}
    {cs : List (String × FSNode)} {fs' : FSNode} {t : List FSEvent}
    (hnd : NodupFS (.dir cs))
    (h : mkdirsManyGo (assets.flatMap (fun x => assetRel x.db_name)) pre (.dir cs)
      = .ok (fs', t)) :
    ∃ cs1, fs' = .dir cs1 ∧
      (∀ e ∈ cs1, e.1 ∈ cs.map Prod.fst ∨ e.1 ∈ assets.map Asset.db_name) ∧
      (∀ k, k ∉ assets.map Asset.db_name → getKey cs1 k = getKey cs k) ∧
      (∀ a ∈ assets, ∃ acs, getKey cs1 a.db_name = some (.dir acs) ∧
        ∀ hf ∈ hiddenFolders, ∃ d, getKey acs hf = some (.dir d)) := by
  induction assets generalizing cs fs' t with
  | nil =>
    simp only [List.flatMap_nil, mkdirsManyGo, Except.ok.injEq, Prod.mk.injEq] at h
    exact ⟨cs, h.1.symm, fun e he => Or.inl (List.mem_map.mpr ⟨e, he, rfl⟩),
      fun k _ => rfl, by simp⟩
  | cons a rest ih =>
    rw [List.flatMap_cons] at h
    obtain ⟨f1, t1, t2, h1, h2, rfl⟩ := mkdirsManyGo_append.mp h
    obtain ⟨acs, hacs, hcase⟩ := assetRun_inv hnd h1
    have hndf1 : NodupFS f1 := mkdirsManyGo_nodup hnd h1
    rcases hcase with ⟨hnone, rfl⟩ | ⟨acs0, hsome, rfl⟩
    · obtain ⟨cs1, rfl, hnames, hframe, hassets⟩ := ih hndf1 h2
      refine ⟨cs1, rfl, ?_, ?_, ?_⟩
      · intro e he
        rcases hnames e he with hin | hin
        · rw [List.map_append] at hin
          rcases List.mem_append.mp hin with hin2 | hin2
          · exact Or.inl hin2
          · simp only [List.map_cons, List.map_nil, List.mem_singleton] at hin2
            refine Or.inr ?_
            simp only [List.map_cons, List.mem_cons]
            exact Or.inl hin2
        · refine Or.inr ?_
          simp only [List.map_cons, List.mem_cons]
          exact Or.inr hin
      · intro k hk
        simp only [List.map_cons, List.mem_cons, not_or] at hk
        rw [hframe k hk.2]
        exact getKey_append_ne cs _ hk.1
      · intro b hb
        rcases List.mem_cons.mp hb with rfl | hb2
        · by_cases hdup : b.db_name ∈ rest.map Asset.db_name
          · obtain ⟨b2, hb2m, hb2e⟩ := List.mem_map.mp hdup
            obtain ⟨acs2, hacs2, hh2⟩ := hassets b2 hb2m
            rw [hb2e] at hacs2
            exact ⟨acs2, hacs2, hh2⟩
          · refine ⟨acs, ?_, hacs⟩
            rw [hframe _ hdup, getKey_append_of_none _ (getKey_none_hasKey hnone)]
            simp
        · exact hassets b hb2
    · obtain ⟨cs1, rfl, hnames, hframe, hassets⟩ := ih hndf1 h2
      refine ⟨cs1, rfl, ?_, ?_, ?_⟩
      · intro e he
        rcases hnames e he with hin | hin
        · rw [keys_setKey_of_hasKey (hasKey_of_getKey_some hsome)] at hin
          exact Or.inl hin
        · refine Or.inr ?_
          simp only [List.map_cons, List.mem_cons]
          exact Or.inr hin
      · intro k hk
        simp only [List.map_cons, List.mem_cons, not_or] at hk
        rw [hframe k hk.2]
        exact getKey_setKey_ne cs _ hk.1
      · intro b hb
        rcases List.mem_cons.mp hb with rfl | hb2
        · by_cases hdup : b.db_name ∈ rest.map Asset.db_name
          · obtain ⟨b2, hb2m, hb2e⟩ := List.mem_map.mp hdup
            obtain ⟨acs2, hacs2, hh2⟩ := hassets b2 hb2m
            rw [hb2e] at hacs2
            exact ⟨acs2, hacs2, hh2⟩
          · refine ⟨acs, ?_, hacs⟩
            rw [hframe _ hdup, getKey_setKey_self]
        · exact hassets b hb2

theorem catRun_inv {cv : CatVal} {pre : Path} {ccs0 : List (String × FSNode)}
    {fs' : FSNode} {t : List FSEvent}
    (hnd : NodupFS (.dir ccs0))
    (h : mkdirsManyGo (catRel cv) pre (.dir ccs0) = .ok (fs', t)) :
    ∃ ccs1, fs' = .dir ccs1 ∧
      (∀ e ∈ ccs1, e.1 ∈ ccs0.map Prod.fst ∨ e.1 ∈ hiddenFolders ∨
        e.1 ∈ dbNamesOf cv) ∧
      (∀ hf ∈ hiddenFolders, ∃ d, getKey ccs1 hf = some (.dir d)) ∧
      (∀ a ∈ getAssets cv, ∃ acs, getKey ccs1 a.db_name = some (.dir acs) ∧
        ∀ hf ∈ hiddenFolders, ∃ d, getKey acs hf = some (.dir d)) := by
  rw [show catRel cv = hiddenFolders.map (fun hf => [hf]) ++
      (getAssets cv).flatMap (fun x => assetRel x.db_name) from rfl] at h
  obtain ⟨f1, t1, t2, h1, h2, rfl⟩ := mkdirsManyGo_append.mp h
  have hndf1 : NodupFS f1 := mkdirsManyGo_nodup hnd h1
  obtain ⟨hg1, -, hdir3⟩ := singles_run_inv hiddenFolders_nodup hnd.children h1
  subst hg1
  have hhid1 := singles_append_hidden hdir3
  obtain ⟨cs1, rfl, hnames, hframe, hassets⟩ := assets_run_inv hndf1 h2
  refine ⟨cs1, rfl, ?_, ?_, hassets⟩
  · intro e he
    rcases hnames e he with hin | hin
    · rw [List.map_append] at hin
      rcases List.mem_append.mp hin with hin2 | hin2
      · exact Or.inl hin2
      · refine Or.inr (Or.inl ?_)
        rw [List.map_map] at hin2
        have : e.1 ∈ hiddenFolders.filter (fun x => !hasKey ccs0 x) := by
          simpa using hin2
        exact (List.mem_filter.mp this).1
    · exact Or.inr (Or.inr hin)
  · intro hf hhf
    by_cases hdup : hf ∈ (getAssets cv).map Asset.db_name
    · obtain ⟨b, hb, hbe⟩ := List.mem_map.mp hdup
      obtain ⟨acs, hacs, -⟩ := hassets b hb
      rw [hbe] at hacs
      exact ⟨acs, hacs⟩
    · obtain ⟨d, hd⟩ := hhid1 hf hhf
      exact ⟨d, by rw [hframe _ hdup]; exact hd⟩

theorem keys_map_pair {α : Type} (v : α) (l : List String) :
    (l.map (fun n => (n, v))).map Prod.fst = l := by
  induction l with
  | nil => rfl
  | cons n rest ih => simp only [List.map_cons]; rw [ih]

theorem hidTail_keys (cats : ProjectCats) :
    (hidTail cats).map Prod.fst = hiddenFolders.filter (fun hf => !hasKey cats hf) := by
  unfold hidTail
  exact keys_map_pair _ _

theorem hasKey_hidTail_false {cats : ProjectCats} {k : String}
    (hk : hasKey cats k = true) : hasKey (hidTail cats) k = false := by
  rw [← Bool.not_eq_true]
  intro hh
  rw [hasKey_iff_mem, hidTail_keys] at hh
  have h2 := (List.mem_filter.mp hh).2
  rw [hk] at h2
  simp at h2

theorem cats_blocks_inv {catsAll : ProjectCats} {pre : Path}
    (catsRem : ProjectCats) :
    ∀ {main : List (String × FSNode)} {fs' : FSNode} {t : List FSEvent},
      NodupFS (.dir (main ++ hidTail catsAll)) →
      (catsRem.map Prod.fst).Nodup →
      (∀ c cv, (c, cv) ∈ catsRem → hasKey catsAll c = true) →
      (∀ e ∈ main, e.2.isDir = true → hasKey catsAll e.1 = true) →
      (∀ e ∈ main, e.1 ∈ hiddenFolders → ∃ d, e.2 = FSNode.dir d) →
      (∀ c cv, (c, cv) ∈ catsRem → ∃ ccs, getKey main c = some (.dir ccs) ∧
        ∀ x ∈ ccs, isOrphanTxt (dbNamesOf cv) x.1 = false) →
      (∀ c cv, (c, cv) ∈ catsRem → ∀ a ∈ getAssets cv,
        (splitExt a.db_name).2 ≠ ".txt") →
      mkdirsManyGo (catsRem.flatMap (fun cc => (catRel cc.2).map
        (fun q => cc.1 :: q))) pre (.dir (main ++ hidTail catsAll)) = .ok (fs', t) →
      ∃ main1, fs' = .dir (main1 ++ hidTail catsAll) ∧
        main1.map Prod.fst = main.map Prod.fst ∧
        (∀ k, hasKey catsRem k = false → getKey main1 k = getKey main k) ∧
        (∀ e ∈ main1, e.2.isDir = true → hasKey catsAll e.1 = true) ∧
        (∀ e ∈ main1, e.1 ∈ hiddenFolders → ∃ d, e.2 = FSNode.dir d) ∧
        (∀ c cv, (c, cv) ∈ catsRem → ∃ ccs, getKey main1 c = some (.dir ccs) ∧
          CatOk cv ccs) := by
  induction catsRem with
  | nil =>
    intro main fs' t hnd hknd hsub hdirs hP2 hex hwfc h
    simp only [List.flatMap_nil, mkdirsManyGo, Except.ok.injEq, Prod.mk.injEq] at h
    exact ⟨main, h.1.symm, rfl, fun k _ => rfl, hdirs, hP2, by simp⟩
  | cons cc rest ih =>
    obtain ⟨c, cv⟩ := cc
    intro main fs' t hnd hknd hsub hdirs hP2 hex hwfc h
    rw [List.flatMap_cons] at h
    obtain ⟨f1, t1, t2, h1, h2, rfl⟩ := mkdirsManyGo_append.mp h
    obtain ⟨ccs, hgc, hofree⟩ := hex c cv (by simp)
    have hkmainc : hasKey main c = true := hasKey_of_getKey_some hgc
    have hkall : hasKey catsAll c = true := hsub c cv (by simp)
    have hgq : getKey (main ++ hidTail catsAll) c = some (.dir ccs) :=
      getKey_append_of_some _ hgc
    have hnd1 : NodupFS f1 := mkdirsManyGo_nodup hnd h1
    rw [mkdirsManyGo_under hnd.children hgq] at h1
    cases hrun : mkdirsManyGo (catRel cv) (pre ++ [c]) (.dir ccs) with
    | error e => rw [hrun] at h1; simp [Except.map] at h1
    | ok rr =>
      obtain ⟨g2, e2⟩ := rr
      rw [hrun] at h1
      simp only [Except.map, Except.ok.injEq, Prod.mk.injEq] at h1
      obtain ⟨hf1, -⟩ := h1
      have hndccs : NodupFS (.dir ccs) := hnd.mem (getKey_mem hgq)
      obtain ⟨ccs1, rfl, hnames1, hhid1, hassets1⟩ := catRun_inv hndccs hrun
      have hsplit : setKey (main ++ hidTail catsAll) c (.dir ccs1)
          = setKey main c (.dir ccs1) ++ hidTail catsAll :=
        setKey_append_keyleft _ hkmainc (hasKey_hidTail_false hkall)
      rw [hsplit] at hf1
      subst hf1
      have hm2eq : setKey main c (.dir ccs1)
          = main.map (fun p => if p.1 = c then (c, FSNode.dir ccs1) else p) := by
        unfold setKey
        rw [if_pos hkmainc]
      have hkcons : (∀ x : CatVal, (c, x) ∉ rest) ∧ (rest.map Prod.fst).Nodup := by
        simpa using hknd
      have hcnotin : c ∉ rest.map Prod.fst := by
        intro hmem
        obtain ⟨⟨a, b⟩, hm, he⟩ := List.mem_map.mp hmem
        simp only at he
        subst he
        exact hkcons.1 b hm
      have hCatOk : CatOk cv ccs1 := by
        refine ⟨?_, hhid1, hassets1⟩
        intro e he
        rcases hnames1 e he with hin | hin | hin
        · obtain ⟨x, hx, hxe⟩ := List.mem_map.mp hin
          rw [← hxe]
          exact hofree x hx
        · exact isOrphanTxt_of_ext (hiddenFolders_not_txt _ hin)
        · obtain ⟨b, hb, hbe⟩ := List.mem_map.mp hin
          rw [← hbe]
          exact isOrphanTxt_of_ext (hwfc c cv (by simp) b hb)
      obtain ⟨main1, hfs2, hkeys1, hframe1, hdirs1, hP21, hrest1⟩ := ih hnd1
        hkcons.2 (fun c2 cv2 hm => hsub c2 cv2 (List.mem_cons_of_mem _ hm))
        (by
          intro e he hdir
          rw [hm2eq] at he
          obtain ⟨x, hx, hxe⟩ := List.mem_map.mp he
          by_cases hxc : x.1 = c
          · rw [if_pos hxc] at hxe
            rw [← hxe]
            exact hkall
          · rw [if_neg hxc] at hxe
            rw [← hxe] at hdir ⊢
            exact hdirs x hx hdir)
        (by
          intro e he hhf
          rw [hm2eq] at he
          obtain ⟨x, hx, hxe⟩ := List.mem_map.mp he
          by_cases hxc : x.1 = c
          · rw [if_pos hxc] at hxe
            rw [← hxe]
            exact ⟨ccs1, rfl⟩
          · rw [if_neg hxc] at hxe
            rw [← hxe] at hhf ⊢
            exact hP2 x hx hhf)
        (by
          intro c2 cv2 hm
          have hc2 : ¬(c2 = c) := by
            intro hceq
            subst hceq
            exact hcnotin (List.mem_map.mpr ⟨(c2, cv2), hm, rfl⟩)
          rw [getKey_setKey_ne _ _ hc2]
          exact hex c2 cv2 (List.mem_cons_of_mem _ hm))
        (fun c2 cv2 hm => hwfc c2 cv2 (List.mem_cons_of_mem _ hm)) h2
      refine ⟨main1, hfs2, ?_, ?_, hdirs1, hP21, ?_⟩
      · rw [hkeys1, keys_setKey_of_hasKey hkmainc]
      · intro k hk
        simp only [hasKey_cons, Bool.or_eq_false_iff] at hk
        have hck : ¬(k = c) := by
          intro hkeq
          subst hkeq
          simp at hk
        rw [hframe1 k hk.2, getKey_setKey_ne _ _ hck]
      · intro c2 cv2 hm
        rcases List.mem_cons.mp hm with heq | hm2
        · obtain ⟨rfl, rfl⟩ := Prod.mk.injEq .. ▸ heq
          have hnok : hasKey rest c2 = false := by
            rw [← Bool.not_eq_true, hasKey_iff_mem]
            exact hcnotin
          rw [hframe1 c2 hnok, getKey_setKey_self]
          exact ⟨ccs1, rfl, hCatOk⟩
        · exact hrest1 c2 cv2 hm2

theorem projRun_inv {cats : ProjectCats} {pre : Path}
    {pcs0 : List (String × FSNode)} {fs' : FSNode} {t : List FSEvent}
    (hnd : NodupFS (.dir pcs0))
    (hcnd : (cats.map Prod.fst).Nodup)
    (hdirs : ∀ e ∈ pcs0, e.2.isDir = true → hasKey cats e.1 = true)
    (hex : ∀ c cv, (c, cv) ∈ cats → ∃ ccs, getKey pcs0 c = some (.dir ccs) ∧
      ∀ x ∈ ccs, isOrphanTxt (dbNamesOf cv) x.1 = false)
    (hwfc : ∀ c cv, (c, cv) ∈ cats → ∀ a ∈ getAssets cv,
      (splitExt a.db_name).2 ≠ ".txt")
    (h : mkdirsManyGo (projRel cats) pre (.dir pcs0) = .ok (fs', t)) :
    ∃ pcs1, fs' = .dir pcs1 ∧ ProjOk cats pcs1 := by
  rw [show projRel cats = hiddenFolders.map (fun hf => [hf]) ++
      cats.flatMap (fun cc => (catRel cc.2).map (fun q => cc.1 :: q)) from rfl] at h
  obtain ⟨f1, t1, t2, h1, h2, rfl⟩ := mkdirsManyGo_append.mp h
  have hnd1 : NodupFS f1 := mkdirsManyGo_nodup hnd h1
  obtain ⟨hg1, -, hdir3⟩ := singles_run_inv hiddenFolders_nodup hnd.children h1
  have happ : (hiddenFolders.filter (fun x => !hasKey pcs0 x)).map
      (fun x => (x, FSNode.dir [])) = hidTail cats := by
    unfold hidTail
    congr 1
    apply List.filter_congr
    intro hf hhf
    congr 1
    by_cases hk : hasKey pcs0 hf = true
    · obtain ⟨v, hv⟩ := getKey_isSome_of_hasKey hk
      obtain ⟨d, rfl⟩ := hdir3 hf hhf v hv
      have hmem : (hf, FSNode.dir d) ∈ pcs0 := getKey_mem hv
      rw [hk, hdirs (hf, FSNode.dir d) hmem rfl]
    · have hk2 : hasKey pcs0 hf = false := by simpa using hk
      rw [hk2]
      by_cases hkc : hasKey cats hf = true
      · exfalso
        rw [hasKey_iff_mem] at hkc
        obtain ⟨⟨c0, cv0⟩, hm0, he0⟩ := List.mem_map.mp hkc
        simp only at he0
        subst he0
        obtain ⟨ccs, hgc, -⟩ := hex c0 cv0 hm0
        rw [hasKey_of_getKey_some hgc] at hk2
        exact Bool.noConfusion hk2
      · have hkc2 : hasKey cats hf = false := by simpa using hkc
        rw [hkc2]
  rw [happ] at hg1
  subst hg1
  have hP2 : ∀ e ∈ pcs0, e.1 ∈ hiddenFolders → ∃ d, e.2 = FSNode.dir d := by
    intro e he hhf
    obtain ⟨n, v⟩ := e
    have hgv : getKey pcs0 n = some v := getKey_of_mem_nodup he hnd.children
    exact hdir3 n hhf v hgv
  obtain ⟨main1, hfs2, hkeys1, hframe1, hdirs1, hP21, hcats1⟩ :=
    cats_blocks_inv cats hnd1 hcnd
      (fun c cv hm => hasKey_iff_mem.mpr (List.mem_map.mpr ⟨(c, cv), hm, rfl⟩))
      hdirs hP2 hex hwfc h2
  refine ⟨main1 ++ hidTail cats, hfs2, main1, rfl, hdirs1, ?_, ?_⟩
  · intro hf hhf v hgv
    obtain ⟨d, hd⟩ := hP21 (hf, v) (getKey_mem hgv) hhf
    exact ⟨d, hd⟩
  · intro c cv hm
    obtain ⟨ccs, hgc, hok⟩ := hcats1 c cv hm
    exact ⟨ccs, hgc, hok⟩

theorem proj_blocks_inv {hAll : Hierarchy} (hwfAll : wfDoc hAll)
    (hrem : Hierarchy) :
    ∀ {rcs : List (String × FSNode)} {fs' : FSNode} {t : List FSEvent},
      NodupFS (.dir rcs) →
      (hrem.map Prod.fst).Nodup →
      (∀ pc ∈ hrem, pc ∈ hAll) →
      (∀ e ∈ rcs, e.2.isDir = true → hasKey hAll e.1 = true) →
      (∀ p cats, (p, cats) ∈ hrem → ∃ mainp, getKey rcs p = some (.dir mainp) ∧
        (∀ e ∈ mainp, e.2.isDir = true → hasKey cats e.1 = true) ∧
        (∀ c cv, (c, cv) ∈ cats → ∃ ccs, getKey mainp c = some (.dir ccs) ∧
          ∀ x ∈ ccs, isOrphanTxt (dbNamesOf cv) x.1 = false)) →
      mkdirsManyGo (hrem.flatMap (fun pc => (projRel pc.2).map (fun q => pc.1 :: q)))
        [] (.dir rcs) = .ok (fs', t) →
      ∃ rcs1, fs' = .dir rcs1 ∧
        (∀ e ∈ rcs1, e.2.isDir = true → hasKey hAll e.1 = true) ∧
        (∀ p cats, (p, cats) ∈ hrem →
          ∃ pcs, getKey rcs1 p = some (.dir pcs) ∧ ProjOk cats pcs) ∧
        (∀ k, hasKey hrem k = false → getKey rcs1 k = getKey rcs k) := by
  induction hrem with
  | nil =>
    intro rcs fs' t hnd hknd hsub hdirs hex h
    simp only [List.flatMap_nil, mkdirsManyGo, Except.ok.injEq, Prod.mk.injEq] at h
    exact ⟨rcs, h.1.symm, hdirs, by simp, fun k _ => rfl⟩
  | cons pc rest ih =>
    obtain ⟨p, cats⟩ := pc
    intro rcs fs' t hnd hknd hsub hdirs hex h
    rw [List.flatMap_cons] at h
    obtain ⟨f1, t1, t2, h1, h2, rfl⟩ := mkdirsManyGo_append.mp h
    obtain ⟨mainp, hgp, hdirsp, hexp⟩ := hex p cats (by simp)
    have hnd1 : NodupFS f1 := mkdirsManyGo_nodup hnd h1
    rw [mkdirsManyGo_under hnd.children hgp] at h1
    cases hrun : mkdirsManyGo (projRel cats) ([] ++ [p]) (.dir mainp) with
    | error e => rw [hrun] at h1; simp [Except.map] at h1
    | ok rr =>
      obtain ⟨g2, e2⟩ := rr
      rw [hrun] at h1
      simp only [Except.map, Except.ok.injEq, Prod.mk.injEq] at h1
      obtain ⟨hf1, -⟩ := h1
      have hndmainp : NodupFS (.dir mainp) := hnd.mem (getKey_mem hgp)
      have hwfp := hwfAll.2 p cats (hsub (p, cats) (by simp))
      obtain ⟨pcs1, rfl, hProjOk⟩ := projRun_inv hndmainp hwfp.2.1 hdirsp hexp
        (fun c cv hm a ha => ((hwfp.2.2 c cv hm).2 a ha).2) hrun
      subst hf1
      have hkp : hasKey rcs p = true := hasKey_of_getKey_some hgp
      have hkpAll : hasKey hAll p = true :=
        hasKey_iff_mem.mpr (List.mem_map.mpr ⟨(p, cats), hsub (p, cats) (by simp), rfl⟩)
      have hm2eq : setKey rcs p (.dir pcs1)
          = rcs.map (fun q => if q.1 = p then (p, FSNode.dir pcs1) else q) := by
        unfold setKey
        rw [if_pos hkp]
      have hkcons : (∀ x : ProjectCats, (p, x) ∉ rest) ∧
          (rest.map Prod.fst).Nodup := by
        simpa using hknd
      have hpnotin : p ∉ rest.map Prod.fst := by
        intro hmem
        obtain ⟨⟨a, b⟩, hm, he⟩ := List.mem_map.mp hmem
        simp only at he
        subst he
        exact hkcons.1 b hm
      obtain ⟨rcs1, hfs2, hdirsOut, hprojsOut, hframeOut⟩ := ih hnd1 hkcons.2
        (fun pc2 hm2 => hsub pc2 (List.mem_cons_of_mem _ hm2))
        (by
          intro e he hdir
          rw [hm2eq] at he
          obtain ⟨x, hx, hxe⟩ := List.mem_map.mp he
          by_cases hxp : x.1 = p
          · rw [if_pos hxp] at hxe
            rw [← hxe]
            exact hkpAll
          · rw [if_neg hxp] at hxe
            rw [← hxe] at hdir ⊢
            exact hdirs x hx hdir)
        (by
          intro p2 cats2 hm2
          have hp2 : ¬(p2 = p) := by
            intro hpeq
            subst hpeq
            exact hpnotin (List.mem_map.mpr ⟨(p2, cats2), hm2, rfl⟩)
          rw [getKey_setKey_ne _ _ hp2]
          exact hex p2 cats2 (List.mem_cons_of_mem _ hm2)) h2
      refine ⟨rcs1, hfs2, hdirsOut, ?_, ?_⟩
      · intro p2 cats2 hm2
        rcases List.mem_cons.mp hm2 with heq | hm3
        · obtain ⟨rfl, rfl⟩ := Prod.mk.injEq .. ▸ heq
          have hnok : hasKey rest p2 = false := by
            rw [← Bool.not_eq_true, hasKey_iff_mem]
            exact hpnotin
          rw [hframeOut p2 hnok, getKey_setKey_self]
          exact ⟨pcs1, rfl, hProjOk⟩
        · exact hprojsOut p2 cats2 hm3
      · intro k hk
        simp only [hasKey_cons, Bool.or_eq_false_iff] at hk
        have hpk : ¬(k = p) := by
          intro hkeq
          subst hkeq
          simp at hk
        rw [hframeOut k hk.2, getKey_setKey_ne _ _ hpk]

theorem sync_establishes {h : Hierarchy} {fs fs1 : FSNode} {t1 : List FSEvent}
    (hwf : wfDoc h) (hnd : NodupFS fs) (hok : syncFS h fs = .ok (fs1, t1)) :
    Synced h fs1 ∧ NodupFS fs1 := by
  cases fs with
  | file => simp [syncFS] at hok
  | dir rcs0 =>
    rw [show syncFS h (.dir rcs0) = (do
        let r1 ← ensureDirs h (.dir rcs0)
        let r2 ← cleanupFS h r1.1
        let r3 ← createHiddenFolders h r2.1
        .ok (r3.1, r1.2 ++ r2.2 ++ r3.2)) from rfl] at hok
    cases hens : ensureDirs h (.dir rcs0) with
    | error e => rw [hens, except_bind_error] at hok; simp at hok
    | ok rE =>
      obtain ⟨fsE, tE⟩ := rE
      rw [hens, except_bind_ok] at hok
      have hndE : NodupFS fsE := ensureDirs_nodup hens hnd
      have hEdir : pathIsDir fsE [] :=
        ensureDirs_mono hens ⟨rcs0, rfl⟩
      obtain ⟨rcsE, hrcsE⟩ := hEdir
      have hfsE : fsE = .dir rcsE := by
        simpa [FSNode.find] using hrcsE
      subst hfsE
      have hpathsE := ensureDirs_paths hens
        (fun p cats hm => ⟨(hwf.2 p cats hm).1,
          fun c cv hmc => ((hwf.2 p cats hm).2.2 c cv hmc).1⟩)
      cases hcl : cleanupFS h (.dir rcsE) with
      | error e => rw [hcl, except_bind_error] at hok; simp at hok
      | ok rC =>
        obtain ⟨fsC, tC⟩ := rC
        rw [hcl, except_bind_ok] at hok
        rw [show cleanupFS h (.dir rcsE)
            = (cleanupProjects h rcsE).map (fun r => (.dir r.1, r.2)) from rfl] at hcl
        cases hcp : cleanupProjects h rcsE with
        | error e => rw [hcp] at hcl; simp [Except.map] at hcl
        | ok rP =>
          obtain ⟨rcs2, tP⟩ := rP
          rw [hcp] at hcl
          simp only [Except.map, Except.ok.injEq, Prod.mk.injEq] at hcl
          obtain ⟨hfsC, -⟩ := hcl
          subst hfsC
          obtain ⟨hndC, hdirsC, hshapeC⟩ := cleanup_shape hwf hndE hcp
            (fun p cats hm => hpathsE p cats hm)
          cases hhid : createHiddenFolders h (.dir rcs2) with
          | error e => rw [hhid, except_bind_error] at hok; simp at hok
          | ok rH =>
            obtain ⟨fsH, tH⟩ := rH
            rw [hhid, except_bind_ok] at hok
            simp only [Except.ok.injEq, Prod.mk.injEq] at hok
            obtain ⟨rfl, -⟩ := hok
            rw [show createHiddenFolders h (.dir rcs2)
                = mkdirsMany (hiddenPaths h) (.dir rcs2) from rfl,
              mkdirsMany_eq_go, hiddenPaths_filter_id hwf, hiddenPaths_eq] at hhid
            obtain ⟨rcs1, rfl, hdirs1, hprojs1, -⟩ := proj_blocks_inv hwf h hndC
              hwf.1 (fun pc hm => hm) hdirsC hshapeC hhid
            refine ⟨⟨rcs1, rfl, hdirs1, hprojs1⟩, ?_⟩
            exact mkdirsManyGo_nodup hndC hhid

theorem ensureCats_id {p : String} {cats : ProjectCats} {g : FSNode}
    (hnd : NodupFS g) (hp0 : p ≠ "")
    (hcne : ∀ c cv, (c, cv) ∈ cats → c ≠ "")
    (hp : ∀ c cv, (c, cv) ∈ cats → pathIsDir g [p, c]) :
    ensureCats p cats g = .ok (g, []) := by
  induction cats with
  | nil => rfl
  | cons cc rest ih =>
    obtain ⟨c, cv⟩ := cc
    obtain ⟨d, hd⟩ := hp c cv (by simp)
    have hc0 : c ≠ "" := hcne c cv (by simp)
    have hfl : ([p, c].filter (fun s => s ≠ "")) = [p, c] := by simp [hp0, hc0]
    simp only [ensureCats]
    rw [show mkdirs g [p, c] = mkdirsGo g ([p, c].filter (fun s => s ≠ "")) []
      from rfl, hfl, mkdirsGo_id hnd hd [], except_bind_ok,
      ih (fun c2 cv2 hm => hcne c2 cv2 (List.mem_cons_of_mem _ hm))
        (fun c2 cv2 hm => hp c2 cv2 (List.mem_cons_of_mem _ hm)), except_bind_ok]
    rfl

theorem ensureDirs_id {hdoc : Hierarchy} {g : FSNode}
    (hnd : NodupFS g)
    (hwfnames : ∀ p cats, (p, cats) ∈ hdoc → p ≠ "" ∧
      ∀ c cv, (c, cv) ∈ cats → c ≠ "")
    (hp : ∀ p cats, (p, cats) ∈ hdoc → pathIsDir g [p] ∧
      ∀ c cv, (c, cv) ∈ cats → pathIsDir g [p, c]) :
    ensureDirs hdoc g = .ok (g, []) := by
  induction hdoc with
  | nil => rfl
  | cons pc rest ih =>
    obtain ⟨p, cats⟩ := pc
    obtain ⟨hp1, hp2⟩ := hp p cats (by simp)
    obtain ⟨d, hd⟩ := hp1
    have hp0 : p ≠ "" := (hwfnames p cats (by simp)).1
    have hfl : ([p].filter (fun s => s ≠ "")) = [p] := by simp [hp0]
    simp only [ensureDirs]
    rw [show mkdirs g [p] = mkdirsGo g ([p].filter (fun s => s ≠ "")) []
      from rfl, hfl, mkdirsGo_id hnd hd [], except_bind_ok,
      ensureCats_id hnd hp0 (hwfnames p cats (by simp)).2 hp2, except_bind_ok,
      ih (fun p2 cats2 hm => hwfnames p2 cats2 (List.mem_cons_of_mem _ hm))
        (fun p2 cats2 hm => hp p2 cats2 (List.mem_cons_of_mem _ hm)), except_bind_ok]
    rfl

theorem synced_paths {h : Hierarchy} {rcs : List (String × FSNode)}
    (hprojs : ∀ p cats, (p, cats) ∈ h →
      ∃ pcs, getKey rcs p = some (.dir pcs) ∧ ProjOk cats pcs) :
    ∀ p cats, (p, cats) ∈ h → pathIsDir (.dir rcs) [p] ∧
      ∀ c cv, (c, cv) ∈ cats → pathIsDir (.dir rcs) [p, c] := by
  intro p cats hm
  obtain ⟨pcs, hgp, main, rfl, hdirsm, hP2m, hcatsm⟩ := hprojs p cats hm
  constructor
  · exact ⟨main ++ hidTail cats, by simp [FSNode.find, hgp]⟩
  · intro c cv hmc
    obtain ⟨ccs, hgc, -⟩ := hcatsm c cv hmc
    have hgc2 : getKey (main ++ hidTail cats) c = some (.dir ccs) :=
      getKey_append_of_some _ hgc
    exact ⟨ccs, by simp [FSNode.find, hgp, hgc2]⟩

theorem cleanupCats_keep {cats : ProjectCats} {pre : Path}
    {l : List (String × FSNode)}
    (hk : ∀ e ∈ l, ∀ cc, e.2 = FSNode.dir cc → hasKey cats e.1 = true ∧
      ∀ x ∈ cc, isOrphanTxt (dbNamesOf ((getKey cats e.1).getD (.bare []))) x.1
        = false) :
    cleanupCats cats pre l = .ok (l, []) := by
  induction l with
  | nil => rfl
  | cons e rest ih =>
    obtain ⟨name, node⟩ := e
    have hrec := ih (fun e2 he2 => hk e2 (List.mem_cons_of_mem _ he2))
    cases node with
    | file =>
      rw [show cleanupCats cats pre ((name, FSNode.file) :: rest)
          = (cleanupCats cats pre rest).map
              (fun r => ((name, .file) :: r.1, r.2)) from by
        simp [cleanupCats]]
      rw [hrec]
      rfl
    | dir cc =>
      obtain ⟨hkey, hfree⟩ := hk (name, .dir cc) (by simp) cc rfl
      rw [show cleanupCats cats pre ((name, FSNode.dir cc) :: rest)
          = (do
              let r1 ← cleanupTxt (dbNamesOf ((getKey cats name).getD (.bare [])))
                (pre ++ [name]) cc
              let r2 ← cleanupCats cats pre rest
              .ok ((name, .dir r1.1) :: r2.1, r1.2 ++ r2.2)) from by
        simp [cleanupCats, hkey]]
      rw [cleanupTxt_id hfree, except_bind_ok, hrec, except_bind_ok]
      rfl

theorem cleanupCats_tail {cats : ProjectCats} {pre : Path}
    {l : List (String × FSNode)}
    (hk : ∀ e ∈ l, (∃ d, e.2 = FSNode.dir d) ∧ hasKey cats e.1 = false) :
    cleanupCats cats pre l
      = .ok ([], l.map (fun e => .removedDir (pre ++ [e.1]))) := by
  induction l with
  | nil => rfl
  | cons e rest ih =>
    obtain ⟨name, node⟩ := e
    obtain ⟨⟨d, hd⟩, hkf⟩ := hk (name, node) (by simp)
    simp only at hd
    subst hd
    rw [show cleanupCats cats pre ((name, FSNode.dir d) :: rest)
        = (cleanupCats cats pre rest).map
            (fun r => (r.1, .removedDir (pre ++ [name]) :: r.2)) from by
      simp [cleanupCats, hkf]]
    rw [ih (fun e2 he2 => hk e2 (List.mem_cons_of_mem _ he2))]
    rfl

theorem cleanupCats_append2 {cats : ProjectCats} {pre : Path}
    {l1 l2 a1 a2 : List (String × FSNode)} {e1 e2 : List FSEvent}
    (h1 : cleanupCats cats pre l1 = .ok (a1, e1))
    (h2 : cleanupCats cats pre l2 = .ok (a2, e2)) :
    cleanupCats cats pre (l1 ++ l2) = .ok (a1 ++ a2, e1 ++ e2) := by
  induction l1 generalizing a1 e1 with
  | nil =>
    simp only [cleanupCats, Except.ok.injEq, Prod.mk.injEq] at h1
    obtain ⟨rfl, rfl⟩ := h1
    simpa using h2
  | cons e rest ih =>
    obtain ⟨name, node⟩ := e
    cases node with
    | file =>
      rw [show cleanupCats cats pre ((name, FSNode.file) :: rest)
          = (cleanupCats cats pre rest).map
              (fun r => ((name, .file) :: r.1, r.2)) from by
        simp [cleanupCats]] at h1
      cases hrec : cleanupCats cats pre rest with
      | error e0 => rw [hrec] at h1; simp [Except.map] at h1
      | ok rr =>
        obtain ⟨b1, b2⟩ := rr
        rw [hrec] at h1
        simp only [Except.map, Except.ok.injEq, Prod.mk.injEq] at h1
        obtain ⟨rfl, rfl⟩ := h1
        rw [show (((name, FSNode.file) :: rest) ++ l2)
            = (name, FSNode.file) :: (rest ++ l2) from rfl]
        rw [show cleanupCats cats pre ((name, FSNode.file) :: (rest ++ l2))
            = (cleanupCats cats pre (rest ++ l2)).map
                (fun r => ((name, .file) :: r.1, r.2)) from by
          simp [cleanupCats]]
        rw [ih hrec]
        rfl
    | dir cc =>
      by_cases hkey : hasKey cats name = true
      · rw [show cleanupCats cats pre ((name, FSNode.dir cc) :: rest)
            = (do
                let r1 ← cleanupTxt (dbNamesOf ((getKey cats name).getD (.bare [])))
                  (pre ++ [name]) cc
                let r2 ← cleanupCats cats pre rest
                .ok ((name, .dir r1.1) :: r2.1, r1.2 ++ r2.2)) from by
          simp [cleanupCats, hkey]] at h1
        cases htxt : cleanupTxt (dbNamesOf ((getKey cats name).getD (.bare [])))
            (pre ++ [name]) cc with
        | error e0 => rw [htxt, except_bind_error] at h1; simp at h1
        | ok rt =>
          obtain ⟨k1, v1⟩ := rt
          rw [htxt, except_bind_ok] at h1
          cases hrec : cleanupCats cats pre rest with
          | error e0 => rw [hrec, except_bind_error] at h1; simp at h1
          | ok rr =>
            obtain ⟨b1, b2⟩ := rr
            rw [hrec, except_bind_ok] at h1
            simp only [Except.ok.injEq, Prod.mk.injEq] at h1
            obtain ⟨rfl, rfl⟩ := h1
            rw [show (((name, FSNode.dir cc) :: rest) ++ l2)
                = (name, FSNode.dir cc) :: (rest ++ l2) from rfl]
            rw [show cleanupCats cats pre ((name, FSNode.dir cc) :: (rest ++ l2))
                = (do
                    let r1 ← cleanupTxt
                      (dbNamesOf ((getKey cats name).getD (.bare [])))
                      (pre ++ [name]) cc
                    let r2 ← cleanupCats cats pre (rest ++ l2)
                    .ok ((name, .dir r1.1) :: r2.1, r1.2 ++ r2.2)) from by
              simp [cleanupCats, hkey]]
            rw [htxt, except_bind_ok, ih hrec, except_bind_ok]
            simp [List.append_assoc]
      · rw [show cleanupCats cats pre ((name, FSNode.dir cc) :: rest)
            = (cleanupCats cats pre rest).map
                (fun r => (r.1, .removedDir (pre ++ [name]) :: r.2)) from by
          simp [cleanupCats, hkey]] at h1
        cases hrec : cleanupCats cats pre rest with
        | error e0 => rw [hrec] at h1; simp [Except.map] at h1
        | ok rr =>
          obtain ⟨b1, b2⟩ := rr
          rw [hrec] at h1
          simp only [Except.map, Except.ok.injEq, Prod.mk.injEq] at h1
          obtain ⟨rfl, rfl⟩ := h1
          rw [show (((name, FSNode.dir cc) :: rest) ++ l2)
              = (name, FSNode.dir cc) :: (rest ++ l2) from rfl]
          rw [show cleanupCats cats pre ((name, FSNode.dir cc) :: (rest ++ l2))
              = (cleanupCats cats pre (rest ++ l2)).map
                  (fun r => (r.1, .removedDir (pre ++ [name]) :: r.2)) from by
            simp [cleanupCats, hkey]]
          rw [ih hrec]
          rfl

/-- Per-entry survivor of the orphan pass on a fully reconciled tree: a
project directory loses exactly its trailing hidden folders. -/
def trimE (h : Hierarchy) (e : String × FSNode) : String × FSNode :=
  match e.2 with
  | .file => e
  | .dir pcs =>
    match getKey h e.1 with
    | some cats => (e.1, .dir (pcs.take (pcs.length - (hidTail cats).length)))
    | none => e

/-- Per-entry events of the orphan pass on a fully reconciled tree. -/
def hidRemEvents (h : Hierarchy) (e : String × FSNode) : List FSEvent :=
  match e.2 with
  | .file => []
  | .dir _ =>
    match getKey h e.1 with
    | some cats =>
      (hiddenFolders.filter (fun hf => !hasKey cats hf)).map
        (fun hf => FSEvent.removedDir [e.1, hf])
    | none => []

theorem trimE_key (h : Hierarchy) (e : String × FSNode) : (trimE h e).1 = e.1 := by
  obtain ⟨n, v⟩ := e
  cases v with
  | file => rfl
  | dir pcs =>
    simp only [trimE]
    cases getKey h n with
    | some cats => rfl
    | none => rfl

theorem take_append_left {α : Type} (l1 l2 : List α) :
    (l1 ++ l2).take ((l1 ++ l2).length - l2.length) = l1 := by
  rw [List.length_append, Nat.add_sub_cancel]
  exact List.take_left' rfl

theorem cleanupProjects_entries {h : Hierarchy} {l : List (String × FSNode)}
    (hk : ∀ e ∈ l, e.2 = FSNode.file ∨
      ∃ cats main, getKey h e.1 = some cats ∧
        e.2 = FSNode.dir (main ++ hidTail cats) ∧
        cleanupCats cats [e.1] (main ++ hidTail cats)
          = .ok (main, (hiddenFolders.filter (fun hf => !hasKey cats hf)).map
              (fun hf => FSEvent.removedDir [e.1, hf]))) :
    cleanupProjects h l = .ok (l.map (trimE h), l.flatMap (hidRemEvents h)) := by
  induction l with
  | nil => rfl
  | cons e rest ih =>
    obtain ⟨name, node⟩ := e
    have hrec := ih (fun e2 he2 => hk e2 (List.mem_cons_of_mem _ he2))
    rcases hk (name, node) (by simp) with hfile | ⟨cats, main, hget, hnode, hcc⟩
    · simp only at hfile
      subst hfile
      rw [show cleanupProjects h ((name, FSNode.file) :: rest)
          = (cleanupProjects h rest).map
              (fun r => ((name, .file) :: r.1, r.2)) from by
        simp [cleanupProjects]]
      rw [hrec]
      simp only [Except.map, List.map_cons, List.flatMap_cons]
      rw [show trimE h (name, FSNode.file) = (name, FSNode.file) from rfl,
        show hidRemEvents h (name, FSNode.file) = [] from rfl]
      rfl
    · simp only at hnode
      subst hnode
      have hkey : hasKey h name = true := hasKey_of_getKey_some hget
      rw [show cleanupProjects h ((name, FSNode.dir (main ++ hidTail cats)) :: rest)
          = (do
              let r1 ← cleanupCats ((getKey h name).getD []) [name]
                (main ++ hidTail cats)
              let r2 ← cleanupProjects h rest
              .ok ((name, .dir r1.1) :: r2.1, r1.2 ++ r2.2)) from by
        simp [cleanupProjects, hkey]]
      rw [show (getKey h name).getD [] = cats from by rw [hget]; rfl]
      rw [hcc, except_bind_ok, hrec, except_bind_ok]
      simp only [List.map_cons, List.flatMap_cons]
      rw [show trimE h (name, FSNode.dir (main ++ hidTail cats))
          = (name, FSNode.dir main) from by
        simp only [trimE, hget]
        rw [take_append_left]]
      rw [show hidRemEvents h (name, FSNode.dir (main ++ hidTail cats))
          = (hiddenFolders.filter (fun hf => !hasKey cats hf)).map
              (fun hf => FSEvent.removedDir [name, hf]) from by
        simp only [hidRemEvents, hget]]

theorem cleanupProjects_second {h : Hierarchy} {rcs : List (String × FSNode)}
    (hnd : NodupFS (.dir rcs)) (hwf : wfDoc h)
    (hdirs : ∀ e ∈ rcs, e.2.isDir = true → hasKey h e.1 = true)
    (hprojs : ∀ p cats, (p, cats) ∈ h →
      ∃ pcs, getKey rcs p = some (.dir pcs) ∧ ProjOk cats pcs) :
    cleanupProjects h rcs = .ok (rcs.map (trimE h), rcs.flatMap (hidRemEvents h)) := by
  apply cleanupProjects_entries
  intro e he
  obtain ⟨name, node⟩ := e
  cases node with
  | file => exact Or.inl rfl
  | dir pcs =>
    have hkey : hasKey h name = true := hdirs (name, .dir pcs) he rfl
    rw [hasKey_iff_mem] at hkey
    obtain ⟨⟨p0, cats⟩, hm0, he0⟩ := List.mem_map.mp hkey
    simp only at he0
    rw [he0] at hm0
    obtain ⟨pcs2, hgp, main, hdec, hdirsm, hP2m, hcatsm⟩ := hprojs name cats hm0
    have hpcs2 : pcs2 = pcs := by
      have := getKey_of_mem_nodup he hnd.children
      rw [hgp] at this
      simp only [Option.some.injEq] at this
      injection this
    subst hpcs2
    subst hdec
    refine Or.inr ⟨cats, main, getKey_of_mem_nodup hm0 hwf.1, rfl, ?_⟩
    have hmainnd : (main.map Prod.fst).Nodup := by
      have h2 : ((main ++ hidTail cats).map Prod.fst).Nodup :=
        (hnd.mem he).children
      rw [List.map_append] at h2
      exact h2.of_append_left
    have hcnd : (cats.map Prod.fst).Nodup := (hwf.2 name cats hm0).2.1
    have hkeep : cleanupCats cats [name] main = .ok (main, []) := by
      apply cleanupCats_keep
      intro e2 he2 cc hcc2
      obtain ⟨n2, v2⟩ := e2
      simp only at hcc2
      subst hcc2
      have hk2 : hasKey cats n2 = true := hdirsm (n2, .dir cc) he2 rfl
      refine ⟨hk2, ?_⟩
      rw [hasKey_iff_mem] at hk2
      obtain ⟨⟨c0, cv0⟩, hmc0, hec0⟩ := List.mem_map.mp hk2
      simp only at hec0
      rw [hec0] at hmc0
      obtain ⟨ccs, hgc, hfree, -, -⟩ := hcatsm n2 cv0 hmc0
      have hccs : ccs = cc := by
        have := getKey_of_mem_nodup he2 hmainnd
        rw [hgc] at this
        simp only [Option.some.injEq] at this
        injection this
      subst hccs
      rw [show (getKey cats n2).getD (.bare []) = cv0 from by
        rw [getKey_of_mem_nodup hmc0 hcnd]; rfl]
      exact hfree
    have htail : cleanupCats cats [name] (hidTail cats)
        = .ok ([], (hidTail cats).map
            (fun e => .removedDir ([name] ++ [e.1]))) := by
      apply cleanupCats_tail
      intro e2 he2
      simp only [hidTail] at he2
      obtain ⟨hf, hhf, he3⟩ := List.mem_map.mp he2
      refine ⟨⟨[], by rw [← he3]⟩, ?_⟩
      rw [← he3]
      simp only
      exact (by simpa using (List.mem_filter.mp hhf).2)
    have hall := cleanupCats_append2 hkeep htail
    rw [List.append_nil] at hall
    have hev : (hidTail cats).map (fun e => FSEvent.removedDir ([name] ++ [e.1]))
        = (hiddenFolders.filter (fun hf => !hasKey cats hf)).map
            (fun hf => FSEvent.removedDir [name, hf]) := by
      simp only [hidTail, List.map_map]
      rfl
    rw [hall, List.nil_append, hev]

theorem getKey_map_keyfun {α β : Type} {f : String × α → String × β}
    (hkey : ∀ e, (f e).1 = e.1) (l : List (String × α)) (k : String) :
    getKey (l.map f) k = (getKey l k).map (fun v => (f (k, v)).2) := by
  induction l with
  | nil => rfl
  | cons e rest ih =>
    obtain ⟨a, b⟩ := e
    rcases hfab : f (a, b) with ⟨c, d⟩
    have hc : c = a := by
      have h2 := hkey (a, b)
      rw [hfab] at h2
      exact h2
    subst hc
    by_cases hak : c = k
    · subst hak
      simp [List.map_cons, hfab, getKey_cons]
    · simp only [List.map_cons, hfab, getKey_cons, hak, if_false]
      exact ih

theorem keys_map_keyfun {α β : Type} {f : String × α → String × β}
    (hkey : ∀ e, (f e).1 = e.1) (l : List (String × α)) :
    (l.map f).map Prod.fst = l.map Prod.fst := by
  rw [List.map_map]
  apply List.map_congr_left
  intro e he
  simpa using hkey e

theorem projRestore_ok {cats : ProjectCats} {pre : Path}
    {main : List (String × FSNode)}
    (hndpcs : NodupFS (.dir (main ++ hidTail cats)))
    (hdirsm : ∀ e ∈ main, e.2.isDir = true → hasKey cats e.1 = true)
    (hP2m : ∀ hf ∈ hiddenFolders, ∀ v, getKey main hf = some v →
      ∃ d, v = FSNode.dir d)
    (hcatsm : ∀ c cv, (c, cv) ∈ cats → ∃ ccs, getKey main c = some (.dir ccs) ∧
      CatOk cv ccs) :
    mkdirsManyGo (projRel cats) pre (.dir main)
      = .ok (.dir (main ++ hidTail cats),
          (hiddenFolders.filter (fun hf => !hasKey cats hf)).map
            (fun hf => FSEvent.created (pre ++ [hf]))) := by
  have hmainnd : (main.map Prod.fst).Nodup := by
    have h2 := hndpcs.children
    rw [List.map_append] at h2
    exact h2.of_append_left
  have hfc : hiddenFolders.filter (fun x => !hasKey main x)
      = hiddenFolders.filter (fun x => !hasKey cats x) := by
    apply List.filter_congr
    intro hf hhf
    congr 1
    by_cases hk : hasKey main hf = true
    · obtain ⟨v, hv⟩ := getKey_isSome_of_hasKey hk
      obtain ⟨d, rfl⟩ := hP2m hf hhf v hv
      rw [hk, hdirsm (hf, FSNode.dir d) (getKey_mem hv) rfl]
    · have hk2 : hasKey main hf = false := by simpa using hk
      rw [hk2]
      by_cases hkc : hasKey cats hf = true
      · exfalso
        rw [hasKey_iff_mem] at hkc
        obtain ⟨⟨c0, cv0⟩, hm0, he0⟩ := List.mem_map.mp hkc
        simp only at he0
        rw [he0] at hm0
        obtain ⟨ccs, hgc, -⟩ := hcatsm hf cv0 hm0
        rw [hasKey_of_getKey_some hgc] at hk2
        exact Bool.noConfusion hk2
      · have hkc2 : hasKey cats hf = false := by simpa using hkc
        rw [hkc2]
  have happ : (hiddenFolders.filter (fun x => !hasKey main x)).map
      (fun x => (x, FSNode.dir [])) = hidTail cats := by
    unfold hidTail
    rw [hfc]
  rw [show projRel cats = hiddenFolders.map (fun hf => [hf]) ++
      cats.flatMap (fun cc => (catRel cc.2).map (fun q => cc.1 :: q)) from rfl]
  apply mkdirsManyGo_append.mpr
  refine ⟨.dir (main ++ hidTail cats),
    (hiddenFolders.filter (fun x => !hasKey main x)).map
      (fun x => FSEvent.created (pre ++ [x])), [], ?_, ?_, ?_⟩
  · rw [singles_run_ok hiddenFolders_nodup hmainnd hP2m, happ]
  · apply mkdirsManyGo_id hndpcs
    intro q hq
    obtain ⟨⟨c, cv⟩, hmc, hq2⟩ := List.mem_flatMap.mp hq
    obtain ⟨q2, hq3, rfl⟩ := List.mem_map.mp hq2
    obtain ⟨ccs, hgc, hfree, hhid, hassets⟩ := hcatsm c cv hmc
    have hgc2 : getKey (main ++ hidTail cats) c = some (.dir ccs) :=
      getKey_append_of_some _ hgc
    rcases List.mem_append.mp hq3 with hq4 | hq4
    · obtain ⟨hf, hhf, rfl⟩ := List.mem_map.mp hq4
      obtain ⟨d, hd⟩ := hhid hf hhf
      exact ⟨d, by simp [FSNode.find, hgc2, hd]⟩
    · obtain ⟨a, ha, hq5⟩ := List.mem_flatMap.mp hq4
      obtain ⟨acs, hga, hahid⟩ := hassets a ha
      rcases List.mem_cons.mp hq5 with rfl | hq6
      · exact ⟨acs, by simp [FSNode.find, hgc2, hga]⟩
      · obtain ⟨hf, hhf, rfl⟩ := List.mem_map.mp hq6
        obtain ⟨d, hd⟩ := hahid hf hhf
        exact ⟨d, by simp [FSNode.find, hgc2, hga, hd]⟩
  · rw [List.append_nil, hfc]

theorem restore_blocks {hAll : Hierarchy} (hAllnd : (hAll.map Prod.fst).Nodup)
    (hrem : Hierarchy) :
    ∀ {rcs : List (String × FSNode)},
      NodupFS (.dir rcs) →
      (hrem.map Prod.fst).Nodup →
      (∀ pc ∈ hrem, pc ∈ hAll) →
      (∀ p cats, (p, cats) ∈ hrem →
        ∃ pcs, getKey rcs p = some (.dir pcs) ∧ ProjOk cats pcs) →
      ∃ t3, mkdirsManyGo
          (hrem.flatMap (fun pc => (projRel pc.2).map (fun q => pc.1 :: q))) []
          (.dir (rcs.map (fun e => if hasKey hrem e.1 then trimE hAll e else e)))
        = .ok (.dir rcs, t3) ∧
        ∀ ev ∈ t3, ∃ p hf, hasKey hAll p = true ∧ hf ∈ hiddenFolders ∧
          ev = .created [p, hf] := by
  induction hrem with
  | nil =>
    intro rcs hnd hknd hsub hprojs
    refine ⟨[], ?_, by simp⟩
    have hid : rcs.map (fun e => if hasKey ([] : Hierarchy) e.1 then trimE hAll e
        else e) = rcs := by
      simp
    rw [hid]
    rfl
  | cons pc rem2 ih =>
    obtain ⟨p, cats⟩ := pc
    intro rcs hnd hknd hsub hprojs
    obtain ⟨pcs, hgp, main, hdec, hdirsm, hP2m, hcatsm⟩ := hprojs p cats (by simp)
    subst hdec
    have hndpcs : NodupFS (.dir (main ++ hidTail cats)) := hnd.mem (getKey_mem hgp)
    have hfkey : ∀ e : String × FSNode,
        ((fun e => if hasKey ((p, cats) :: rem2) e.1 then trimE hAll e else e) e).1
          = e.1 := by
      intro e
      by_cases hk : hasKey ((p, cats) :: rem2) e.1 = true
      · simp [hk, trimE_key]
      · simp [hk]
    have hndmap : ((rcs.map (fun e => if hasKey ((p, cats) :: rem2) e.1
        then trimE hAll e else e)).map Prod.fst).Nodup := by
      rw [keys_map_keyfun hfkey]
      exact hnd.children
    have hgetAll : getKey hAll p = some cats :=
      getKey_of_mem_nodup (hsub (p, cats) (by simp)) hAllnd
    have hkcons : hasKey ((p, cats) :: rem2) p = true := by simp
    have hgcur : getKey (rcs.map (fun e => if hasKey ((p, cats) :: rem2) e.1
        then trimE hAll e else e)) p = some (.dir main) := by
      rw [getKey_map_keyfun hfkey, hgp]
      simp [hkcons, trimE, hgetAll, take_append_left]
    have hkcons2 : (∀ x : ProjectCats, (p, x) ∉ rem2) ∧
        (rem2.map Prod.fst).Nodup := by
      simpa using hknd
    have hpnotin : p ∉ rem2.map Prod.fst := by
      intro hmem
      obtain ⟨⟨a, b⟩, hm, he⟩ := List.mem_map.mp hmem
      simp only at he
      subst he
      exact hkcons2.1 b hm
    have hkrem2p : hasKey rem2 p = false := by
      rw [← Bool.not_eq_true, hasKey_iff_mem]
      exact hpnotin
    have hnext : setKey (rcs.map (fun e => if hasKey ((p, cats) :: rem2) e.1
          then trimE hAll e else e)) p (.dir (main ++ hidTail cats))
        = rcs.map (fun e => if hasKey rem2 e.1 then trimE hAll e else e) := by
      have hkm : hasKey (rcs.map (fun e => if hasKey ((p, cats) :: rem2) e.1
          then trimE hAll e else e)) p = true := hasKey_of_getKey_some hgcur
      unfold setKey
      rw [if_pos hkm, List.map_map]
      apply List.map_congr_left
      intro e he
      simp only [Function.comp]
      have hfc := hfkey e
      by_cases hep : e.1 = p
      · have hgv : getKey rcs e.1 = some e.2 :=
          getKey_of_mem_nodup he hnd.children
        rw [hep, hgp] at hgv
        have he2 : e.2 = FSNode.dir (main ++ hidTail cats) := by
          simpa using hgv.symm
        rw [if_pos (by rw [hfc, hep])]
        rw [show hasKey rem2 e.1 = false from by rw [hep]; exact hkrem2p]
        simp only [if_false, Bool.false_eq_true]
        exact (Prod.ext hep he2).symm
      · rw [if_neg (by rw [hfc]; exact hep)]
        rw [show hasKey ((p, cats) :: rem2) e.1 = hasKey rem2 e.1 from by
          simp only [hasKey_cons]
          rw [show (p == e.1) = false from
            beq_eq_false_iff_ne.mpr (fun hh => hep hh.symm)]
          simp]
    rw [List.flatMap_cons]
    obtain ⟨t3x, hrun2, hconf2⟩ := ih hnd hkcons2.2
      (fun pc2 hm2 => hsub pc2 (List.mem_cons_of_mem _ hm2))
      (fun p2 cats2 hm2 => hprojs p2 cats2 (List.mem_cons_of_mem _ hm2))
    refine ⟨(hiddenFolders.filter (fun hf => !hasKey cats hf)).map
        (fun hf => FSEvent.created (([] : Path) ++ [p] ++ [hf])) ++ t3x, ?_, ?_⟩
    · apply mkdirsManyGo_append.mpr
      refine ⟨.dir (rcs.map (fun e => if hasKey rem2 e.1 then trimE hAll e else e)),
        _, t3x, ?_, hrun2, rfl⟩
      rw [mkdirsManyGo_under hndmap hgcur,
        projRestore_ok hndpcs hdirsm hP2m hcatsm]
      simp only [Except.map]
      rw [hnext]
    · intro ev hev
      rcases List.mem_append.mp hev with hev2 | hev2
      · obtain ⟨hf, hhf2, rfl⟩ := List.mem_map.mp hev2
        refine ⟨p, hf, hasKey_of_getKey_some hgetAll,
          (List.mem_filter.mp hhf2).1, by simp⟩
      · exact hconf2 ev hev2

theorem sync_second {h : Hierarchy} {g : FSNode}
    (hwf : wfDoc h) (hnd : NodupFS g) (hs : Synced h g) :
    ∃ t2, syncFS h g = .ok (g, t2) ∧
      ∀ ev ∈ t2, ∃ p hf, hasKey h p = true ∧ hf ∈ hiddenFolders ∧
        (ev = .removedDir [p, hf] ∨ ev = .created [p, hf]) := by
  obtain ⟨rcs, rfl, hdirs, hprojs⟩ := hs
  have hens : ensureDirs h (.dir rcs) = .ok (.dir rcs, []) :=
    ensureDirs_id hnd
      (fun p cats hm => ⟨(hwf.2 p cats hm).1,
        fun c cv hmc => ((hwf.2 p cats hm).2.2 c cv hmc).1⟩)
      (synced_paths hprojs)
  have hclP : cleanupProjects h rcs
      = .ok (rcs.map (trimE h), rcs.flatMap (hidRemEvents h)) :=
    cleanupProjects_second hnd hwf hdirs hprojs
  have hcl : cleanupFS h (.dir rcs)
      = .ok (.dir (rcs.map (trimE h)), rcs.flatMap (hidRemEvents h)) := by
    rw [show cleanupFS h (.dir rcs)
        = (cleanupProjects h rcs).map (fun r => (.dir r.1, r.2)) from rfl, hclP]
    rfl
  have htrim : rcs.map (trimE h)
      = rcs.map (fun e => if hasKey h e.1 then trimE h e else e) := by
    apply List.map_congr_left
    intro e he
    by_cases hk : hasKey h e.1 = true
    · rw [if_pos hk]
    · rw [if_neg hk]
      obtain ⟨n, v⟩ := e
      cases v with
      | file => rfl
      | dir pcs =>
        simp only [trimE]
        cases hg : getKey h n with
        | none => rfl
        | some cats => exact absurd (hasKey_of_getKey_some hg) hk
  obtain ⟨t3, hrun3, hconf3⟩ := restore_blocks hwf.1 h hnd hwf.1
    (fun pc hm => hm) hprojs
  have hhid : createHiddenFolders h (.dir (rcs.map (trimE h)))
      = .ok (.dir rcs, t3) := by
    rw [show createHiddenFolders h (.dir (rcs.map (trimE h)))
        = mkdirsMany (hiddenPaths h) (.dir (rcs.map (trimE h))) from rfl,
      mkdirsMany_eq_go, hiddenPaths_filter_id hwf, hiddenPaths_eq, htrim]
    exact hrun3
  refine ⟨[] ++ rcs.flatMap (hidRemEvents h) ++ t3, ?_, ?_⟩
  · rw [show syncFS h (.dir rcs) = (do
        let r1 ← ensureDirs h (.dir rcs)
        let r2 ← cleanupFS h r1.1
        let r3 ← createHiddenFolders h r2.1
        .ok (r3.1, r1.2 ++ r2.2 ++ r3.2)) from rfl,
      hens, except_bind_ok, hcl, except_bind_ok, hhid, except_bind_ok]
  · intro ev hev
    rcases List.mem_append.mp hev with hev2 | hev2
    · rw [List.nil_append] at hev2
      obtain ⟨e, he, hevE⟩ := List.mem_flatMap.mp hev2
      obtain ⟨n, v⟩ := e
      cases v with
      | file => simp [hidRemEvents] at hevE
      | dir pcs =>
        simp only [hidRemEvents] at hevE
        cases hg : getKey h n with
        | none => rw [hg] at hevE; simp at hevE
        | some cats =>
          rw [hg] at hevE
          simp only at hevE
          obtain ⟨hf, hhf, rfl⟩ := List.mem_map.mp hevE
          exact ⟨n, hf, hasKey_of_getKey_some hg,
            (List.mem_filter.mp hhf).1, Or.inl rfl⟩
    · obtain ⟨p, hf, hk, hhf, heq⟩ := hconf3 ev hev2
      exact ⟨p, hf, hk, hhf, Or.inr heq⟩

/-- **C7 (amended).** Reconciliation is idempotent over the filesystem
*state* but not change-free: for a well-formed document (distinct
non-empty project/category names; asset identifiers non-empty and not
ending in `.txt`) and a duplicate-free tree, a second
`sync_filesystem_with_json` on the unchanged document returns the same
tree, and the only filesystem actions of the second call are removing and
re-creating project-level hidden folders (`cleanup_filesystem` deletes
each `__temp`/`__tools`/`__config` directly under a project because it is
a directory that is not a category, and `create_hidden_folders` appends
it again). -/
theorem sync_idempotent_amended (h : Hierarchy) (fs fs1 : FSNode)
    (t1 : List FSEvent) (hwf : wfDoc h) (hnd : NodupFS fs)
    (hok : syncFS h fs = .ok (fs1, t1)) :
    ∃ t2, syncFS h fs1 = .ok (fs1, t2) ∧
      ∀ ev ∈ t2, ∃ p hf, hasKey h p = true ∧ hf ∈ hiddenFolders ∧
        (ev = .removedDir [p, hf] ∨ ev = .created [p, hf]) := by
  obtain ⟨hs, hnd1⟩ := sync_establishes hwf hnd hok
  exact sync_second hwf hnd1 hs

/-- Counterexample to C7 as stated: on the document `{"P": {"C": []}}`
starting from an empty root, the second reconciliation call deletes and
re-creates the project-level hidden folder `P/__temp` (and its siblings),
so the second call is not free of filesystem changes. -/
theorem sync_second_call_changes :
    ∃ fs1 t1 t2,
      syncFS [("P", [("C", CatVal.bare [])])] (.dir []) = .ok (fs1, t1) ∧
      syncFS [("P", [("C", CatVal.bare [])])] fs1 = .ok (fs1, t2) ∧
      FSEvent.removedDir ["P", "__temp"] ∈ t2 ∧
      FSEvent.created ["P", "__temp"] ∈ t2 := by
  refine ⟨.dir [("P", .dir [("C", .dir [("__temp", .dir []), ("__tools", .dir []),
      ("__config", .dir [])]), ("__temp", .dir []), ("__tools", .dir []),
      ("__config", .dir [])])],
    [.created ["P"], .created ["P", "C"], .created ["P", "__temp"],
      .created ["P", "__tools"], .created ["P", "__config"],
      .created ["P", "C", "__temp"], .created ["P", "C", "__tools"],
      .created ["P", "C", "__config"]],
    [.removedDir ["P", "__temp"], .removedDir ["P", "__tools"],
      .removedDir ["P", "__config"], .created ["P", "__temp"],
      .created ["P", "__tools"], .created ["P", "__config"]],
    by rfl, by rfl, by decide, by decide⟩

/-- Witness for C7 (amended): the concrete document `{"P": {"C": []}}`
satisfies the hypotheses, and the amended theorem applies to the first
call from the empty root. -/
theorem sync_idempotent_amended_witness :
    wfDoc [("P", [("C", CatVal.bare [])])] ∧
    NodupFS (FSNode.dir []) ∧
    ∃ fs1 t1 t2,
      syncFS [("P", [("C", CatVal.bare [])])] (.dir []) = .ok (fs1, t1) ∧
      syncFS [("P", [("C", CatVal.bare [])])] fs1 = .ok (fs1, t2) ∧
      ∀ ev ∈ t2, ∃ p hf, hasKey [("P", [("C", CatVal.bare [])])] p = true ∧
        hf ∈ hiddenFolders ∧
        (ev = .removedDir [p, hf] ∨ ev = .created [p, hf]) := by
  have hwf : wfDoc [("P", [("C", CatVal.bare [])])] := by
    refine ⟨by decide, ?_⟩
    intro p cats hm
    simp only [List.mem_singleton] at hm
    obtain ⟨rfl, rfl⟩ := Prod.mk.injEq .. ▸ hm
    refine ⟨by decide, by decide, ?_⟩
    intro c cv hmc
    simp only [List.mem_singleton] at hmc
    obtain ⟨rfl, rfl⟩ := Prod.mk.injEq .. ▸ hmc
    exact ⟨by decide, by simp [getAssets]⟩
  have hnd : NodupFS (FSNode.dir ([] : List (String × FSNode))) :=
    NodupFS.dir (by simp) (by simp)
  have h1 : syncFS [("P", [("C", CatVal.bare [])])] (.dir [])
      = .ok (.dir [("P", .dir [("C", .dir [("__temp", .dir []),
          ("__tools", .dir []), ("__config", .dir [])]), ("__temp", .dir []),
          ("__tools", .dir []), ("__config", .dir [])])],
        [.created ["P"], .created ["P", "C"], .created ["P", "__temp"],
          .created ["P", "__tools"], .created ["P", "__config"],
          .created ["P", "C", "__temp"], .created ["P", "C", "__tools"],
          .created ["P", "C", "__config"]]) := by rfl
  obtain ⟨t2, h2, hconf⟩ := sync_idempotent_amended
    [("P", [("C", CatVal.bare [])])] (.dir []) _ _ hwf hnd h1
  exact ⟨hwf, hnd, _, _, t2, h1, h2, hconf⟩

end PMT
